import Mathlib

/-!
# A shallow embedding of `shell_init.c` (the `vnsh` command interpreter)

C strings are modelled as `List Char` (the characters before the terminating
NUL).  Library routines that scan a string in place (`strtok`, `strsep`) are
modelled by functions from the text at the saved pointer to the token returned
and the text at the new saved pointer.  Loops of the source are recursive
functions that take the number of iterations still allowed; every result that
depends on that number is proved for an explicit, sufficient value.
-/

namespace Vnsh

/-- A C string: the characters that precede the terminating NUL. -/
abbrev CStr := List Char

/-- The result of running a piece of the program: it finishes with a value,
writes outside an array it allocated, or uses up the iterations it was
given. -/
inductive Run (α : Type) where
  | done (a : α)
  | outOfBounds
  | outOfFuel
  deriving DecidableEq, Repr

/-! ## String scanning -/

/-- The call `strtok(s, d)` for a one-character delimiter string `d`, on the
text `s` at the saved pointer: leading delimiters are skipped; at the end of
the string the call returns `NULL`; otherwise the token runs up to the next
delimiter, which is overwritten by NUL, and the saved pointer moves just past
it (or stays at the end of the string). -/
def strtok (delim : Char) (s : CStr) : Option (CStr × CStr) :=
  match s.dropWhile (fun c => c == delim) with
  | [] => none
  | c :: cs =>
    some ((c :: cs).takeWhile (fun x => x != delim),
          ((c :: cs).dropWhile (fun x => x != delim)).drop 1)

/-- The loop `token = strtok(s, d); while (token != NULL) { keep token;
token = strtok(NULL, d); }`, collecting the tokens in order. -/
def strtokLoop (delim : Char) : Nat → CStr → List CStr
  | 0, _ => []
  | fuel + 1, s =>
    match strtok delim s with
    | none => []
    | some (tok, rest) => tok :: strtokLoop delim fuel rest

/-- All tokens that a `strtok` loop over `s` yields. -/
def strtokAll (delim : Char) (s : CStr) : List CStr :=
  strtokLoop delim (s.length + 1) s

/-- The call `strsep(&rest, d)` for a one-character delimiter string `d`:
`NULL` when `rest` is `NULL`; otherwise the (possibly empty) text up to the
first delimiter, with `rest` moved just past that delimiter, or set to `NULL`
when there is none. -/
def strsep (delim : Char) : Option CStr → Option (CStr × Option CStr)
  | none => none
  | some s =>
    match s.dropWhile (fun x => x != delim) with
    | [] => some (s.takeWhile (fun x => x != delim), none)
    | _ :: r => some (s.takeWhile (fun x => x != delim), some r)

/-- The number of slots of the array `tokens` that `parseInput` allocates
(`malloc(256 * sizeof(char *))`). -/
def tokensCapacity : Nat := 256

/-- The loop of `parseInput`; `tokens` holds the slots written so far, so the
next write goes to index `tokens.length`.  A write at an index that is not
below `tokensCapacity` is outside the array. -/
def parseInputLoop : Nat → Option CStr → List CStr → Run (List CStr)
  | 0, _, _ => Run.outOfFuel
  | fuel + 1, rest, tokens =>
    match strsep ' ' rest with
    | none =>
      -- tokens[i] = NULL;
      if tokens.length < tokensCapacity then Run.done tokens else Run.outOfBounds
    | some (token, rest1) =>
      if token = [] then parseInputLoop fuel rest1 tokens
      else if tokens.length < tokensCapacity then
        parseInputLoop fuel rest1 (tokens ++ [token])
      else Run.outOfBounds

/-- The function `parseInput`: the tokens stored before the terminating
`NULL`. -/
def parseInput (inputLine : CStr) : Run (List CStr) :=
  parseInputLoop (inputLine.length + 2) (some inputLine) []

/-! ## Reference notions used to state the properties -/

/-- The maximal runs of characters other than `delim` in `s` that are not
empty, from left to right: `s` is cut at every `delim` and the empty pieces are
dropped. -/
def maximalRuns (delim : Char) (s : CStr) : List CStr :=
  (s.splitOn delim).filter (fun t => !t.isEmpty)

/-- The single-space join of a list of strings. -/
def joinSpaces (ts : List CStr) : CStr :=
  [' '].intercalate ts

/-! ## Shell variables and variable expansion -/

/-- One node of the linked list `shellVars`. -/
structure ShellVar where
  name : CStr
  value : CStr
  deriving DecidableEq, Repr

/-- The function `getShellVarValue`: the value of the first node whose name is
`varName`, `NULL` when there is none. -/
def getShellVarValue (shellVars : List ShellVar) (varName : CStr) : Option CStr :=
  match shellVars with
  | [] => none
  | var :: next =>
    if var.name = varName then some var.value else getShellVarValue next varName

/-- The call `strcat(dst, src)` where `dst` lives in a buffer of `size` bytes:
the result and its terminating NUL have to fit. -/
def strcat (size : Nat) (dst src : CStr) : Run CStr :=
  if dst.length + src.length + 1 ≤ size then Run.done (dst ++ src) else Run.outOfBounds

/-- The value substituted for the variable `varName` in `expandVars`: the
environment first, then the shell variables, then the empty string. -/
def lookupValue (getenv : CStr → Option CStr) (shellVars : List ShellVar)
    (varName : CStr) : CStr :=
  match getenv varName with
  | some value => value
  | none =>
    match getShellVarValue shellVars varName with
    | some value => value
    | none => []

/-- The `while (token)` loop of `expandVars`.  `token` is the current token,
`saved` the text at the saved pointer of `strtok`, `expandedLine` the text
built so far and `bufferSize` the size of the buffer that holds it. -/
def expandVarsLoop (getenv : CStr → Option CStr) (shellVars : List ShellVar) :
    Nat → Option CStr → CStr → CStr → Nat → Run CStr
  | 0, _, _, _, _ => Run.outOfFuel
  | _ + 1, none, _, expandedLine, _ => Run.done expandedLine
  | fuel + 1, some token, saved, expandedLine, bufferSize =>
    let bufferSize1 :=
      if token.head? = some '$' ∧ token.length > 1 then
        bufferSize + (lookupValue getenv shellVars (token.drop 1)).length
      else bufferSize
    let piece :=
      if token.head? = some '$' ∧ token.length > 1 then
        lookupValue getenv shellVars (token.drop 1)
      else token
    match strcat bufferSize1 expandedLine piece with
    | Run.done expandedLine1 =>
      match strtok ' ' saved with
      | none => expandVarsLoop getenv shellVars fuel none [] expandedLine1 bufferSize1
      | some (token1, saved1) =>
        match strcat bufferSize1 expandedLine1 [' '] with
        | Run.done expandedLine2 =>
          expandVarsLoop getenv shellVars fuel (some token1) saved1 expandedLine2 bufferSize1
        | Run.outOfBounds => Run.outOfBounds
        | Run.outOfFuel => Run.outOfFuel
    | Run.outOfBounds => Run.outOfBounds
    | Run.outOfFuel => Run.outOfFuel

/-- The function `expandVars`, with the process environment given by `getenv`
and the shell variables by the list `shellVars`.  Memory allocation is taken
to succeed. -/
def expandVars (getenv : CStr → Option CStr) (shellVars : List ShellVar)
    (origInputLine : CStr) : Run CStr :=
  let bufferSize := origInputLine.length + 1
  match strtok ' ' origInputLine with
  | none => expandVarsLoop getenv shellVars (origInputLine.length + 2) none [] [] bufferSize
  | some (token, saved) =>
    expandVarsLoop getenv shellVars (origInputLine.length + 2) (some token) saved [] bufferSize

/-- The image of one token under expansion, in the words of the
specification: a token that starts with `$` and is longer than one character
becomes the environment value of the name after `$` if the environment defines
it, else the shell-variable value of that name if the store defines it, else
the empty string; any other token is kept. -/
def specTokenImage (getenv : CStr → Option CStr) (shellVars : List ShellVar)
    (token : CStr) : CStr :=
  match token with
  | '$' :: c :: cs =>
    ((getenv (c :: cs)).orElse (fun _ => getShellVarValue shellVars (c :: cs))).getD []
  | _ => token

/-- Expansion in the words of the specification: the single-space join, in
order, of the images of the space-delimited tokens of the line. -/
def specExpand (getenv : CStr → Option CStr) (shellVars : List ShellVar)
    (line : CStr) : CStr :=
  joinSpaces ((maximalRuns ' ' line).map (specTokenImage getenv shellVars))

/-! ## Command history -/

/-- The global `history`.  `commands` lists the slots of the array the field
`commands` points to (a slot holding `NULL` is `none`); a null pointer and an
allocation of no slots both have no slot. -/
structure CommandHistory where
  commands : List (Option CStr)
  maxSize : Int
  currSize : Int
  deriving DecidableEq, Repr

/-- The constant `DEFAULT_HISTORY_SIZE`. -/
def DEFAULT_HISTORY_SIZE : Nat := 5

/-- The function `initHistory`: `calloc` yields `DEFAULT_HISTORY_SIZE` null
slots. -/
def initHistory : CommandHistory :=
  { commands := List.replicate DEFAULT_HISTORY_SIZE none
    maxSize := DEFAULT_HISTORY_SIZE
    currSize := 0 }

/-- Reading `commands[i]`: outside the slots of the array the access is
invalid. -/
def readSlot (commands : List (Option CStr)) (i : Int) : Run (Option CStr) :=
  if 0 ≤ i ∧ i < commands.length then Run.done (commands.getD i.toNat none)
  else Run.outOfBounds

/-- Writing `commands[i] = v`. -/
def writeSlot (commands : List (Option CStr)) (i : Int) (v : Option CStr) :
    Run (List (Option CStr)) :=
  if 0 ≤ i ∧ i < commands.length then Run.done (commands.set i.toNat v)
  else Run.outOfBounds

/-- The loop `for (int i = top; i > 0; i--) commands[i] = commands[i - 1];`,
started with `i = top`. -/
def shiftLoop : Nat → List (Option CStr) → Run (List (Option CStr))
  | 0, commands => Run.done commands
  | i + 1, commands =>
    if i + 1 < commands.length then
      shiftLoop i (commands.set (i + 1) (commands.getD i none))
    else Run.outOfBounds

/-- The tail of `addHistory`: the entries from index `top` down are moved up
by one slot and a copy of `command` is stored in slot 0. -/
def pushFront (commands : List (Option CStr)) (top : Int) (command : CStr) :
    Run (List (Option CStr)) :=
  match shiftLoop top.toNat commands with
  | Run.done shifted => writeSlot shifted 0 (some command)
  | Run.outOfBounds => Run.outOfBounds
  | Run.outOfFuel => Run.outOfFuel

/-- The function `addHistory`; `command` is `none` for a null pointer. -/
def addHistory (history : CommandHistory) (command : Option CStr) : Run CommandHistory :=
  match command with
  | none => Run.done history
  | some cmd =>
    -- history.currSize > 0 && strcmp(history.commands[0], command) == 0
    let same : Run Bool :=
      if history.currSize > 0 then
        match readSlot history.commands 0 with
        | Run.done (some first) => Run.done (first == cmd)
        | Run.done none => Run.outOfBounds
        | Run.outOfBounds => Run.outOfBounds
        | Run.outOfFuel => Run.outOfFuel
      else Run.done false
    match same with
    | Run.done true => Run.done history
    | Run.done false =>
      if history.currSize = history.maxSize ∧ history.maxSize ≠ 0 then
        -- free(history.commands[history.maxSize - 1]);
        match readSlot history.commands (history.maxSize - 1) with
        | Run.done _ =>
          match pushFront history.commands (history.maxSize - 1) cmd with
          | Run.done commands => Run.done { history with commands := commands }
          | Run.outOfBounds => Run.outOfBounds
          | Run.outOfFuel => Run.outOfFuel
        | Run.outOfBounds => Run.outOfBounds
        | Run.outOfFuel => Run.outOfFuel
      else if history.maxSize = 0 then Run.done history
      else
        match pushFront history.commands (history.currSize + 1 - 1) cmd with
        | Run.done commands =>
          Run.done { history with commands := commands, currSize := history.currSize + 1 }
        | Run.outOfBounds => Run.outOfBounds
        | Run.outOfFuel => Run.outOfFuel
    | Run.outOfBounds => Run.outOfBounds
    | Run.outOfFuel => Run.outOfFuel

/-- The entries the history holds, most recent first: the first `currSize`
slots. -/
def CommandHistory.entries (history : CommandHistory) : List (Option CStr) :=
  history.commands.take history.currSize.toNat

/-! ## Processes, descriptors and system calls -/

/-- What an open descriptor refers to while `executePipeCommands` runs:
`inherited fd` is whatever descriptor `fd` referred to when the function was
entered; `pipeRead j` and `pipeWrite j` are the two ends of the pipe created by
the call `pipe(pipes[j])`. -/
inductive Desc where
  | inherited (fd : Nat)
  | pipeRead (j : Nat)
  | pipeWrite (j : Nat)
  deriving DecidableEq, Repr

/-- The descriptor table of a process: what each descriptor number refers to,
`none` for a closed descriptor. -/
abbrev FdTable := Nat → Option Desc

/-- The descriptor numbers of the standard streams. -/
def STDIN_FILENO : Nat := 0
def STDOUT_FILENO : Nat := 1

/-- The exit status macro `EXIT_FAILURE`. -/
def EXIT_FAILURE : Int := 1

/-- The part of the operating system the program cannot see in advance. -/
structure World where
  /-- The limit on open descriptors of a process: every descriptor is below it. -/
  nofile : Nat
  /-- Whether `fork` succeeds when the call running has forked `k` children. -/
  forkOk : Nat → Bool
  /-- Whether `execvp` succeeds for this argument vector. -/
  execOk : List CStr → Bool
  /-- Whether `chdir` to this path succeeds. -/
  chdirOk : CStr → Bool

/-- The system calls and outputs of the interpreter process, in the order it
makes them. -/
inductive Event where
  | pipe (j r w : Nat)
  | pipeFailed (j : Nat)
  /-- A successful `fork` in `executePipeCommands`, for stage `i`, whose child
  runs the stage text `command`. -/
  | fork (i : Nat) (command : CStr)
  | forkFailed (i : Nat)
  /-- A successful `fork` in `executeExternalCommand`, whose child runs
  `args`. -/
  | forkCommand (args : List CStr)
  | close (fd : Nat)
  | wait (collected : Bool)
  | waitpid (collected : Bool)
  | chdir (path : CStr) (ok : Bool)
  | stdout (text : CStr)
  | perror (text : CStr)
  deriving DecidableEq, Repr

/-- How a forked child leaves the code of the interpreter. -/
inductive ChildEnd where
  /-- `execvp` succeeded: the child runs the program with this descriptor
  table. -/
  | execed (args : List CStr) (fds : FdTable)
  /-- The child terminated through `exit(code)`. -/
  | exited (code : Int) (fds : FdTable)
  /-- `execvp` failed in `executePipeCommands`: the child printed `text` and
  the function returned to its caller, `processInput`, inside the child. -/
  | returned (text : CStr) (args : List CStr) (fds : FdTable)
  /-- The child made an invalid memory access. -/
  | faulted (fds : FdTable)

/-- The descriptor table with which a child left the interpreter's code. -/
def ChildEnd.fds : ChildEnd → FdTable
  | ChildEnd.execed _ fds => fds
  | ChildEnd.exited _ fds => fds
  | ChildEnd.returned _ _ fds => fds
  | ChildEnd.faulted fds => fds

/-- The exit status of a child that terminated through `exit`. -/
def ChildEnd.exitCode : ChildEnd → Option Int
  | ChildEnd.exited code _ => some code
  | _ => none

/-- Whether the child is back in the interpreter's own code after the call
that forked it. -/
def ChildEnd.isReturned : ChildEnd → Bool
  | ChildEnd.returned _ _ _ => true
  | _ => false

/-- The argument vector handed to a successful `execvp`. -/
def ChildEnd.execArgs : ChildEnd → Option (List CStr)
  | ChildEnd.execed args _ => some args
  | _ => none

/-- The lowest closed descriptor below the limit. -/
def lowestFree (nofile : Nat) (t : FdTable) : Option Nat :=
  (List.range nofile).find? (fun fd => (t fd).isNone)

/-- The system call `pipe` for `pipes[j]`: the two lowest closed descriptors
become the read end and the write end; the call fails when there are not
two. -/
def sysPipe (nofile : Nat) (t : FdTable) (j : Nat) : Option (FdTable × Nat × Nat) :=
  match lowestFree nofile t with
  | none => none
  | some r =>
    match lowestFree nofile (Function.update t r (some (Desc.pipeRead j))) with
    | none => none
    | some w =>
      some (Function.update (Function.update t r (some (Desc.pipeRead j))) w
        (some (Desc.pipeWrite j)), r, w)

/-- The system call `dup2(oldfd, newfd)`: fails when `oldfd` is closed. -/
def sysDup2 (t : FdTable) (oldfd newfd : Nat) : Option FdTable :=
  match t oldfd with
  | none => none
  | some d => some (Function.update t newfd (some d))

/-- The system call `close(fd)`; its result is ignored by the program. -/
def sysClose (t : FdTable) (fd : Nat) : FdTable :=
  Function.update t fd none

/-- The interpreter process during a call of `executePipeCommands`. -/
structure Proc where
  fds : FdTable
  pipes : List (Nat × Nat)
  unreaped : Nat
  trace : List Event
  children : List ChildEnd

/-- The descriptor `pipes[j][0]`. -/
def readEnd (pipes : List (Nat × Nat)) (j : Nat) : Nat := (pipes.getD j (0, 0)).1

/-- The descriptor `pipes[j][1]`. -/
def writeEnd (pipes : List (Nat × Nat)) (j : Nat) : Nat := (pipes.getD j (0, 0)).2

/-- A loop of the parent either runs to its end or stops in `handleError`. -/
inductive Loop where
  | finished (p : Proc)
  | failed (p : Proc)

/-- The loop `for (i = 0; i < numCommands - 1; i++) if (pipe(pipes[i]) == -1)
handleError();` with `todo` iterations left, the next one for `pipes[j]`. -/
def pipeLoop (nofile : Nat) : Nat → Nat → Proc → Loop
  | 0, _, p => Loop.finished p
  | todo + 1, j, p =>
    match sysPipe nofile p.fds j with
    | none => Loop.failed { p with trace := p.trace ++ [Event.pipeFailed j] }
    | some (t, r, w) =>
      pipeLoop nofile todo (j + 1)
        { p with fds := t, pipes := p.pipes ++ [(r, w)],
                 trace := p.trace ++ [Event.pipe j r w] }

/-- A `strtok` loop that stores its tokens in an array of `capacity` slots,
`acc` holding the slots written so far. -/
def strtokFill (delim : Char) (capacity : Nat) : Nat → CStr → List CStr → Run (List CStr)
  | 0, _, _ => Run.outOfFuel
  | fuel + 1, s, acc =>
    match strtok delim s with
    | none => Run.done acc
    | some (tok, rest) =>
      if acc.length < capacity then strtokFill delim capacity fuel rest (acc ++ [tok])
      else Run.outOfBounds

/-- The argument vector the child builds from its stage text: the array
`args` has `numSpaces + 2` slots, filled by a `strtok` loop on `" "` and closed
by `args[argc] = NULL`. -/
def stageArgs (command : CStr) : Run (List CStr) :=
  let numSpaces := command.count ' '
  match strtokFill ' ' (numSpaces + 2) (command.length + 1) command [] with
  | Run.done args =>
    if args.length < numSpaces + 2 then Run.done args else Run.outOfBounds
  | Run.outOfBounds => Run.outOfBounds
  | Run.outOfFuel => Run.outOfFuel

/-- The message printed when `execvp` fails in `executePipeCommands`. -/
def execvpMessage : CStr := "execvp: No such file or directory\n".toList

/-- The descriptor wiring of the child forked for stage `i`, up to the point
where it builds its argument vector; `none` when a `dup2` fails and the child
calls `handleError`. -/
def wireChild (pipes : List (Nat × Nat)) (t : FdTable) (numCommands i : Nat) :
    Option FdTable :=
  let t1 : Option FdTable :=
    if i ≠ 0 then
      match sysDup2 t (readEnd pipes (i - 1)) STDIN_FILENO with
      | none => none
      | some t => some (sysClose t (readEnd pipes (i - 1)))
    else some t
  let t2 : Option FdTable :=
    match t1 with
    | none => none
    | some t =>
      if i ≠ numCommands - 1 then
        match sysDup2 t (writeEnd pipes i) STDOUT_FILENO with
        | none => none
        | some t => some (sysClose t (writeEnd pipes i))
      else some t
  match t2 with
  | none => none
  | some t =>
    some ((List.range (numCommands - 1)).foldl
      (fun t j => if j ≠ i then sysClose (sysClose t (readEnd pipes j)) (writeEnd pipes j) else t)
      t)

/-- The code run by the child forked for stage `i` (the branch `pid == 0`),
started with the parent's descriptor table `t`. -/
def pipeChild (w : World) (commandArray : List CStr) (pipes : List (Nat × Nat))
    (t : FdTable) (numCommands i : Nat) : ChildEnd :=
  match wireChild pipes t numCommands i with
  | none => ChildEnd.exited (-1) t
  | some t =>
    match stageArgs (commandArray.getD i []) with
    | Run.done [] => ChildEnd.faulted t
    | Run.done (program :: rest) =>
      if w.execOk (program :: rest) then ChildEnd.execed (program :: rest) t
      else ChildEnd.returned execvpMessage (program :: rest) t
    | Run.outOfBounds => ChildEnd.faulted t
    | Run.outOfFuel => ChildEnd.faulted t

/-- The loop `for (i = 0; i < numCommands; i++) { pid = fork(); ... }` as the
parent runs it, with `todo` iterations left, the next one for stage `i`. -/
def forkLoop (w : World) (commandArray : List CStr) (numCommands : Nat) :
    Nat → Nat → Proc → Loop
  | 0, _, p => Loop.finished p
  | todo + 1, i, p =>
    if w.forkOk i then
      forkLoop w commandArray numCommands todo (i + 1)
        { p with unreaped := p.unreaped + 1,
                 trace := p.trace ++ [Event.fork i (commandArray.getD i [])],
                 children := p.children ++ [pipeChild w commandArray p.pipes p.fds numCommands i] }
    else Loop.failed { p with trace := p.trace ++ [Event.forkFailed i] }

/-- The loop `for (i = 0; i < numCommands - 1; i++) { close(pipes[i][0]);
close(pipes[i][1]); }` of the parent. -/
def closeLoop (numCommands : Nat) (p : Proc) : Proc :=
  (List.range (numCommands - 1)).foldl
    (fun p j =>
      { p with fds := sysClose (sysClose p.fds (readEnd p.pipes j)) (writeEnd p.pipes j),
               trace := p.trace ++ [Event.close (readEnd p.pipes j),
                                    Event.close (writeEnd p.pipes j)] })
    p

/-- The call `wait(NULL)`: it collects the termination of one child when the
process has a child it has not waited for (children are taken to terminate),
and fails at once otherwise. -/
def sysWait (p : Proc) : Proc :=
  if 0 < p.unreaped then
    { p with unreaped := p.unreaped - 1, trace := p.trace ++ [Event.wait true] }
  else { p with trace := p.trace ++ [Event.wait false] }

/-- The loop `for (i = 0; i < numCommands; i++) wait(NULL);`. -/
def waitLoop (numCommands : Nat) (p : Proc) : Proc :=
  (List.range numCommands).foldl (fun p _ => sysWait p) p

/-! ## The interpreter process -/

/-- The state of the interpreter process between two library or system
calls. -/
structure Shell where
  history : CommandHistory
  shellVars : List ShellVar
  /-- The process environment, as `getenv` sees it. -/
  env : CStr → Option CStr
  /-- Which descriptor numbers are open. -/
  openFds : Nat → Bool
  /-- The number of children forked and not yet waited for. -/
  unreaped : Nat
  /-- The system calls and outputs made so far. -/
  trace : List Event
  /-- How each child forked so far left the interpreter's code. -/
  children : List ChildEnd

/-- The outcome of a function call in the interpreter process: it returns,
the process terminates through `exit`, or it makes an invalid memory
access. -/
inductive Step (α : Type) where
  | ok (a : α) (sh : Shell)
  | exit (code : Int) (sh : Shell)
  | fault (sh : Shell)

/-- The state in which a call left the process. -/
def Step.shell {α : Type} : Step α → Shell
  | Step.ok _ sh => sh
  | Step.exit _ sh => sh
  | Step.fault sh => sh

/-- Whether the call returned to its caller. -/
def Step.isOk {α : Type} : Step α → Bool
  | Step.ok _ _ => true
  | _ => false

/-- The exit status, when the process terminated through `exit`. -/
def Step.exitCode {α : Type} : Step α → Option Int
  | Step.exit code _ => some code
  | _ => none

/-- The process in which a loop of the parent ended. -/
def Loop.proc : Loop → Proc
  | Loop.finished p => p
  | Loop.failed p => p

/-- Whether a loop of the parent ran to its end. -/
def Loop.isFinished : Loop → Bool
  | Loop.finished _ => true
  | Loop.failed _ => false

/-- The function `handleError`: `exit(-1)`. -/
def handleError {α : Type} (sh : Shell) : Step α := Step.exit (-1) sh

/-- The descriptor table on entry to `executePipeCommands`. -/
def entryTable (openFds : Nat → Bool) : FdTable :=
  fun fd => if openFds fd then some (Desc.inherited fd) else none

/-- The first part of `executePipeCommands` after the history call: the
count of `|` characters, the `strtok` loop that fills `commandArray`
(`pipeCount + 1` slots) and the test `pipeCount == numCommands`.  The value is
`none` when the function returns at that test, and the stage texts
otherwise. -/
def splitPipeline (pipeCommand : CStr) : Run (Option (List CStr)) :=
  let pipeCount := pipeCommand.count '|'
  match strtokFill '|' (pipeCount + 1) (pipeCommand.length + 1) pipeCommand [] with
  | Run.done commandArray =>
    if pipeCount = commandArray.length then Run.done none else Run.done (some commandArray)
  | Run.outOfBounds => Run.outOfBounds
  | Run.outOfFuel => Run.outOfFuel

/-- The rest of `executePipeCommands` in the parent, from the declaration of
`pipes` on: the pipes are created, the children forked, the parent's pipe
descriptors closed and the children waited for.  The array `pipes` is
declared with `numCommands - 1` rows; for `numCommands` 0 or 1 it has no row
that is ever used, and the loops over `numCommands - 1` run no iteration. -/
def pipeParent (w : World) (commandArray : List CStr) (p : Proc) : Loop :=
  let numCommands := commandArray.length
  match pipeLoop w.nofile (numCommands - 1) 0 p with
  | Loop.failed p => Loop.failed p
  | Loop.finished p =>
    match forkLoop w commandArray numCommands numCommands 0 p with
    | Loop.failed p => Loop.failed p
    | Loop.finished p => Loop.finished (waitLoop numCommands (closeLoop numCommands p))

/-- The process record with which the parent starts the pipeline. -/
def Shell.toProc (sh : Shell) : Proc :=
  { fds := entryTable sh.openFds, pipes := [], unreaped := sh.unreaped,
    trace := sh.trace, children := sh.children }

/-- The interpreter state after the pipeline code has run in the parent. -/
def Shell.ofProc (sh : Shell) (p : Proc) : Shell :=
  { sh with openFds := fun fd => (p.fds fd).isSome, unreaped := p.unreaped,
            trace := p.trace, children := p.children }

/-- The function `executePipeCommands`, as run by the interpreter process. -/
def executePipeCommands (w : World) (sh : Shell) (pipeCommand : CStr) : Step Unit :=
  match addHistory sh.history (some pipeCommand) with
  | Run.done history =>
    match splitPipeline pipeCommand with
    | Run.done none => Step.ok () { sh with history := history }
    | Run.done (some commandArray) =>
      match pipeParent w commandArray ({ sh with history := history }).toProc with
      | Loop.failed p => handleError (({ sh with history := history }).ofProc p)
      | Loop.finished p => Step.ok () (({ sh with history := history }).ofProc p)
    | Run.outOfBounds => Step.fault { sh with history := history }
    | Run.outOfFuel => Step.fault { sh with history := history }
  | Run.outOfBounds => Step.fault sh
  | Run.outOfFuel => Step.fault sh

/-- A world in which descriptors are plentiful and every call succeeds, except
`execvp`, which succeeds for the programs listed. -/
def World.plain (programs : List CStr) : World :=
  { nofile := 64
    forkOk := fun _ => true
    execOk := fun args => programs.contains (args.headD [])
    chdirOk := fun _ => true }

/-- A freshly started interpreter: the three standard descriptors open, an
empty history of the default size, no variables. -/
def Shell.fresh : Shell :=
  { history := initHistory
    shellVars := []
    env := fun _ => none
    openFds := fun fd => decide (fd < 3)
    unreaped := 0
    trace := []
    children := [] }

/-! ## Notions used to state the properties of a pipeline run -/

/-- The pipe descriptors held in `pipes` are in order in the table `t`, they
were closed in the table `t0`, and `t` agrees with `t0` on every other
descriptor. -/
structure PipesInv (t0 : FdTable) (pipes : List (Nat × Nat)) (t : FdTable) : Prop where
  ends : ∀ j, j < pipes.length →
    t (readEnd pipes j) = some (Desc.pipeRead j) ∧ t (writeEnd pipes j) = some (Desc.pipeWrite j)
  fresh : ∀ j, j < pipes.length → t0 (readEnd pipes j) = none ∧ t0 (writeEnd pipes j) = none
  frame : ∀ fd, (∀ j, j < pipes.length → fd ≠ readEnd pipes j ∧ fd ≠ writeEnd pipes j) →
    t fd = t0 fd

/-- The events of the successful calls `pipe(pipes[j])`, `pipe(pipes[j+1])`,
... that returned the descriptor pairs listed. -/
def pipeEvents : Nat → List (Nat × Nat) → List Event
  | _, [] => []
  | j, (r, w) :: rest => Event.pipe j r w :: pipeEvents (j + 1) rest

/-- The events of the parent closing both ends of the first `m` pipes. -/
def closeEvents (pipes : List (Nat × Nat)) : Nat → List Event
  | 0 => []
  | m + 1 => closeEvents pipes m ++ [Event.close (readEnd pipes m), Event.close (writeEnd pipes m)]

/-- Whether a descriptor number is an end of one of the first `m` pipes. -/
def isPipeFd (pipes : List (Nat × Nat)) (m fd : Nat) : Bool :=
  (List.range m).any (fun j => fd == readEnd pipes j || fd == writeEnd pipes j)

/-- The stage texts of the children forked by `executePipeCommands`, in the
order of the forks. -/
def forkedStages (trace : List Event) : List CStr :=
  trace.filterMap (fun e => match e with
    | Event.fork _ command => some command
    | _ => none)

/-- Whether an event is a successful `pipe` call. -/
def Event.isPipe : Event → Bool
  | Event.pipe _ _ _ => true
  | _ => false

/-- Whether an event is a successful `fork`. -/
def Event.isFork : Event → Bool
  | Event.fork _ _ => true
  | Event.forkCommand _ => true
  | _ => false

/-- Whether an event is a `close` call. -/
def Event.isClose : Event → Bool
  | Event.close _ => true
  | _ => false

/-- Whether an event is a call of `wait` or `waitpid`. -/
def Event.isWait : Event → Bool
  | Event.wait _ => true
  | Event.waitpid _ => true
  | _ => false

/-- The fork events of the stages `commandArray[i]`, `commandArray[i+1]`,
... -/
def forkEvents : Nat → List CStr → List Event
  | _, [] => []
  | i, command :: rest => Event.fork i command :: forkEvents (i + 1) rest

/-- Whether a descriptor number is an end of one of the first `m` pipes other
than pipe `i`. -/
def isOtherPipeFd (pipes : List (Nat × Nat)) (i m fd : Nat) : Bool :=
  (List.range m).any (fun j => j != i && (fd == readEnd pipes j || fd == writeEnd pipes j))

/-- The number of empty stages of a line: the empty pieces among those
obtained by cutting the line at every `|` (one before a leading `|`, one after
a trailing `|`, one between two consecutive `|`). -/
def emptyStages (line : CStr) : Nat :=
  ((line.splitOn '|').filter (fun t => t.isEmpty)).length

/-- A line of `n` one-character tokens, each followed by a space. -/
def manyTokens (n : Nat) : CStr :=
  (List.replicate n ['x', ' ']).flatten

/-! ## The single-command path -/

/-- The function `executeExternalCommand`, as run by the interpreter process;
`line` is `none` for a null pointer.  The child, a copy of the process, calls
`execvp` and, when that fails, `perror` and `exit(EXIT_FAILURE)`; the parent
waits until the child has terminated (children are taken to terminate). -/
def executeExternalCommand (w : World) (sh : Shell) (args : List CStr)
    (line : Option CStr) : Step Unit :=
  if w.forkOk 0 then
    let child : ChildEnd :=
      match args with
      | [] => ChildEnd.faulted (entryTable sh.openFds)
      | program :: rest =>
        if w.execOk (program :: rest) then
          ChildEnd.execed (program :: rest) (entryTable sh.openFds)
        else ChildEnd.exited EXIT_FAILURE (entryTable sh.openFds)
    let forked : Shell :=
      { sh with unreaped := sh.unreaped + 1,
                trace := sh.trace ++ [Event.forkCommand args],
                children := sh.children ++ [child] }
    match addHistory sh.history line with
    | Run.done history =>
      Step.ok () { forked with history := history, unreaped := forked.unreaped - 1,
                               trace := forked.trace ++ [Event.waitpid true] }
    | Run.outOfBounds => Step.fault forked
    | Run.outOfFuel => Step.fault forked
  else
    match addHistory sh.history line with
    | Run.done history =>
      Step.ok () { sh with history := history,
                           trace := sh.trace ++ [Event.forkFailed 0, Event.perror "fork".toList] }
    | Run.outOfBounds => Step.fault { sh with trace := sh.trace ++ [Event.forkFailed 0] }
    | Run.outOfFuel => Step.fault { sh with trace := sh.trace ++ [Event.forkFailed 0] }

/-- The call `strtok(NULL, "")` that follows a `strtok` call: with no
delimiter, the token is all the text left at the saved pointer, `NULL` when
nothing is left. -/
def strtokRest (saved : CStr) : Option CStr :=
  if saved = [] then none else some saved

/-- The library function `isspace` in the C locale. -/
def isspace (c : Char) : Bool :=
  c == ' ' || c == '\t' || c == '\n' || c == '\x0b' || c == '\x0c' || c == '\r'

/-- The digits at the start of a string, read as a decimal number. -/
def digitsValue : CStr → Nat → Nat
  | [], acc => acc
  | c :: cs, acc => if c.isDigit then digitsValue cs (acc * 10 + (c.toNat - '0'.toNat)) else acc

/-- The library function `atoi` (values that do not fit an `int` are not
modelled). -/
def atoi (s : CStr) : Int :=
  match s.dropWhile isspace with
  | '-' :: rest => - (digitsValue rest 0 : Int)
  | '+' :: rest => (digitsValue rest 0 : Int)
  | rest => (digitsValue rest 0 : Int)

/-- The copy loop of `resizeHistory`:
`for (i = 0; i < copyCount; i++) newCommands[i] = history.commands[i];`. -/
def copyLoop (commands : List (Option CStr)) :
    Nat → Nat → List (Option CStr) → Run (List (Option CStr))
  | 0, _, newCommands => Run.done newCommands
  | todo + 1, i, newCommands =>
    match readSlot commands i with
    | Run.done v =>
      match writeSlot newCommands i v with
      | Run.done newCommands1 => copyLoop commands todo (i + 1) newCommands1
      | Run.outOfBounds => Run.outOfBounds
      | Run.outOfFuel => Run.outOfFuel
    | Run.outOfBounds => Run.outOfBounds
    | Run.outOfFuel => Run.outOfFuel

/-- The function `resizeHistory`.  A `calloc` of a positive number of slots
yields that many null slots; for zero or a negative number (a huge size once
converted) no slot can be used. -/
def resizeHistory (history : CommandHistory) (newSize : Int) : Run CommandHistory :=
  let history := if newSize = 0 then initHistory else history
  let newCommands : List (Option CStr) := List.replicate newSize.toNat none
  let copyCount : Int := if history.currSize < newSize then history.currSize else newSize
  match copyLoop history.commands copyCount.toNat 0 newCommands with
  | Run.done commands =>
    Run.done { commands := commands, maxSize := newSize, currSize := copyCount }
  | Run.outOfBounds => Run.outOfBounds
  | Run.outOfFuel => Run.outOfFuel

/-- The text `printHistory` prints for slot `i`. -/
def historyLine (i : Nat) (command : CStr) : CStr :=
  (Nat.repr (i + 1)).toList ++ ") ".toList ++ command ++ ['\n']

/-- The loop of `printHistory`, with `todo` iterations left, the next one for
slot `i`; a null slot is printed as `printf` prints a null string. -/
def printHistoryLoop (commands : List (Option CStr)) : Nat → Nat → Run (List Event)
  | 0, _ => Run.done []
  | todo + 1, i =>
    match readSlot commands i with
    | Run.done v =>
      match printHistoryLoop commands todo (i + 1) with
      | Run.done events =>
        Run.done (Event.stdout (historyLine i (v.getD "(null)".toList)) :: events)
      | Run.outOfBounds => Run.outOfBounds
      | Run.outOfFuel => Run.outOfFuel
    | Run.outOfBounds => Run.outOfBounds
    | Run.outOfFuel => Run.outOfFuel

/-- The function `printHistory`. -/
def printHistory (sh : Shell) : Step Unit :=
  match printHistoryLoop sh.history.commands sh.history.currSize.toNat 0 with
  | Run.done events => Step.ok () { sh with trace := sh.trace ++ events }
  | Run.outOfBounds => Step.fault sh
  | Run.outOfFuel => Step.fault sh

/-- The function `builtin_history`; `args` are the tokens before the
terminating `NULL`, the first one being `history`. -/
def builtin_history (w : World) (sh : Shell) (args : List CStr) : Step Unit :=
  match args.drop 1 with
  | [] => printHistory sh
  | arg1 :: rest =>
    if arg1 = "set".toList then
      match rest with
      | [] => Step.fault sh
      | arg2 :: _ =>
        match resizeHistory sh.history (atoi arg2) with
        | Run.done history => Step.ok () { sh with history := history }
        | Run.outOfBounds => Step.fault sh
        | Run.outOfFuel => Step.fault sh
    else if atoi arg1 > sh.history.maxSize then Step.ok () sh
    else
      match readSlot sh.history.commands (atoi arg1 - 1) with
      | Run.done none => Step.ok () sh
      | Run.done (some command) =>
        -- parseInput cuts the stored command at its first space, in place
        match parseInput command, writeSlot sh.history.commands (atoi arg1 - 1)
            (some (command.takeWhile (fun x => x != ' '))) with
        | Run.done historyArgs, Run.done commands =>
          executeExternalCommand w
            { sh with history := { sh.history with commands := commands } } historyArgs none
        | _, _ => Step.fault sh
      | Run.outOfBounds => Step.fault sh
      | Run.outOfFuel => Step.fault sh

/-- The function `builtin_cd`. -/
def builtin_cd (w : World) (sh : Shell) (args : List CStr) : Step Unit :=
  match args.drop 1 with
  | [path] =>
    if w.chdirOk path then Step.ok () { sh with trace := sh.trace ++ [Event.chdir path true] }
    else handleError { sh with trace := sh.trace ++ [Event.chdir path false] }
  | _ => handleError sh

/-- The function `builtin_exit`. -/
def builtin_exit (sh : Shell) : Step Unit :=
  Step.exit 0 sh

/-- The function `builtin_export`; `setenv` and `unsetenv` are taken to
succeed for a name that is not empty and has no `=`. -/
def builtin_export (sh : Shell) (args : List CStr) : Step Unit :=
  match args.drop 1 with
  | [] => handleError sh
  | arg1 :: _ =>
    match strtok '=' arg1 with
    | none => handleError sh
    | some (var, saved) =>
      match strtokRest saved with
      | none => Step.ok () { sh with env := fun n => if n = var then none else sh.env n }
      | some value =>
        Step.ok () { sh with env := fun n => if n = var then some value else sh.env n }

/-- The function `builtin_vars`. -/
def builtin_vars (sh : Shell) : Step Unit :=
  Step.ok ()
    { sh with trace := sh.trace ++
        List.map (fun v => Event.stdout (v.name ++ ['='] ++ v.value ++ ['\n'])) sh.shellVars }

/-- The list walk of `builtin_local`: the first node named `name` is unlinked
(when `value` is `none`) or gets the new value; when there is no such node a
new one is appended, which dereferences `value`. -/
def localWalk (name : CStr) (value : Option CStr) : List ShellVar → Option (List ShellVar)
  | [] =>
    match value with
    | none => none
    | some v => some [⟨name, v⟩]
  | var :: next =>
    if var.name = name then
      match value with
      | none => some next
      | some v => some (⟨var.name, v⟩ :: next)
    else
      match localWalk name value next with
      | none => none
      | some rest => some (var :: rest)

/-- The function `builtin_local`. -/
def builtin_local (sh : Shell) (args : List CStr) : Step Unit :=
  match args.drop 1 with
  | [] => handleError sh
  | arg1 :: _ =>
    match strtok '=' arg1 with
    | none => handleError sh
    | some (name, saved) =>
      match localWalk name (strtokRest saved) sh.shellVars with
      | none => Step.fault sh
      | some shellVars => Step.ok () { sh with shellVars := shellVars }

/-- The names of the built-in commands. -/
def builtinNames : List CStr :=
  ["cd".toList, "exit".toList, "export".toList, "local".toList, "vars".toList,
   "history".toList]

/-- The function `executeCommand`; `args` are the tokens before the
terminating `NULL`. -/
def executeCommand (w : World) (sh : Shell) (args : List CStr) (line : CStr) : Step Unit :=
  match args with
  | [] => Step.ok () sh
  | program :: _ =>
    if program = "cd".toList then builtin_cd w sh args
    else if program = "exit".toList then builtin_exit sh
    else if program = "export".toList then builtin_export sh args
    else if program = "local".toList then builtin_local sh args
    else if program = "vars".toList then builtin_vars sh
    else if program = "history".toList then builtin_history w sh args
    else executeExternalCommand w sh args (some line)

/-- What `getline` delivers: a line (with its newline, when it has one), the
end of the input, or a read error. -/
inductive ReadResult where
  | line (text : CStr)
  | eof
  | error
  deriving DecidableEq, Repr

/-- The line without the newline at its end, when it has one. -/
def stripNewline (text : CStr) : CStr :=
  if text.getLast? = some '\n' then text.dropLast else text

/-- The function `processInput`, as run by the interpreter process on what
`getline` delivered. -/
def processInput (w : World) (sh : Shell) (input : ReadResult) : Step Unit :=
  match input with
  | ReadResult.line text =>
    if text = [] then Step.ok () sh
    else
      match expandVars sh.env sh.shellVars (stripNewline text) with
      | Run.done expandedLine =>
        if '|' ∈ expandedLine then executePipeCommands w sh expandedLine
        else
          match parseInput expandedLine with
          | Run.done args => executeCommand w sh args (stripNewline text)
          | Run.outOfBounds => Step.fault sh
          | Run.outOfFuel => Step.fault sh
      | Run.outOfBounds => Step.fault sh
      | Run.outOfFuel => Step.fault sh
  | ReadResult.eof => Step.exit 0 sh
  | ReadResult.error => Step.ok () sh

/-! ## Further notions used to state properties -/

/-- Whether the child made an invalid memory access. -/
def ChildEnd.isFaulted : ChildEnd → Bool
  | ChildEnd.faulted _ => true
  | _ => false

/-- The history holds the entries `h`, most recent first: the array has
`maxSize` slots, `currSize` is the number of entries, and the first slots are
the entries. -/
def CommandHistory.Holds (history : CommandHistory) (h : List CStr) : Prop :=
  (history.commands.length : Int) = history.maxSize ∧
  history.currSize = (h.length : Int) ∧
  h.length ≤ history.commands.length ∧
  history.commands.take h.length = h.map some

/-- Whether the tokens are those of a history re-execution: the built-in
`history` with a first argument other than `set`. -/
def isHistoryReexecution (args : List CStr) : Bool :=
  match args with
  | program :: arg1 :: _ => program == "history".toList && arg1 != "set".toList
  | _ => false

/-- Whether the tokens are those of an empty line or of a built-in other than
a history re-execution. -/
def isEmptyOrPlainBuiltin (args : List CStr) : Bool :=
  match args with
  | [] => true
  | program :: _ => builtinNames.contains program && !isHistoryReexecution args

/-- An event list holds no successful `pipe` call and no successful `fork`. -/
def NoPipeNoFork (events : List Event) : Prop :=
  ∀ e, e ∈ events → e.isPipe = false ∧ e.isFork = false

/-! ## The program entry -/

/-- The function `displayPrompt`, called in interactive mode only. -/
def displayPrompt (isInteractiveMode : Bool) (sh : Shell) : Shell :=
  if isInteractiveMode then { sh with trace := sh.trace ++ [Event.stdout "vnsh> ".toList] }
  else sh

/-- The loop `while (true)` of `main`.  The list holds what the successive
calls of `getline` deliver; once it is used up every call finds the end of the
input.  The loop is left only when the process terminates. -/
def mainLoop (w : World) (isInteractiveMode : Bool) : List ReadResult → Shell → Step Unit
  | [], sh => processInput w (displayPrompt isInteractiveMode sh) ReadResult.eof
  | r :: rest, sh =>
    match processInput w (displayPrompt isInteractiveMode sh) r with
    | Step.ok _ sh1 => mainLoop w isInteractiveMode rest sh1
    | Step.exit code sh1 => Step.exit code sh1
    | Step.fault sh1 => Step.fault sh1

/-- The function `main`.  `args` are the command-line arguments after the
program name, so `argc` is `args.length + 1`; `openFile` gives what `getline`
will deliver from a file that `fopen` can open, and `stdin` what it will
deliver from the standard input; `sh` is the process at its start.  A file
that is opened takes the lowest closed descriptor. -/
def main (w : World) (openFile : CStr → Option (List ReadResult)) (stdin : List ReadResult)
    (sh : Shell) (args : List CStr) : Step Unit :=
  if args.length + 1 > 2 then handleError sh
  else
    match args with
    | [] => mainLoop w true stdin { sh with history := initHistory }
    | path :: _ =>
      match openFile path, lowestFree w.nofile (entryTable sh.openFds) with
      | some content, some fd =>
        mainLoop w false content
          { sh with history := initHistory,
                    openFds := fun n => if n = fd then true else sh.openFds n }
      | _, _ => handleError sh

/-! ## Sequences of history operations -/

/-- One operation on the history: `addHistory` with a line, or
`resizeHistory` with a size (as `history set N` calls it). -/
inductive HistoryOp where
  | add (line : CStr)
  | resize (newSize : Int)
  deriving DecidableEq, Repr

/-- Running a sequence of history operations, one after the other. -/
def runHistoryOps : List HistoryOp → CommandHistory → Run CommandHistory
  | [], history => Run.done history
  | HistoryOp.add line :: ops, history =>
    match addHistory history (some line) with
    | Run.done history1 => runHistoryOps ops history1
    | Run.outOfBounds => Run.outOfBounds
    | Run.outOfFuel => Run.outOfFuel
  | HistoryOp.resize newSize :: ops, history =>
    match resizeHistory history newSize with
    | Run.done history1 => runHistoryOps ops history1
    | Run.outOfBounds => Run.outOfBounds
    | Run.outOfFuel => Run.outOfFuel

/-- Whether every resize of the sequence asks for a size that is not
negative. -/
def sizesNonNegative (ops : List HistoryOp) : Bool :=
  ops.all (fun op => match op with
    | HistoryOp.add _ => true
    | HistoryOp.resize newSize => decide (0 ≤ newSize))

/-! ## Facts about maximal runs -/

theorem maximalRuns_nil (d : Char) : maximalRuns d [] = [] := by
  simp [maximalRuns]

theorem maximalRuns_cons_delim (d : Char) (s : CStr) :
    maximalRuns d (d :: s) = maximalRuns d s := by
  simp [maximalRuns, List.splitOn, List.filter]

theorem takeWhile_ne_no_delim (d : Char) (s : CStr) :
    ∀ x ∈ s.takeWhile (fun x => x != d), ¬ ((x == d) = true) := by
  intro x hx
  have h := List.mem_takeWhile_imp hx
  simpa using h

theorem dropWhile_ne_head (d : Char) (s : CStr) (c : Char) (r : CStr)
    (h : s.dropWhile (fun x => x != d) = c :: r) : c = d := by
  have h1 := List.head_dropWhile_not (fun x => x != d) s
  rw [h] at h1
  simpa using h1 (by simp)

/-- The recursion equation of `maximalRuns`: the first piece up to the first
delimiter is kept when it is not empty, and the runs of the text after that
delimiter follow. -/
theorem maximalRuns_eq (d : Char) (s : CStr) :
    maximalRuns d s =
      (if s.takeWhile (fun x => x != d) = [] then [] else [s.takeWhile (fun x => x != d)])
        ++ maximalRuns d ((s.dropWhile (fun x => x != d)).drop 1) := by
  have hs : s.takeWhile (fun x => x != d) ++ s.dropWhile (fun x => x != d) = s :=
    List.takeWhile_append_dropWhile _ _
  cases hr : s.dropWhile (fun x => x != d) with
  | nil =>
    rw [hr, List.append_nil] at hs
    have h1 : s.splitOn d = [s] := by
      apply List.splitOnP_eq_single
      intro x hx
      rw [← hs] at hx
      exact takeWhile_ne_no_delim d s x hx
    rw [hs]
    cases s with
    | nil => simp [maximalRuns]
    | cons a t => simp [maximalRuns, h1, List.filter]
  | cons c r =>
    have hc : c = d := dropWhile_ne_head d s c r hr
    subst hc
    have h1 : s.splitOn c = s.takeWhile (fun x => x != c) :: r.splitOn c := by
      conv_lhs => rw [← hs, hr]
      exact List.splitOnP_first _ _ (takeWhile_ne_no_delim c s) c (by simp) r
    simp only [maximalRuns, h1, List.drop_one, List.tail_cons]
    cases ht : s.takeWhile (fun x => x != c) with
    | nil => simp [List.filter]
    | cons a t => simp [List.filter]

theorem maximalRuns_dropWhile_delim (d : Char) (s : CStr) :
    maximalRuns d (s.dropWhile (fun c => c == d)) = maximalRuns d s := by
  induction s with
  | nil => rfl
  | cons a t ih =>
    by_cases h : a = d
    · subst h
      rw [List.dropWhile_cons_of_pos (by simp), ih, maximalRuns_cons_delim]
    · rw [List.dropWhile_cons_of_neg (by simpa using h)]

theorem length_dropWhile_le (p : Char → Bool) (s : CStr) :
    (s.dropWhile p).length ≤ s.length :=
  (List.dropWhile_suffix p).length_le

theorem length_drop_dropWhile_le (d : Char) (s : CStr) :
    ((s.dropWhile (fun x => x != d)).drop 1).length ≤ s.length - 1 := by
  have h := length_dropWhile_le (fun x => x != d) s
  simp only [List.length_drop]
  omega

/-- Every maximal run is non-empty and free of the delimiter. -/
theorem maximalRuns_mem (d : Char) :
    ∀ (n : Nat) (s : CStr), s.length ≤ n → ∀ t ∈ maximalRuns d s, t ≠ [] ∧ d ∉ t := by
  intro n
  induction n with
  | zero =>
    intro s hs t ht
    have : s = [] := List.length_eq_zero.mp (Nat.le_zero.mp hs)
    subst this
    simp [maximalRuns_nil] at ht
  | succ n ih =>
    intro s hs t ht
    rw [maximalRuns_eq] at ht
    rcases List.mem_append.mp ht with h | h
    · split at h
      · simp at h
      · rename_i hne
        simp only [List.mem_singleton] at h
        subst h
        refine ⟨hne, ?_⟩
        intro hd
        have := takeWhile_ne_no_delim d s d hd
        simp at this
    · have hl := length_drop_dropWhile_le d s
      exact ih _ (by omega) t h

/-! ## The `strtok` loop yields the maximal runs -/

theorem strtok_none (d : Char) (s : CStr) (h : strtok d s = none) :
    maximalRuns d s = [] := by
  unfold strtok at h
  cases hu : s.dropWhile (fun c => c == d) with
  | nil => rw [← maximalRuns_dropWhile_delim, hu, maximalRuns_nil]
  | cons c cs => rw [hu] at h; simp at h

/-- What one successful `strtok` call returns: the first maximal run, and a
saved pointer from which the remaining runs are found; the token and the text
left, with the delimiter consumed between them, fit in the text scanned. -/
theorem strtok_some (d : Char) (s tok saved : CStr) (h : strtok d s = some (tok, saved)) :
    maximalRuns d s = tok :: maximalRuns d saved ∧ tok ≠ [] ∧
      tok.length + saved.length ≤ s.length ∧
      (saved ≠ [] → tok.length + 1 + saved.length ≤ s.length) := by
  unfold strtok at h
  have hlen := length_dropWhile_le (fun c => c == d) s
  cases hu : s.dropWhile (fun c => c == d) with
  | nil => rw [hu] at h; simp at h
  | cons c cs =>
    rw [hu] at h hlen
    simp only [Option.some.injEq, Prod.mk.injEq] at h
    obtain ⟨h1, h2⟩ := h
    have hc : ¬ (c = d) := by
      have h1 := List.head_dropWhile_not (fun x => x == d) s
      rw [hu] at h1
      simpa using h1 (by simp)
    have htk : (c :: cs).takeWhile (fun x => x != d) ≠ [] := by
      rw [List.takeWhile_cons_of_pos (by simpa using hc)]
      simp
    have hsum : ((c :: cs).takeWhile (fun x => x != d)).length
        + ((c :: cs).dropWhile (fun x => x != d)).length = (c :: cs).length := by
      rw [← List.length_append, List.takeWhile_append_dropWhile]
    rw [h1] at htk hsum
    refine ⟨?_, htk, ?_, ?_⟩
    · rw [← maximalRuns_dropWhile_delim d s, hu, maximalRuns_eq d (c :: cs), h1, h2]
      simp [htk]
    · rw [← h2, List.length_drop]; omega
    · intro hne
      rw [← h2] at hne ⊢
      rw [List.length_drop]
      have : 0 < (List.drop 1 (List.dropWhile (fun x => x != d) (c :: cs))).length :=
        List.length_pos.mpr hne
      rw [List.length_drop] at this
      omega

theorem strtokLoop_eq_maximalRuns (d : Char) :
    ∀ (fuel : Nat) (s : CStr), s.length < fuel → strtokLoop d fuel s = maximalRuns d s := by
  intro fuel
  induction fuel with
  | zero => intro s hs; omega
  | succ fuel ih =>
    intro s hs
    rw [strtokLoop]
    cases h : strtok d s with
    | none => simp [strtok_none d s h]
    | some p =>
      obtain ⟨tok, saved⟩ := p
      obtain ⟨h1, h2, h3, _⟩ := strtok_some d s tok saved h
      have : 0 < tok.length := List.length_pos.mpr h2
      simp only []
      rw [ih saved (by omega), h1]

theorem strtokAll_eq_maximalRuns (d : Char) (s : CStr) :
    strtokAll d s = maximalRuns d s :=
  strtokLoop_eq_maximalRuns d _ s (Nat.lt_succ_self _)

/-! ## `parseInput` -/

theorem parseInputLoop_eq :
    ∀ (fuel : Nat) (s : CStr) (acc : List CStr), s.length + 2 ≤ fuel →
      parseInputLoop fuel (some s) acc =
        if (acc ++ maximalRuns ' ' s).length < tokensCapacity
        then Run.done (acc ++ maximalRuns ' ' s) else Run.outOfBounds := by
  intro fuel
  induction fuel with
  | zero => intro s acc hs; omega
  | succ fuel ih =>
    intro s acc hs
    have hl := length_drop_dropWhile_le ' ' s
    rw [parseInputLoop, strsep, maximalRuns_eq ' ' s]
    cases hr : s.dropWhile (fun x => x != ' ') with
    | nil =>
      obtain ⟨f, rfl⟩ : ∃ f, fuel = f + 1 := ⟨fuel - 1, by omega⟩
      simp only [List.drop_nil, maximalRuns_nil, List.append_nil]
      by_cases ht : s.takeWhile (fun x => x != ' ') = []
      · simp [ht, parseInputLoop, strsep]
      · simp only [ht, if_false, parseInputLoop, strsep]
        by_cases hcap : acc.length < tokensCapacity
        · simp [hcap]
        · simp only [hcap, if_false]
          rw [if_neg]
          simp only [List.length_append, List.length_singleton]
          omega
    | cons c r =>
      have hl2 := length_dropWhile_le (fun x => x != ' ') s
      rw [hr] at hl hl2
      simp only [List.drop_one, List.tail_cons, List.length_cons] at hl hl2 ⊢
      by_cases ht : s.takeWhile (fun x => x != ' ') = []
      · simp only [ht, if_true, List.nil_append]
        exact ih r acc (by omega)
      · simp only [ht, if_false]
        by_cases hcap : acc.length < tokensCapacity
        · simp only [hcap, if_true]
          rw [ih r _ (by omega)]
          simp
        · simp only [hcap, if_false]
          rw [if_neg]
          simp only [List.length_append, List.length_cons]
          omega

/-- Within the capacity of its array, `parseInput` returns the maximal runs of
non-space characters; beyond it, it writes outside the array. -/
theorem parseInput_eq (s : CStr) :
    parseInput s =
      if (maximalRuns ' ' s).length < tokensCapacity
      then Run.done (maximalRuns ' ' s) else Run.outOfBounds := by
  have h := parseInputLoop_eq (s.length + 2) s [] (Nat.le_refl _)
  simpa [parseInput] using h

/-! ## Variable expansion -/

theorem expandVars_examples_check :
    expandVars (fun n => if n = "HOME".toList then some "/x".toList else none) []
        "echo $HOME".toList = Run.done "echo /x".toList ∧
    expandVars (fun _ => none) [] "echo $UNSET".toList = Run.done "echo ".toList ∧
    expandVars (fun _ => none) [] "echo $".toList = Run.done "echo $".toList ∧
    expandVars (fun _ => none) [⟨"a".toList, "$b".toList⟩] "  x   $a ".toList
      = Run.done "x $b".toList := by
  decide

theorem joinSpaces_singleton (a : CStr) : joinSpaces [a] = a := by
  simp [joinSpaces, List.intercalate]

theorem joinSpaces_cons_cons (a b : CStr) (ts : List CStr) :
    joinSpaces (a :: b :: ts) = a ++ ' ' :: joinSpaces (b :: ts) := by
  simp [joinSpaces, List.intercalate]

theorem piece_eq_specTokenImage (getenv : CStr → Option CStr) (shellVars : List ShellVar)
    (token : CStr) :
    (if token.head? = some '$' ∧ token.length > 1 then
        lookupValue getenv shellVars (token.drop 1)
      else token) = specTokenImage getenv shellVars token := by
  cases token with
  | nil => simp [specTokenImage]
  | cons a t =>
    by_cases ha : a = '$'
    · subst ha
      cases t with
      | nil => simp [specTokenImage]
      | cons c cs =>
        simp only [List.head?_cons, List.length_cons, true_and, specTokenImage, lookupValue,
          List.drop_succ_cons, List.drop_zero]
        rw [if_pos (by omega)]
        cases getenv (c :: cs) with
        | some v => simp [Option.orElse]
        | none => cases getShellVarValue shellVars (c :: cs) <;> simp [Option.orElse]
    · have h1 : ¬ ((a :: t).head? = some '$' ∧ (a :: t).length > 1) := by
        simp [ha]
      rw [if_neg h1]
      unfold specTokenImage
      split
      · rename_i heq
        simp only [List.cons.injEq] at heq
        exact absurd heq.1 ha
      · rfl

theorem bufferSize1_bound (getenv : CStr → Option CStr) (shellVars : List ShellVar)
    (token : CStr) (bufferSize : Nat) :
    bufferSize + (if token.head? = some '$' ∧ token.length > 1 then
        lookupValue getenv shellVars (token.drop 1) else token).length ≤
    (if token.head? = some '$' ∧ token.length > 1 then
        bufferSize + (lookupValue getenv shellVars (token.drop 1)).length
      else bufferSize) + token.length := by
  split <;> omega

/-- The loop of `expandVars` never leaves its buffer and appends the joined
images of the tokens still to come. -/
theorem expandVarsLoop_eq (getenv : CStr → Option CStr) (shellVars : List ShellVar) :
    ∀ (fuel : Nat) (token saved expandedLine : CStr) (bufferSize : Nat),
      saved.length + 2 ≤ fuel →
      expandedLine.length + token.length
        + (if saved = [] then 0 else 1 + saved.length) + 1 ≤ bufferSize →
      expandVarsLoop getenv shellVars fuel (some token) saved expandedLine bufferSize =
        Run.done (expandedLine ++ joinSpaces
          ((token :: maximalRuns ' ' saved).map (specTokenImage getenv shellVars))) := by
  intro fuel
  induction fuel with
  | zero => intro token saved expandedLine bufferSize hf; omega
  | succ fuel ih =>
    intro token saved expandedLine bufferSize hf hcap
    have hb := bufferSize1_bound getenv shellVars token bufferSize
    rw [expandVarsLoop]
    simp only [piece_eq_specTokenImage] at hb ⊢
    generalize (if token.head? = some '$' ∧ token.length > 1 then
        bufferSize + (lookupValue getenv shellVars (token.drop 1)).length
      else bufferSize) = bufferSize1 at hb ⊢
    generalize hp : specTokenImage getenv shellVars token = piece at hb ⊢
    have h1 : strcat bufferSize1 expandedLine piece = Run.done (expandedLine ++ piece) := by
      unfold strcat
      rw [if_pos (by omega)]
    rw [h1]
    simp only []
    cases hs : strtok ' ' saved with
    | none =>
      obtain ⟨f, rfl⟩ : ∃ f, fuel = f + 1 := ⟨fuel - 1, by omega⟩
      simp [expandVarsLoop, strtok_none ' ' saved hs, joinSpaces_singleton, hp]
    | some p =>
      obtain ⟨token1, saved1⟩ := p
      obtain ⟨hr, hne, hl1, hl2⟩ := strtok_some ' ' saved token1 saved1 hs
      have hpos : 0 < token1.length := List.length_pos.mpr hne
      have hsne : saved ≠ [] := by
        intro h
        rw [h] at hl1
        simp only [List.length_nil] at hl1
        omega
      rw [if_neg hsne] at hcap
      have h2 : strcat bufferSize1 (expandedLine ++ piece) [' ']
          = Run.done ((expandedLine ++ piece) ++ [' ']) := by
        unfold strcat
        rw [if_pos (by simp only [List.length_append, List.length_singleton]; omega)]
      simp only [h2]
      rw [ih token1 saved1 _ bufferSize1 (by omega) (by
        simp only [List.length_append, List.length_singleton]
        by_cases h0 : saved1 = []
        · rw [if_pos h0]; omega
        · rw [if_neg h0]
          have := hl2 h0
          omega)]
      rw [hr]
      simp [joinSpaces_cons_cons, hp]

/-- The function `expandVars` computes the expansion of the specification, for
every environment, every list of shell variables and every line. -/
theorem expandVars_eq_specExpand (getenv : CStr → Option CStr) (shellVars : List ShellVar)
    (line : CStr) :
    expandVars getenv shellVars line = Run.done (specExpand getenv shellVars line) := by
  unfold expandVars specExpand
  cases hs : strtok ' ' line with
  | none =>
    simp [expandVarsLoop, strtok_none ' ' line hs, joinSpaces, List.intercalate]
  | some p =>
    obtain ⟨token, saved⟩ := p
    obtain ⟨hr, hne, hl1, hl2⟩ := strtok_some ' ' line token saved hs
    simp only []
    rw [expandVarsLoop_eq getenv shellVars _ token saved [] _ (by omega) (by
      simp only [List.length_nil]
      by_cases h0 : saved = []
      · rw [if_pos h0]; omega
      · rw [if_neg h0]
        have := hl2 h0
        omega)]
    rw [hr]
    simp

/-! ## History -/

theorem addHistory_check :
    addHistory initHistory (some "echo hi".toList) =
      Run.done ⟨[some "echo hi".toList, none, none, none, none], 5, 1⟩ ∧
    addHistory ⟨[some "a".toList, some "b".toList], 2, 2⟩ (some "c".toList) =
      Run.done ⟨[some "c".toList, some "a".toList], 2, 2⟩ ∧
    addHistory ⟨[some "a".toList, some "b".toList], 2, 2⟩ (some "a".toList) =
      Run.done ⟨[some "a".toList, some "b".toList], 2, 2⟩ := by
  decide

/-! ## Pipelines: concrete runs -/

theorem splitPipeline_check :
    splitPipeline "a|b|c".toList = Run.done (some ["a".toList, "b".toList, "c".toList]) ∧
    splitPipeline "a||b".toList = Run.done none ∧
    splitPipeline "|a".toList = Run.done none ∧
    splitPipeline "a|".toList = Run.done none ∧
    splitPipeline "|a|".toList = Run.done (some ["a".toList]) ∧
    splitPipeline "||".toList = Run.done (some []) := by
  decide

theorem pipeParent_check :
    (pipeParent (World.plain ["a".toList, "b".toList]) ["a".toList, "b".toList]
      Shell.fresh.toProc).proc.trace =
      [Event.pipe 0 3 4, Event.fork 0 "a".toList, Event.fork 1 "b".toList,
       Event.close 3, Event.close 4,
       Event.wait true, Event.wait true] := by
  decide

/-! ## Arrays filled by a `strtok` loop -/

theorem count_eq_count_dropWhile (d : Char) (s : CStr) :
    s.count d = (s.dropWhile (fun x => x != d)).count d := by
  induction s with
  | nil => rfl
  | cons a t ih =>
    by_cases h : a = d
    · subst h
      rw [List.dropWhile_cons_of_neg (by simp)]
    · rw [List.dropWhile_cons_of_pos (by simpa using h), List.count_cons_of_ne (Ne.symm h), ih]

/-- A string has at most one more maximal run than it has delimiters. -/
theorem maximalRuns_length_le (d : Char) :
    ∀ (n : Nat) (s : CStr), s.length ≤ n → (maximalRuns d s).length ≤ s.count d + 1 := by
  intro n
  induction n with
  | zero =>
    intro s hs
    have : s = [] := List.length_eq_zero.mp (Nat.le_zero.mp hs)
    subst this
    simp [maximalRuns_nil]
  | succ n ih =>
    intro s hs
    rw [maximalRuns_eq, count_eq_count_dropWhile]
    have hl2 := length_dropWhile_le (fun x => x != d) s
    cases hr : s.dropWhile (fun x => x != d) with
    | nil =>
      simp only [List.drop_nil, maximalRuns_nil, List.append_nil, List.count_nil]
      split <;> simp
    | cons c r =>
      have hc : c = d := dropWhile_ne_head d s c r hr
      subst hc
      rw [hr] at hl2
      simp only [List.length_cons] at hl2
      have h1 := ih r (by omega)
      simp only [List.drop_one, List.tail_cons, List.length_append, List.count_cons_self]
      split <;> simp <;> omega

theorem strtokFill_eq (d : Char) (capacity : Nat) :
    ∀ (fuel : Nat) (s : CStr) (acc : List CStr), s.length < fuel → acc.length ≤ capacity →
      strtokFill d capacity fuel s acc =
        if acc.length + (maximalRuns d s).length ≤ capacity
        then Run.done (acc ++ maximalRuns d s) else Run.outOfBounds := by
  intro fuel
  induction fuel with
  | zero => intro s acc hs; omega
  | succ fuel ih =>
    intro s acc hs hacc
    rw [strtokFill]
    cases h : strtok d s with
    | none => simp [strtok_none d s h, hacc]
    | some p =>
      obtain ⟨tok, saved⟩ := p
      obtain ⟨h1, h2, h3, _⟩ := strtok_some d s tok saved h
      have : 0 < tok.length := List.length_pos.mpr h2
      simp only [h1, List.length_cons]
      by_cases hcap : acc.length < capacity
      · rw [if_pos hcap, ih saved _ (by omega) (by simp; omega)]
        simp only [List.length_append, List.length_singleton, List.append_assoc,
          List.singleton_append]
        by_cases h4 : acc.length + 1 + (maximalRuns d saved).length ≤ capacity
        · rw [if_pos h4, if_pos (by omega)]
        · rw [if_neg h4, if_neg (by omega)]
      · rw [if_neg hcap, if_neg (by omega)]

/-- The array `commandArray` is large enough: the first part of
`executePipeCommands` returns at its test exactly when the number of `|`
equals the number of maximal runs, and yields the runs otherwise. -/
theorem splitPipeline_eq (line : CStr) :
    splitPipeline line =
      Run.done (if line.count '|' = (maximalRuns '|' line).length then none
        else some (maximalRuns '|' line)) := by
  have hb := maximalRuns_length_le '|' _ line (Nat.le_refl _)
  unfold splitPipeline
  simp only [strtokFill_eq '|' _ _ line [] (Nat.lt_succ_self _) (Nat.zero_le _), List.length_nil, Nat.zero_add,
    if_pos hb, List.nil_append]
  split <;> rfl

/-- The array `args` is large enough: the child's argument vector is the list
of maximal runs of non-space characters of its stage text. -/
theorem stageArgs_eq (command : CStr) :
    stageArgs command = Run.done (maximalRuns ' ' command) := by
  have hb := maximalRuns_length_le ' ' _ command (Nat.le_refl _)
  unfold stageArgs
  simp only [strtokFill_eq ' ' _ _ command [] (Nat.lt_succ_self _) (Nat.zero_le _), List.length_nil,
    Nat.zero_add, List.nil_append]
  rw [if_pos (by omega)]
  simp only []
  rw [if_pos (by omega)]

/-! ## The loops of the parent -/

theorem lowestFree_some (nofile : Nat) (t : FdTable) (fd : Nat)
    (h : lowestFree nofile t = some fd) : t fd = none := by
  unfold lowestFree at h
  have := List.find?_some h
  simpa using this

theorem sysPipe_some (nofile : Nat) (t t1 : FdTable) (j r w : Nat)
    (h : sysPipe nofile t j = some (t1, r, w)) :
    t r = none ∧ t w = none ∧ r ≠ w ∧
      t1 = Function.update (Function.update t r (some (Desc.pipeRead j))) w
        (some (Desc.pipeWrite j)) := by
  unfold sysPipe at h
  cases h1 : lowestFree nofile t with
  | none => rw [h1] at h; simp at h
  | some r1 =>
    rw [h1] at h
    simp only [] at h
    cases h2 : lowestFree nofile (Function.update t r1 (some (Desc.pipeRead j))) with
    | none => rw [h2] at h; simp at h
    | some w1 =>
      rw [h2] at h
      simp only [Option.some.injEq, Prod.mk.injEq] at h
      obtain ⟨ht, hr, hw⟩ := h
      subst hr hw
      have hr0 := lowestFree_some _ _ _ h1
      have hw0 := lowestFree_some _ _ _ h2
      have hne : w1 ≠ r1 := by
        intro he
        rw [he, Function.update_same] at hw0
        simp at hw0
      rw [Function.update_noteq hne] at hw0
      exact ⟨hr0, hw0, Ne.symm hne, ht.symm⟩

theorem readEnd_append_left (pipes ext : List (Nat × Nat)) (j : Nat) (h : j < pipes.length) :
    readEnd (pipes ++ ext) j = readEnd pipes j := by
  simp [readEnd, List.getD_eq_getElem?_getD, List.getElem?_append_left h]

theorem writeEnd_append_left (pipes ext : List (Nat × Nat)) (j : Nat) (h : j < pipes.length) :
    writeEnd (pipes ++ ext) j = writeEnd pipes j := by
  simp [writeEnd, List.getD_eq_getElem?_getD, List.getElem?_append_left h]

theorem readEnd_append_length (pipes : List (Nat × Nat)) (r w : Nat) :
    readEnd (pipes ++ [(r, w)]) pipes.length = r := by
  simp [readEnd, List.getD_eq_getElem?_getD]

theorem writeEnd_append_length (pipes : List (Nat × Nat)) (r w : Nat) :
    writeEnd (pipes ++ [(r, w)]) pipes.length = w := by
  simp [writeEnd, List.getD_eq_getElem?_getD]

/-- One successful `pipe` call keeps the pipes in order. -/
theorem PipesInv.step (nofile : Nat) (t0 t t1 : FdTable) (pipes : List (Nat × Nat))
    (r w : Nat) (inv : PipesInv t0 pipes t)
    (h : sysPipe nofile t pipes.length = some (t1, r, w)) :
    PipesInv t0 (pipes ++ [(r, w)]) t1 := by
  obtain ⟨hr, hw, hne, ht⟩ := sysPipe_some _ _ _ _ _ _ h
  subst ht
  have old : ∀ j, j < pipes.length →
      readEnd pipes j ≠ r ∧ readEnd pipes j ≠ w ∧ writeEnd pipes j ≠ r ∧ writeEnd pipes j ≠ w := by
    intro j hj
    obtain ⟨h1, h2⟩ := inv.ends j hj
    refine ⟨?_, ?_, ?_, ?_⟩ <;> intro he
    · rw [he, hr] at h1; simp at h1
    · rw [he, hw] at h1; simp at h1
    · rw [he, hr] at h2; simp at h2
    · rw [he, hw] at h2; simp at h2
  have hr0 : t0 r = none := by
    rw [← inv.frame r (fun j hj => ⟨Ne.symm (old j hj).1, Ne.symm (old j hj).2.2.1⟩)]
    exact hr
  have hw0 : t0 w = none := by
    rw [← inv.frame w (fun j hj => ⟨Ne.symm (old j hj).2.1, Ne.symm (old j hj).2.2.2⟩)]
    exact hw
  have cases_lt : ∀ j, j < (pipes ++ [(r, w)]).length → j < pipes.length ∨ j = pipes.length := by
    intro j hj
    simp only [List.length_append, List.length_singleton] at hj
    omega
  constructor
  · intro j hj
    rcases cases_lt j hj with hlt | heq
    · obtain ⟨o1, o2, o3, o4⟩ := old j hlt
      rw [readEnd_append_left _ _ _ hlt, writeEnd_append_left _ _ _ hlt,
        Function.update_noteq o2, Function.update_noteq o1,
        Function.update_noteq o4, Function.update_noteq o3]
      exact inv.ends j hlt
    · subst heq
      rw [readEnd_append_length, writeEnd_append_length, Function.update_noteq hne,
        Function.update_same, Function.update_same]
      exact ⟨rfl, rfl⟩
  · intro j hj
    rcases cases_lt j hj with hlt | heq
    · rw [readEnd_append_left _ _ _ hlt, writeEnd_append_left _ _ _ hlt]
      exact inv.fresh j hlt
    · subst heq
      rw [readEnd_append_length, writeEnd_append_length]
      exact ⟨hr0, hw0⟩
  · intro fd hfd
    have hlast := hfd pipes.length (by simp)
    rw [readEnd_append_length, writeEnd_append_length] at hlast
    rw [Function.update_noteq hlast.2, Function.update_noteq hlast.1]
    apply inv.frame
    intro j hj
    have := hfd j (by simp; omega)
    rwa [readEnd_append_left _ _ _ hj, writeEnd_append_left _ _ _ hj] at this

theorem PipesInv.entry (t0 : FdTable) : PipesInv t0 [] t0 :=
  ⟨fun j hj => absurd hj (by simp), fun j hj => absurd hj (by simp), fun _ _ => rfl⟩

theorem pipeEvents_append (j : Nat) (xs ys : List (Nat × Nat)) :
    pipeEvents j (xs ++ ys) = pipeEvents j xs ++ pipeEvents (j + xs.length) ys := by
  induction xs generalizing j with
  | nil => simp [pipeEvents]
  | cons x xs ih =>
    obtain ⟨r, w⟩ := x
    have h1 : ((r, w) :: xs) ++ ys = (r, w) :: (xs ++ ys) := rfl
    have h2 : j + 1 + xs.length = j + (xs.length + 1) := by omega
    rw [h1, pipeEvents, pipeEvents, ih, List.length_cons, h2]
    rfl

/-- What the pipe-creating loop does when it runs to its end. -/
theorem pipeLoop_finished (nofile : Nat) (t0 : FdTable) :
    ∀ (todo : Nat) (p q : Proc), pipeLoop nofile todo p.pipes.length p = Loop.finished q →
      PipesInv t0 p.pipes p.fds →
      PipesInv t0 q.pipes q.fds ∧ q.unreaped = p.unreaped ∧ q.children = p.children ∧
        ∃ ext, q.pipes = p.pipes ++ ext ∧ ext.length = todo ∧
          q.trace = p.trace ++ pipeEvents p.pipes.length ext := by
  intro todo
  induction todo with
  | zero =>
    intro p q h inv
    simp only [pipeLoop, Loop.finished.injEq] at h
    subst h
    exact ⟨inv, rfl, rfl, [], by simp, rfl, by simp [pipeEvents]⟩
  | succ todo ih =>
    intro p q h inv
    rw [pipeLoop] at h
    cases hp : sysPipe nofile p.fds p.pipes.length with
    | none => rw [hp] at h; simp at h
    | some x =>
      obtain ⟨t1, r, w⟩ := x
      rw [hp] at h
      simp only [] at h
      have inv1 := PipesInv.step nofile t0 p.fds t1 p.pipes r w inv hp
      have hlen : p.pipes.length + 1 = (p.pipes ++ [(r, w)]).length := by simp
      rw [hlen] at h
      obtain ⟨i1, i2, i3, ext, e1, e2, e3⟩ :=
        ih { p with fds := t1, pipes := p.pipes ++ [(r, w)],
                    trace := p.trace ++ [Event.pipe p.pipes.length r w] } q h inv1
      refine ⟨i1, i2, i3, (r, w) :: ext, ?_, ?_, ?_⟩
      · simpa using e1
      · simp [e2]
      · rw [e3]
        simp [pipeEvents]

/-- What the forking loop does in the parent when it runs to its end. -/
theorem forkLoop_finished (w : World) (commandArray : List CStr) (numCommands : Nat) :
    ∀ (todo i : Nat) (p q : Proc),
      forkLoop w commandArray numCommands todo i p = Loop.finished q →
      q.fds = p.fds ∧ q.pipes = p.pipes ∧ q.unreaped = p.unreaped + todo ∧
        q.trace = p.trace ++
          (List.range' i todo).map (fun k => Event.fork k (commandArray.getD k [])) ∧
        q.children = p.children ++
          (List.range' i todo).map (pipeChild w commandArray p.pipes p.fds numCommands) ∧
        ∀ k, k < todo → w.forkOk (i + k) = true := by
  intro todo
  induction todo with
  | zero =>
    intro i p q h
    simp only [forkLoop, Loop.finished.injEq] at h
    subst h
    simp
  | succ todo ih =>
    intro i p q h
    rw [forkLoop] at h
    by_cases hf : w.forkOk i = true
    · rw [if_pos hf] at h
      obtain ⟨h1, h2, h3, h4, h5, h6⟩ := ih _ _ _ h
      simp only at h1 h2 h3 h4 h5
      refine ⟨h1, h2, by omega, ?_, ?_, ?_⟩
      · rw [h4]; simp [List.range'_succ]
      · rw [h5]; simp [List.range'_succ]
      · intro k hk
        cases k with
        | zero => simpa using hf
        | succ k =>
          have := h6 k (by omega)
          rwa [show i + (k + 1) = i + 1 + k by omega]
    · rw [if_neg hf] at h
      simp at h

theorem isPipeFd_succ (pipes : List (Nat × Nat)) (m fd : Nat) :
    isPipeFd pipes (m + 1) fd =
      (isPipeFd pipes m fd || (fd == readEnd pipes m || fd == writeEnd pipes m)) := by
  simp [isPipeFd, List.range_succ, List.any_append]

theorem isPipeFd_iff (pipes : List (Nat × Nat)) (m fd : Nat) :
    isPipeFd pipes m fd = true ↔
      ∃ j, j < m ∧ (fd = readEnd pipes j ∨ fd = writeEnd pipes j) := by
  simp [isPipeFd, List.any_eq_true]

/-- What the closing loop of the parent does. -/
theorem closeFold_eq (m : Nat) (p : Proc) :
    let q := (List.range m).foldl
      (fun p j =>
        { p with fds := sysClose (sysClose p.fds (readEnd p.pipes j)) (writeEnd p.pipes j),
                 trace := p.trace ++ [Event.close (readEnd p.pipes j),
                                      Event.close (writeEnd p.pipes j)] })
      p
    q.pipes = p.pipes ∧ q.unreaped = p.unreaped ∧ q.children = p.children ∧
      q.trace = p.trace ++ closeEvents p.pipes m ∧
      ∀ fd, q.fds fd = if isPipeFd p.pipes m fd = true then none else p.fds fd := by
  induction m with
  | zero => simp [closeEvents, isPipeFd]
  | succ m ih =>
    simp only [List.range_succ, List.foldl_append, List.foldl_cons, List.foldl_nil]
    obtain ⟨h1, h2, h3, h4, h5⟩ := ih
    generalize List.foldl
      (fun p j =>
        ({ p with fds := sysClose (sysClose p.fds (readEnd p.pipes j)) (writeEnd p.pipes j),
                  trace := p.trace ++ [Event.close (readEnd p.pipes j),
                                       Event.close (writeEnd p.pipes j)] } : Proc))
      p (List.range m) = q at h1 h2 h3 h4 h5 ⊢
    refine ⟨h1, h2, h3, ?_, ?_⟩
    · simp only [h4, h1, closeEvents, List.append_assoc]
    · intro fd
      simp only [h1, sysClose, Function.update_apply, isPipeFd_succ, h5 fd,
        Bool.or_eq_true, beq_iff_eq]
      by_cases a : fd = writeEnd p.pipes m <;> by_cases b : fd = readEnd p.pipes m <;>
        by_cases c : isPipeFd p.pipes m fd = true <;> simp [a, b, c]

theorem closeLoop_eq (numCommands : Nat) (p : Proc) :
    (closeLoop numCommands p).pipes = p.pipes ∧
      (closeLoop numCommands p).unreaped = p.unreaped ∧
      (closeLoop numCommands p).children = p.children ∧
      (closeLoop numCommands p).trace = p.trace ++ closeEvents p.pipes (numCommands - 1) ∧
      ∀ fd, (closeLoop numCommands p).fds fd =
        if isPipeFd p.pipes (numCommands - 1) fd = true then none else p.fds fd :=
  closeFold_eq (numCommands - 1) p

/-- What the waiting loop does when the process has enough children to
collect. -/
theorem waitFold_eq (m : Nat) (p : Proc) (h : m ≤ p.unreaped) :
    (List.range m).foldl (fun p _ => sysWait p) p =
      { p with unreaped := p.unreaped - m,
               trace := p.trace ++ List.replicate m (Event.wait true) } := by
  induction m with
  | zero => simp
  | succ m ih =>
    rw [List.range_succ, List.foldl_append, ih (by omega)]
    simp only [List.foldl_cons, List.foldl_nil, sysWait]
    rw [if_pos (by show 0 < p.unreaped - m; omega)]
    simp only [List.append_assoc, List.replicate_succ', Proc.mk.injEq, true_and, and_true]
    omega

/-! ## The descriptor wiring of a child -/

theorem isOtherPipeFd_succ (pipes : List (Nat × Nat)) (i m fd : Nat) :
    isOtherPipeFd pipes i (m + 1) fd =
      (isOtherPipeFd pipes i m fd ||
        (m != i && (fd == readEnd pipes m || fd == writeEnd pipes m))) := by
  simp [isOtherPipeFd, List.range_succ, List.any_append]

theorem isOtherPipeFd_iff (pipes : List (Nat × Nat)) (i m fd : Nat) :
    isOtherPipeFd pipes i m fd = true ↔
      ∃ j, j < m ∧ j ≠ i ∧ (fd = readEnd pipes j ∨ fd = writeEnd pipes j) := by
  simp [isOtherPipeFd, List.any_eq_true]

theorem childCloseFold_eq (pipes : List (Nat × Nat)) (i : Nat) (t : FdTable) (m : Nat) :
    ∀ fd, ((List.range m).foldl
        (fun t j =>
          if j ≠ i then sysClose (sysClose t (readEnd pipes j)) (writeEnd pipes j) else t)
        t) fd = if isOtherPipeFd pipes i m fd = true then none else t fd := by
  induction m with
  | zero => intro fd; simp [isOtherPipeFd]
  | succ m ih =>
    intro fd
    rw [List.range_succ, List.foldl_append]
    generalize List.foldl
      (fun (t : FdTable) j =>
        if j ≠ i then sysClose (sysClose t (readEnd pipes j)) (writeEnd pipes j) else t)
      t (List.range m) = q at ih ⊢
    simp only [List.foldl_cons, List.foldl_nil, isOtherPipeFd_succ, Bool.or_eq_true,
      Bool.and_eq_true, bne_iff_ne, beq_iff_eq]
    by_cases hm : m = i
    · simp [hm, ih fd]
    · simp only [hm, ne_eq, not_false_eq_true, if_true, sysClose, Function.update_apply, ih fd,
        true_and]
      by_cases a : fd = writeEnd pipes m <;> by_cases b : fd = readEnd pipes m <;>
        by_cases c : isOtherPipeFd pipes i m fd = true <;> simp [a, b, c]

theorem PipesInv.read_ne_write {t0 t : FdTable} {pipes : List (Nat × Nat)}
    (inv : PipesInv t0 pipes t) (j k : Nat) (hj : j < pipes.length) (hk : k < pipes.length) :
    readEnd pipes j ≠ writeEnd pipes k := by
  intro he
  have h1 := (inv.ends j hj).1
  have h2 := (inv.ends k hk).2
  rw [he, h2] at h1
  simp at h1

theorem PipesInv.read_inj {t0 t : FdTable} {pipes : List (Nat × Nat)}
    (inv : PipesInv t0 pipes t) (j k : Nat) (hj : j < pipes.length) (hk : k < pipes.length)
    (he : readEnd pipes j = readEnd pipes k) : j = k := by
  have h1 := (inv.ends j hj).1
  have h2 := (inv.ends k hk).1
  rw [he, h2] at h1
  simpa using h1.symm

theorem PipesInv.write_inj {t0 t : FdTable} {pipes : List (Nat × Nat)}
    (inv : PipesInv t0 pipes t) (j k : Nat) (hj : j < pipes.length) (hk : k < pipes.length)
    (he : writeEnd pipes j = writeEnd pipes k) : j = k := by
  have h1 := (inv.ends j hj).2
  have h2 := (inv.ends k hk).2
  rw [he, h2] at h1
  simpa using h1.symm

/-- A descriptor that was open on entry is not a pipe descriptor, and the
parent's table still has it as it was. -/
theorem PipesInv.of_open {t0 t : FdTable} {pipes : List (Nat × Nat)}
    (inv : PipesInv t0 pipes t) (fd : Nat) (h : t0 fd ≠ none) :
    (∀ j, j < pipes.length → fd ≠ readEnd pipes j ∧ fd ≠ writeEnd pipes j) ∧ t fd = t0 fd := by
  have h1 : ∀ j, j < pipes.length → fd ≠ readEnd pipes j ∧ fd ≠ writeEnd pipes j := by
    intro j hj
    constructor <;> intro he <;> apply h <;> rw [he]
    · exact (inv.fresh j hj).1
    · exact (inv.fresh j hj).2
  exact ⟨h1, inv.frame fd h1⟩

/-- The descriptor table with which the child for stage `i` reaches the
construction of its argument vector, when the standard input and output were
open on entry. -/
theorem wireChild_eq (t0 t : FdTable) (pipes : List (Nat × Nat)) (n i : Nat)
    (inv : PipesInv t0 pipes t) (hlen : pipes.length = n - 1) (hi : i < n)
    (h0 : t0 STDIN_FILENO ≠ none) :
    wireChild pipes t n i = some (fun fd =>
      if isOtherPipeFd pipes i (n - 1) fd = true then none
      else if i ≠ n - 1 ∧ fd = writeEnd pipes i then none
      else if i ≠ n - 1 ∧ fd = STDOUT_FILENO then some (Desc.pipeWrite i)
      else if i ≠ 0 ∧ fd = readEnd pipes (i - 1) then none
      else if i ≠ 0 ∧ fd = STDIN_FILENO then some (Desc.pipeRead (i - 1))
      else t fd) := by
  have s0 := inv.of_open STDIN_FILENO h0
  unfold wireChild
  have e1 : (if i ≠ 0 then
        match sysDup2 t (readEnd pipes (i - 1)) STDIN_FILENO with
        | none => none
        | some t => some (sysClose t (readEnd pipes (i - 1)))
      else some t) = some (fun fd =>
        if i ≠ 0 ∧ fd = readEnd pipes (i - 1) then none
        else if i ≠ 0 ∧ fd = STDIN_FILENO then some (Desc.pipeRead (i - 1))
        else t fd) := by
    by_cases hz : i = 0
    · simp [hz]
    · have hr := (inv.ends (i - 1) (by omega)).1
      simp only [ne_eq, hz, not_false_eq_true, if_true, sysDup2, hr, sysClose, true_and]
      congr 1
      funext fd
      simp only [Function.update_apply]
  simp only [e1]
  have e2 : (if i ≠ n - 1 then
        match sysDup2 (fun fd =>
            if i ≠ 0 ∧ fd = readEnd pipes (i - 1) then none
            else if i ≠ 0 ∧ fd = STDIN_FILENO then some (Desc.pipeRead (i - 1))
            else t fd) (writeEnd pipes i) STDOUT_FILENO with
        | none => none
        | some t => some (sysClose t (writeEnd pipes i))
      else some (fun fd =>
            if i ≠ 0 ∧ fd = readEnd pipes (i - 1) then none
            else if i ≠ 0 ∧ fd = STDIN_FILENO then some (Desc.pipeRead (i - 1))
            else t fd)) = some (fun fd =>
        if i ≠ n - 1 ∧ fd = writeEnd pipes i then none
        else if i ≠ n - 1 ∧ fd = STDOUT_FILENO then some (Desc.pipeWrite i)
        else if i ≠ 0 ∧ fd = readEnd pipes (i - 1) then none
        else if i ≠ 0 ∧ fd = STDIN_FILENO then some (Desc.pipeRead (i - 1))
        else t fd) := by
    by_cases hz : i = n - 1
    · simp [hz]
    · have hw := (inv.ends i (by omega)).2
      have hne : ¬ (i ≠ 0 ∧ writeEnd pipes i = readEnd pipes (i - 1)) := fun h =>
        inv.read_ne_write (i - 1) i (by omega) (by omega) h.2.symm
      have hstd : ¬ (i ≠ 0 ∧ writeEnd pipes i = STDIN_FILENO) := fun h =>
        (s0.1 i (by omega)).2 h.2.symm
      simp only [ne_eq, hz, not_false_eq_true, if_true, sysDup2, sysClose, true_and]
      rw [if_neg hne, if_neg hstd, hw]
      simp only []
      congr 1
      funext fd
      simp only [Function.update_apply]
  simp only [e2]
  congr 1
  funext fd
  rw [childCloseFold_eq]

/-- What the child for stage `i` holds when it builds its argument vector:
its standard input and output, every write end closed, every read end closed
except the read end of pipe `i`, which stays open, and every other descriptor
as on entry. -/
theorem wireChild_spec (t0 t : FdTable) (pipes : List (Nat × Nat)) (n i : Nat)
    (inv : PipesInv t0 pipes t) (hlen : pipes.length = n - 1) (hi : i < n)
    (h0 : t0 STDIN_FILENO ≠ none) (h1 : t0 STDOUT_FILENO ≠ none) :
    ∃ tc, wireChild pipes t n i = some tc ∧
      tc STDIN_FILENO = (if i = 0 then t0 STDIN_FILENO else some (Desc.pipeRead (i - 1))) ∧
      tc STDOUT_FILENO = (if i = n - 1 then t0 STDOUT_FILENO else some (Desc.pipeWrite i)) ∧
      (∀ j, j < n - 1 → tc (writeEnd pipes j) = none) ∧
      (∀ j, j < n - 1 → j ≠ i → tc (readEnd pipes j) = none) ∧
      (i < n - 1 → tc (readEnd pipes i) = some (Desc.pipeRead i)) ∧
      (∀ fd, fd ≠ STDIN_FILENO → fd ≠ STDOUT_FILENO → isPipeFd pipes (n - 1) fd = false →
        tc fd = t0 fd) := by
  have s0 := inv.of_open STDIN_FILENO h0
  have s1 := inv.of_open STDOUT_FILENO h1
  have hne01 : STDIN_FILENO ≠ STDOUT_FILENO := by decide
  refine ⟨_, wireChild_eq t0 t pipes n i inv hlen hi h0, ?_, ?_, ?_, ?_, ?_, ?_⟩
  · -- standard input
    have a : ¬ (isOtherPipeFd pipes i (n - 1) STDIN_FILENO = true) := by
      rw [isOtherPipeFd_iff]
      rintro ⟨j, hj, _, h | h⟩
      · exact (s0.1 j (by omega)).1 h
      · exact (s0.1 j (by omega)).2 h
    have b : ¬ (i ≠ n - 1 ∧ STDIN_FILENO = writeEnd pipes i) := fun h =>
      (s0.1 i (by omega)).2 h.2
    have c : ¬ (i ≠ n - 1 ∧ STDIN_FILENO = STDOUT_FILENO) := fun h => hne01 h.2
    have d : ¬ (i ≠ 0 ∧ STDIN_FILENO = readEnd pipes (i - 1)) := fun h =>
      (s0.1 (i - 1) (by omega)).1 h.2
    simp only [if_neg a, if_neg b, if_neg c, if_neg d]
    by_cases hz : i = 0
    · simp [hz, s0.2]
    · simp [hz]
  · -- standard output
    have a : ¬ (isOtherPipeFd pipes i (n - 1) STDOUT_FILENO = true) := by
      rw [isOtherPipeFd_iff]
      rintro ⟨j, hj, _, h | h⟩
      · exact (s1.1 j (by omega)).1 h
      · exact (s1.1 j (by omega)).2 h
    have b : ¬ (i ≠ n - 1 ∧ STDOUT_FILENO = writeEnd pipes i) := fun h =>
      (s1.1 i (by omega)).2 h.2
    have d : ¬ (i ≠ 0 ∧ STDOUT_FILENO = readEnd pipes (i - 1)) := fun h =>
      (s1.1 (i - 1) (by omega)).1 h.2
    have e : ¬ (i ≠ 0 ∧ STDOUT_FILENO = STDIN_FILENO) := fun h => hne01 h.2.symm
    simp only [if_neg a, if_neg b]
    by_cases hz : i = n - 1
    · simp only [hz, ne_eq, not_true_eq_false, false_and, if_false, if_true]
      rw [← hz, if_neg d, if_neg e, s1.2]
    · simp [hz]
  · -- write ends
    intro j hj
    by_cases hji : j = i
    · subst hji
      by_cases a : isOtherPipeFd pipes j (n - 1) (writeEnd pipes j) = true
      · simp [a]
      · have : j ≠ n - 1 := by omega
        simp [a, this]
    · have a : isOtherPipeFd pipes i (n - 1) (writeEnd pipes j) = true := by
        rw [isOtherPipeFd_iff]
        exact ⟨j, hj, hji, Or.inr rfl⟩
      simp [a]
  · -- read ends of the other pipes
    intro j hj hji
    have a : isOtherPipeFd pipes i (n - 1) (readEnd pipes j) = true := by
      rw [isOtherPipeFd_iff]
      exact ⟨j, hj, hji, Or.inl rfl⟩
    simp [a]
  · -- the read end of the child's own output pipe
    intro hlt
    have a : ¬ (isOtherPipeFd pipes i (n - 1) (readEnd pipes i) = true) := by
      rw [isOtherPipeFd_iff]
      rintro ⟨j, hj, hji, h | h⟩
      · exact hji (inv.read_inj i j (by omega) (by omega) h).symm
      · exact inv.read_ne_write i j (by omega) (by omega) h
    have b : ¬ (i ≠ n - 1 ∧ readEnd pipes i = writeEnd pipes i) := fun h =>
      inv.read_ne_write i i (by omega) (by omega) h.2
    have c : ¬ (i ≠ n - 1 ∧ readEnd pipes i = STDOUT_FILENO) := fun h =>
      (s1.1 i (by omega)).1 h.2.symm
    have d : ¬ (i ≠ 0 ∧ readEnd pipes i = readEnd pipes (i - 1)) := fun h => by
      have := inv.read_inj i (i - 1) (by omega) (by omega) h.2
      omega
    have e : ¬ (i ≠ 0 ∧ readEnd pipes i = STDIN_FILENO) := fun h =>
      (s0.1 i (by omega)).1 h.2.symm
    simp only [if_neg a, if_neg b, if_neg c, if_neg d, if_neg e]
    exact (inv.ends i (by omega)).1
  · -- every other descriptor
    intro fd f0 f1 hp
    have hp' : ∀ j, j < n - 1 → fd ≠ readEnd pipes j ∧ fd ≠ writeEnd pipes j := by
      intro j hj
      have : ¬ (isPipeFd pipes (n - 1) fd = true) := by simp [hp]
      rw [isPipeFd_iff] at this
      constructor <;> intro he <;> apply this
      · exact ⟨j, hj, Or.inl he⟩
      · exact ⟨j, hj, Or.inr he⟩
    have a : ¬ (isOtherPipeFd pipes i (n - 1) fd = true) := by
      rw [isOtherPipeFd_iff]
      rintro ⟨j, hj, _, h | h⟩
      · exact (hp' j hj).1 h
      · exact (hp' j hj).2 h
    have b : ¬ (i ≠ n - 1 ∧ fd = writeEnd pipes i) := fun h =>
      (hp' i (by omega)).2 h.2
    have c : ¬ (i ≠ n - 1 ∧ fd = STDOUT_FILENO) := fun h => f1 h.2
    have d : ¬ (i ≠ 0 ∧ fd = readEnd pipes (i - 1)) := fun h =>
      (hp' (i - 1) (by omega)).1 h.2
    have e : ¬ (i ≠ 0 ∧ fd = STDIN_FILENO) := fun h => f0 h.2
    simp only [if_neg a, if_neg b, if_neg c, if_neg d, if_neg e]
    exact inv.frame fd (fun j hj => hp' j (by omega))

/-! ## A pipeline run in the parent -/

/-- The shape of a run of the pipeline code that reaches its end in the
parent: `numCommands - 1` pipes are created, then `numCommands` children are
forked (each starting from the table `t` that holds all the pipes), then both
ends of every pipe are closed, then `numCommands` terminations are collected;
the parent's descriptor table is back to what it was. -/
theorem pipeParent_finished (w : World) (commandArray : List CStr) (p0 q : Proc)
    (h : pipeParent w commandArray p0 = Loop.finished q) (hp : p0.pipes = []) :
    ∃ pipes t, pipes.length = commandArray.length - 1 ∧ PipesInv p0.fds pipes t ∧
      q.pipes = pipes ∧
      q.trace = p0.trace ++ pipeEvents 0 pipes
        ++ (List.range commandArray.length).map (fun k => Event.fork k (commandArray.getD k []))
        ++ closeEvents pipes (commandArray.length - 1)
        ++ List.replicate commandArray.length (Event.wait true) ∧
      q.children = p0.children ++
        (List.range commandArray.length).map
          (pipeChild w commandArray pipes t commandArray.length) ∧
      q.unreaped = p0.unreaped ∧
      (∀ fd, q.fds fd = p0.fds fd) ∧
      (∀ k, k < commandArray.length → w.forkOk k = true) := by
  unfold pipeParent at h
  simp only [] at h
  cases h1 : pipeLoop w.nofile (commandArray.length - 1) 0 p0 with
  | failed p1 => rw [h1] at h; simp at h
  | finished p1 =>
    rw [h1] at h
    simp only [] at h
    cases h2 : forkLoop w commandArray commandArray.length commandArray.length 0 p1 with
    | failed p2 => rw [h2] at h; simp at h
    | finished p2 =>
      rw [h2] at h
      simp only [Loop.finished.injEq] at h
      have hz : (0 : Nat) = p0.pipes.length := by simp [hp]
      rw [hz] at h1
      obtain ⟨inv, a2, a3, ext, a4, a5, a6⟩ :=
        pipeLoop_finished w.nofile p0.fds _ p0 p1 h1 (by rw [hp]; exact PipesInv.entry _)
      rw [hp] at a4 a6
      simp only [List.nil_append, List.length_nil] at a4 a6
      obtain ⟨b1, b2, b3, b4, b5, b6⟩ := forkLoop_finished w commandArray _ _ _ _ _ h2
      obtain ⟨c1, c2, c3, c4, c5⟩ := closeLoop_eq commandArray.length p2
      have hw := waitFold_eq commandArray.length (closeLoop commandArray.length p2)
        (by rw [c2, b3]; omega)
      have hq : q = waitLoop commandArray.length (closeLoop commandArray.length p2) := h.symm
      unfold waitLoop at hq
      rw [hw] at hq
      subst hq
      refine ⟨ext, p1.fds, a5, ?_, ?_, ?_, ?_, ?_, ?_, ?_⟩
      · rw [← a4]; exact inv
      · simp only [c1, b2, a4]
      · simp only [c4, b4, a6, b2, a4, List.range_eq_range', List.append_assoc]
      · simp only [c3, b5, a3, a4, List.range_eq_range']
      · simp only [c2, b3, a2]; omega
      · intro fd
        simp only [c5 fd, b1, b2, a4]
        rw [a4] at inv
        by_cases hfd : isPipeFd ext (commandArray.length - 1) fd = true
        · rw [if_pos hfd]
          obtain ⟨j, hj, hjr | hjw⟩ := (isPipeFd_iff _ _ _).mp hfd
          · rw [hjr]; exact ((inv.fresh j (by omega)).1).symm
          · rw [hjw]; exact ((inv.fresh j (by omega)).2).symm
        · rw [if_neg hfd]
          apply inv.frame
          intro j hj
          constructor <;> intro he <;> apply hfd <;> rw [isPipeFd_iff]
          · exact ⟨j, by omega, Or.inl he⟩
          · exact ⟨j, by omega, Or.inr he⟩
      · intro k hk
        simpa using b6 k hk

theorem map_fork_range' (xs : List CStr) :
    ∀ (pre : List CStr) (i : Nat), pre.length = i →
      (List.range' i xs.length).map (fun k => Event.fork k ((pre ++ xs).getD k []))
        = forkEvents i xs := by
  induction xs with
  | nil => intro pre i _; simp [forkEvents]
  | cons x xs ih =>
    intro pre i hi
    have h := ih (pre ++ [x]) (i + 1) (by simp [hi])
    simp only [List.append_assoc, List.singleton_append] at h
    simp only [List.length_cons, List.range'_succ, List.map_cons, forkEvents, h]
    congr 1
    subst hi
    rw [List.getD_eq_getElem?_getD, List.getElem?_append_right (Nat.le_refl _)]
    simp

theorem map_fork_range (xs : List CStr) :
    (List.range xs.length).map (fun k => Event.fork k (xs.getD k [])) = forkEvents 0 xs := by
  have h := map_fork_range' xs [] 0 rfl
  rw [List.range_eq_range']
  simpa using h

theorem forkedStages_append (a b : List Event) :
    forkedStages (a ++ b) = forkedStages a ++ forkedStages b := by
  simp [forkedStages, List.filterMap_append]

theorem forkedStages_forkEvents (xs : List CStr) :
    ∀ i, forkedStages (forkEvents i xs) = xs := by
  induction xs with
  | nil => intro i; rfl
  | cons x xs ih =>
    intro i
    simp only [forkEvents, forkedStages, List.filterMap_cons]
    have := ih (i + 1)
    simp only [forkedStages] at this
    rw [this]

theorem forkedStages_pipeEvents (pipes : List (Nat × Nat)) :
    ∀ j, forkedStages (pipeEvents j pipes) = [] := by
  induction pipes with
  | nil => intro j; rfl
  | cons x xs ih =>
    intro j
    obtain ⟨r, w⟩ := x
    simp only [pipeEvents, forkedStages, List.filterMap_cons]
    have := ih (j + 1)
    simp only [forkedStages] at this
    rw [this]

theorem forkedStages_closeEvents (pipes : List (Nat × Nat)) (m : Nat) :
    forkedStages (closeEvents pipes m) = [] := by
  induction m with
  | zero => rfl
  | succ m ih =>
    rw [closeEvents, forkedStages_append, ih]
    rfl

theorem forkedStages_replicate_wait (m : Nat) (b : Bool) :
    forkedStages (List.replicate m (Event.wait b)) = [] := by
  induction m with
  | zero => rfl
  | succ m ih =>
    rw [List.replicate_succ]
    simp only [forkedStages, List.filterMap_cons]
    simp only [forkedStages] at ih
    rw [ih]

theorem Loop.eq_finished_of_isFinished (l : Loop) (h : l.isFinished = true) :
    l = Loop.finished l.proc := by
  cases l with
  | finished p => rfl
  | failed p => simp [Loop.isFinished] at h

/-- What `executePipeCommands` does once the history call has gone through:
it returns at the test on the pipe count, or runs the pipeline code on the
maximal runs between `|` characters. -/
theorem executePipeCommands_eq (w : World) (sh : Shell) (line : CStr) (history : CommandHistory)
    (hh : addHistory sh.history (some line) = Run.done history) :
    executePipeCommands w sh line =
      if line.count '|' = (maximalRuns '|' line).length then
        Step.ok () { sh with history := history }
      else
        match pipeParent w (maximalRuns '|' line) sh.toProc with
        | Loop.failed p => handleError (({ sh with history := history }).ofProc p)
        | Loop.finished p => Step.ok () (({ sh with history := history }).ofProc p) := by
  unfold executePipeCommands
  rw [hh, splitPipeline_eq]
  by_cases hc : line.count '|' = (maximalRuns '|' line).length
  · simp only [hc, if_true]
  · simp only [hc, if_false]
    rfl

/-- A call of `executePipeCommands` that returns in the parent either
returned at the test on the pipe count or ran the pipeline code to its
end. -/
theorem executePipeCommands_ok (w : World) (sh : Shell) (line : CStr)
    (hok : (executePipeCommands w sh line).isOk = true) :
    ∃ history, addHistory sh.history (some line) = Run.done history ∧
      ((line.count '|' = (maximalRuns '|' line).length ∧
          executePipeCommands w sh line = Step.ok () { sh with history := history }) ∨
       (line.count '|' ≠ (maximalRuns '|' line).length ∧
          ∃ q, pipeParent w (maximalRuns '|' line) sh.toProc = Loop.finished q ∧
            executePipeCommands w sh line =
              Step.ok () (({ sh with history := history }).ofProc q))) := by
  cases hh : addHistory sh.history (some line) with
  | outOfBounds => simp [executePipeCommands, hh, Step.isOk] at hok
  | outOfFuel => simp [executePipeCommands, hh, Step.isOk] at hok
  | done history =>
    refine ⟨history, rfl, ?_⟩
    have he := executePipeCommands_eq w sh line history hh
    by_cases hc : line.count '|' = (maximalRuns '|' line).length
    · left
      rw [if_pos hc] at he
      exact ⟨hc, he⟩
    · right
      rw [if_neg hc] at he
      refine ⟨hc, ?_⟩
      cases hp : pipeParent w (maximalRuns '|' line) sh.toProc with
      | failed p =>
        rw [hp] at he
        rw [he] at hok
        simp [handleError, Step.isOk] at hok
      | finished q =>
        rw [hp] at he
        exact ⟨q, rfl, he⟩

theorem entryTable_isSome (openFds : Nat → Bool) (fd : Nat) :
    (entryTable openFds fd).isSome = openFds fd := by
  unfold entryTable
  cases openFds fd <;> simp

/-- A call of `executePipeCommands` that passes the test on the pipe count
and returns in the parent: the history call went through, the pipes were
created, then the children forked, then the pipes closed and the children
waited for, and the set of open descriptors is the one on entry. -/
theorem executePipeCommands_accepted (w : World) (sh : Shell) (line : CStr)
    (hok : (executePipeCommands w sh line).isOk = true)
    (hc : line.count '|' ≠ (maximalRuns '|' line).length) :
    ∃ history pipes t,
      addHistory sh.history (some line) = Run.done history ∧
      pipes.length = (maximalRuns '|' line).length - 1 ∧
      PipesInv (entryTable sh.openFds) pipes t ∧
      (executePipeCommands w sh line).shell.history = history ∧
      (executePipeCommands w sh line).shell.trace =
        sh.trace ++ pipeEvents 0 pipes ++ forkEvents 0 (maximalRuns '|' line)
          ++ closeEvents pipes ((maximalRuns '|' line).length - 1)
          ++ List.replicate (maximalRuns '|' line).length (Event.wait true) ∧
      (executePipeCommands w sh line).shell.children =
        sh.children ++ (List.range (maximalRuns '|' line).length).map
          (pipeChild w (maximalRuns '|' line) pipes t (maximalRuns '|' line).length) ∧
      (executePipeCommands w sh line).shell.unreaped = sh.unreaped ∧
      (∀ fd, (executePipeCommands w sh line).shell.openFds fd = sh.openFds fd) ∧
      (∀ k, k < (maximalRuns '|' line).length → w.forkOk k = true) := by
  obtain ⟨history, hh, hcase⟩ := executePipeCommands_ok w sh line hok
  rcases hcase with ⟨heq, _⟩ | ⟨_, q, hq, he⟩
  · exact absurd heq hc
  · obtain ⟨pipes, t, a1, a2, a3, a4, a5, a6, a7, a8⟩ :=
      pipeParent_finished w (maximalRuns '|' line) sh.toProc q hq rfl
    refine ⟨history, pipes, t, hh, a1, a2, ?_, ?_, ?_, ?_, ?_, a8⟩
    · rw [he]; rfl
    · rw [he]
      simp only [Step.shell, Shell.ofProc, a4, map_fork_range]
      rfl
    · rw [he]
      simp only [Step.shell, Shell.ofProc, a5]
      rfl
    · rw [he]
      simp only [Step.shell, Shell.ofProc, a6]
      rfl
    · intro fd
      rw [he]
      simp only [Step.shell, Shell.ofProc, a7 fd]
      exact entryTable_isSome sh.openFds fd

/-- A call of `executePipeCommands` that returns at the test on the pipe
count changes nothing but the history. -/
theorem executePipeCommands_rejected (w : World) (sh : Shell) (line : CStr)
    (hc : line.count '|' = (maximalRuns '|' line).length) :
    (executePipeCommands w sh line).shell.trace = sh.trace ∧
      (executePipeCommands w sh line).shell.children = sh.children ∧
      (executePipeCommands w sh line).shell.unreaped = sh.unreaped ∧
      (executePipeCommands w sh line).shell.openFds = sh.openFds ∧
      (executePipeCommands w sh line).exitCode = none := by
  cases hh : addHistory sh.history (some line) with
  | outOfBounds => simp [executePipeCommands, hh, Step.shell, Step.exitCode]
  | outOfFuel => simp [executePipeCommands, hh, Step.shell, Step.exitCode]
  | done history =>
    rw [executePipeCommands_eq w sh line history hh, if_pos hc]
    simp [Step.shell, Step.exitCode]

/-! ## Empty stages -/

theorem length_splitOn (d : Char) (s : CStr) : (s.splitOn d).length = s.count d + 1 := by
  induction s with
  | nil => simp
  | cons a t ih =>
    simp only [List.splitOn] at ih ⊢
    rw [List.splitOnP_cons]
    by_cases h : a = d
    · subst h
      simp [ih]
    · have h1 : (a == d) = false := by simpa using h
      simp only [h1, Bool.false_eq_true, if_false, List.length_modifyHead, ih]
      rw [List.count_cons_of_ne (Ne.symm h)]

/-- Cutting a line at every `|` gives one piece more than there are `|`; the
pieces are the maximal runs and the empty stages. -/
theorem count_add_one_eq (line : CStr) :
    line.count '|' + 1 = (maximalRuns '|' line).length + emptyStages line := by
  rw [← length_splitOn, List.length_eq_length_filter_add (fun t => !t.isEmpty)]
  simp [maximalRuns, emptyStages]

/-- The test `pipeCount == numCommands` holds exactly for the lines with one
empty stage. -/
theorem count_eq_length_iff (line : CStr) :
    line.count '|' = (maximalRuns '|' line).length ↔ emptyStages line = 1 := by
  have := count_add_one_eq line
  omega

/-! ## The single-command path: concrete runs -/

theorem processInput_check :
    (processInput (World.plain ["echo".toList]) Shell.fresh
      (ReadResult.line "echo hi\n".toList)).shell.history =
      ⟨[some "echo hi".toList, none, none, none, none], 5, 1⟩ ∧
    (processInput (World.plain ["echo".toList]) Shell.fresh
      (ReadResult.line "echo hi\n".toList)).shell.trace =
      [Event.forkCommand ["echo".toList, "hi".toList], Event.waitpid true] ∧
    (processInput (World.plain []) Shell.fresh (ReadResult.line "vars\n".toList)).shell.history
      = initHistory ∧
    atoi "  -12x".toList = -12 ∧ atoi "7".toList = 7 ∧ atoi "set".toList = 0 := by
  decide

/-! ## What one history call records -/

theorem writeSlot_zero_head (commands commands1 : List (Option CStr)) (v : Option CStr)
    (h : writeSlot commands 0 v = Run.done commands1) : commands1.head? = some v := by
  unfold writeSlot at h
  split at h
  · rename_i hr
    simp only [Run.done.injEq] at h
    subst h
    cases commands with
    | nil => simp at hr
    | cons a t => simp
  · simp at h

theorem pushFront_head (commands commands1 : List (Option CStr)) (top : Int) (cmd : CStr)
    (h : pushFront commands top cmd = Run.done commands1) :
    commands1.head? = some (some cmd) := by
  unfold pushFront at h
  cases hs : shiftLoop top.toNat commands with
  | done shifted =>
    rw [hs] at h
    exact writeSlot_zero_head _ _ _ h
  | outOfBounds => rw [hs] at h; simp at h
  | outOfFuel => rw [hs] at h; simp at h

theorem readSlot_zero_head (commands : List (Option CStr)) (v : Option CStr)
    (h : readSlot commands 0 = Run.done v) : commands.head? = some v := by
  unfold readSlot at h
  split at h
  · rename_i hr
    simp only [Run.done.injEq] at h
    subst h
    cases commands with
    | nil => simp at hr
    | cons a t => simp
  · simp at h

/-- After a history call that goes through, the command is the most recent
entry, unless the history has no capacity, in which case nothing changes. -/
theorem addHistory_head (history history1 : CommandHistory) (cmd : CStr)
    (h : addHistory history (some cmd) = Run.done history1) :
    if history.maxSize = 0 then history1 = history
    else history1.commands.head? = some (some cmd) := by
  unfold addHistory at h
  simp only [] at h
  by_cases hpos : history.currSize > 0
  · simp only [hpos, if_true] at h
    cases hr : readSlot history.commands 0 with
    | outOfBounds => rw [hr] at h; simp at h
    | outOfFuel => rw [hr] at h; simp at h
    | done v =>
      rw [hr] at h
      cases v with
      | none => simp at h
      | some first =>
        simp only [] at h
        by_cases hsame : first = cmd
        · subst hsame
          simp only [beq_self_eq_true, Run.done.injEq] at h
          subst h
          split
          · rfl
          · exact readSlot_zero_head _ _ hr
        · have hb : (first == cmd) = false := by simpa using hsame
          simp only [hb] at h
          by_cases hfull : history.currSize = history.maxSize ∧ history.maxSize ≠ 0
          · rw [if_pos hfull] at h
            rw [if_neg hfull.2]
            cases hl : readSlot history.commands (history.maxSize - 1) with
            | outOfBounds => rw [hl] at h; simp at h
            | outOfFuel => rw [hl] at h; simp at h
            | done v1 =>
              rw [hl] at h
              simp only [] at h
              cases hp : pushFront history.commands (history.maxSize - 1) cmd with
              | outOfBounds => rw [hp] at h; simp at h
              | outOfFuel => rw [hp] at h; simp at h
              | done c1 =>
                rw [hp] at h
                simp only [Run.done.injEq] at h
                subst h
                exact pushFront_head _ _ _ _ hp
          · rw [if_neg hfull] at h
            by_cases hzero : history.maxSize = 0
            · rw [if_pos hzero] at h
              rw [if_pos hzero]
              simp only [Run.done.injEq] at h
              exact h.symm
            · rw [if_neg hzero] at h
              rw [if_neg hzero]
              cases hp : pushFront history.commands (history.currSize + 1 - 1) cmd with
              | outOfBounds => rw [hp] at h; simp at h
              | outOfFuel => rw [hp] at h; simp at h
              | done c1 =>
                rw [hp] at h
                simp only [Run.done.injEq] at h
                subst h
                exact pushFront_head _ _ _ _ hp
  · simp only [hpos, if_false] at h
    by_cases hfull : history.currSize = history.maxSize ∧ history.maxSize ≠ 0
    · rw [if_pos hfull] at h
      rw [if_neg hfull.2]
      cases hl : readSlot history.commands (history.maxSize - 1) with
      | outOfBounds => rw [hl] at h; simp at h
      | outOfFuel => rw [hl] at h; simp at h
      | done v1 =>
        rw [hl] at h
        simp only [] at h
        cases hp : pushFront history.commands (history.maxSize - 1) cmd with
        | outOfBounds => rw [hp] at h; simp at h
        | outOfFuel => rw [hp] at h; simp at h
        | done c1 =>
          rw [hp] at h
          simp only [Run.done.injEq] at h
          subst h
          exact pushFront_head _ _ _ _ hp
    · rw [if_neg hfull] at h
      by_cases hzero : history.maxSize = 0
      · rw [if_pos hzero] at h
        rw [if_pos hzero]
        simp only [Run.done.injEq] at h
        exact h.symm
      · rw [if_neg hzero] at h
        rw [if_neg hzero]
        cases hp : pushFront history.commands (history.currSize + 1 - 1) cmd with
        | outOfBounds => rw [hp] at h; simp at h
        | outOfFuel => rw [hp] at h; simp at h
        | done c1 =>
          rw [hp] at h
          simp only [Run.done.injEq] at h
          subst h
          exact pushFront_head _ _ _ _ hp

/-- The history after `executeExternalCommand` is the one its single history
call yields, whether `fork` succeeds or not and whatever `execvp` does. -/
theorem executeExternalCommand_history (w : World) (sh : Shell) (args : List CStr)
    (line : Option CStr) (history : CommandHistory)
    (hh : addHistory sh.history line = Run.done history) :
    (executeExternalCommand w sh args line).isOk = true ∧
      (executeExternalCommand w sh args line).shell.history = history ∧
      (executeExternalCommand w sh args line).shell.shellVars = sh.shellVars := by
  unfold executeExternalCommand
  by_cases hf : w.forkOk 0 = true
  · simp [hf, hh, Step.isOk, Step.shell]
  · simp [hf, hh, Step.isOk, Step.shell]

/-- A command that is not a built-in goes to `executeExternalCommand` with the
line typed. -/
theorem executeCommand_external (w : World) (sh : Shell) (program : CStr) (rest : List CStr)
    (line : CStr) (hext : program ∉ builtinNames) :
    executeCommand w sh (program :: rest) line =
      executeExternalCommand w sh (program :: rest) (some line) := by
  simp only [builtinNames, List.mem_cons, List.mem_singleton, List.not_mem_nil, or_false,
    not_or] at hext
  obtain ⟨h1, h2, h3, h4, h5, h6⟩ := hext
  simp only [executeCommand, h1, h2, h3, h4, h5, h6, if_false]

/-! ## Links between the parts of a pipeline run -/

theorem splitPipeline_some (line : CStr) (stages : List CStr)
    (h : splitPipeline line = Run.done (some stages)) :
    line.count '|' ≠ (maximalRuns '|' line).length ∧ stages = maximalRuns '|' line := by
  rw [splitPipeline_eq] at h
  by_cases hc : line.count '|' = (maximalRuns '|' line).length
  · rw [if_pos hc] at h; simp at h
  · rw [if_neg hc] at h
    simp only [Run.done.injEq, Option.some.injEq] at h
    exact ⟨hc, h.symm⟩

theorem pipeChild_fds (w : World) (commandArray : List CStr) (pipes : List (Nat × Nat))
    (t tc : FdTable) (n i : Nat) (h : wireChild pipes t n i = some tc) :
    (pipeChild w commandArray pipes t n i).fds = tc := by
  unfold pipeChild
  rw [h, stageArgs_eq]
  simp only []
  cases maximalRuns ' ' (commandArray.getD i []) with
  | nil => rfl
  | cons program rest =>
    simp only []
    split <;> rfl

/-- What the child for a stage does after its descriptors are wired: with no
token in the stage text it calls `execvp` on a null program name; otherwise it
runs the program when `execvp` succeeds, and prints the message and returns
from `executePipeCommands` when `execvp` fails. -/
theorem pipeChild_eq (w : World) (commandArray : List CStr) (pipes : List (Nat × Nat))
    (t tc : FdTable) (n i : Nat) (h : wireChild pipes t n i = some tc) :
    pipeChild w commandArray pipes t n i =
      match maximalRuns ' ' (commandArray.getD i []) with
      | [] => ChildEnd.faulted tc
      | program :: rest =>
        if w.execOk (program :: rest) then ChildEnd.execed (program :: rest) tc
        else ChildEnd.returned execvpMessage (program :: rest) tc := by
  unfold pipeChild
  rw [h, stageArgs_eq]
  simp only []
  cases maximalRuns ' ' (commandArray.getD i []) <;> rfl

theorem length_forkEvents (xs : List CStr) : ∀ i, (forkEvents i xs).length = xs.length := by
  induction xs with
  | nil => intro i; rfl
  | cons x xs ih => intro i; simp [forkEvents, ih]

theorem entryTable_ne_none (openFds : Nat → Bool) (fd : Nat) (h : openFds fd = true) :
    entryTable openFds fd ≠ none := by
  simp [entryTable, h]

theorem entryTable_eq_none (openFds : Nat → Bool) (fd : Nat) (h : entryTable openFds fd = none) :
    openFds fd = false := by
  unfold entryTable at h
  cases hb : openFds fd with
  | false => rfl
  | true => rw [hb] at h; simp at h

/-! ## Tokenizing a single-space join -/

theorem maximalRuns_of_no_delim (d : Char) (t : CStr) (hne : t ≠ []) (hd : d ∉ t) :
    maximalRuns d t = [t] := by
  have h1 : t.splitOn d = [t] := by
    apply List.splitOnP_eq_single
    intro x hx hxd
    have : x = d := by simpa using hxd
    exact hd (this ▸ hx)
  cases t with
  | nil => exact absurd rfl hne
  | cons a r => simp [maximalRuns, h1, List.filter]

theorem maximalRuns_append_delim (d : Char) (t rest : CStr) (hne : t ≠ []) (hd : d ∉ t) :
    maximalRuns d (t ++ d :: rest) = t :: maximalRuns d rest := by
  have h1 : (t ++ d :: rest).splitOn d = t :: rest.splitOn d := by
    apply List.splitOnP_first
    · intro x hx hxd
      have : x = d := by simpa using hxd
      exact hd (this ▸ hx)
    · simp
  cases t with
  | nil => exact absurd rfl hne
  | cons a r =>
    simp only [maximalRuns, h1, List.filter]
    simp

/-- The maximal runs of a join of non-empty, delimiter-free strings are those
strings. -/
theorem maximalRuns_intercalate (d : Char) (ts : List CStr)
    (h : ∀ t ∈ ts, t ≠ [] ∧ d ∉ t) : maximalRuns d ([d].intercalate ts) = ts := by
  induction ts with
  | nil => simp [List.intercalate, maximalRuns_nil]
  | cons a rest ih =>
    obtain ⟨ha1, ha2⟩ := h a (List.mem_cons_self _ _)
    cases rest with
    | nil =>
      have : [d].intercalate [a] = a := by simp [List.intercalate]
      rw [this]
      exact maximalRuns_of_no_delim d a ha1 ha2
    | cons b rest2 =>
      have hj : [d].intercalate (a :: b :: rest2) = a ++ d :: [d].intercalate (b :: rest2) := by
        simp [List.intercalate]
      rw [hj, maximalRuns_append_delim d a _ ha1 ha2,
        ih (fun t ht => h t (List.mem_cons_of_mem _ ht))]

theorem maximalRuns_joinSpaces (s : CStr) :
    maximalRuns ' ' (joinSpaces (maximalRuns ' ' s)) = maximalRuns ' ' s :=
  maximalRuns_intercalate ' ' _ (fun t ht => maximalRuns_mem ' ' _ s (Nat.le_refl _) t ht)

theorem maximalRuns_all_delim (d : Char) (s : CStr) (h : ∀ c ∈ s, c = d) :
    maximalRuns d s = [] := by
  induction s with
  | nil => exact maximalRuns_nil d
  | cons a t ih =>
    have ha : a = d := h a (List.mem_cons_self _ _)
    subst ha
    rw [maximalRuns_cons_delim]
    exact ih (fun c hc => h c (List.mem_cons_of_mem _ hc))

theorem count_all_delim (d : Char) (s : CStr) (h : ∀ c ∈ s, c = d) : s.count d = s.length := by
  induction s with
  | nil => rfl
  | cons a t ih =>
    have ha : a = d := h a (List.mem_cons_self _ _)
    subst ha
    rw [List.count_cons_self, ih (fun c hc => h c (List.mem_cons_of_mem _ hc))]
    rfl

/-! ## What `addHistory` stores -/

theorem take_set_of_le (l : List (Option CStr)) (n m : Nat) (a : Option CStr) (h : m ≤ n) :
    (l.set n a).take m = l.take m := by
  apply List.ext_getElem?
  intro i
  rw [List.getElem?_take, List.getElem?_take]
  split
  · rw [List.getElem?_set_ne (by omega)]
  · rfl

/-- The shifting loop moves the slots `0 .. top - 1` up by one and leaves slot
0 and the slots above `top` as they are. -/
theorem shiftLoop_eq :
    ∀ (top : Nat) (slots : List (Option CStr)), top < slots.length →
      shiftLoop top slots =
        Run.done (slots.take 1 ++ slots.take top ++ slots.drop (top + 1)) := by
  intro top
  induction top with
  | zero =>
    intro slots _
    rw [shiftLoop]
    simp only [List.take_zero, List.append_nil, Nat.zero_add]
    rw [List.take_append_drop]
  | succ i ih =>
    intro slots hc
    have hi : i < slots.length := by omega
    rw [shiftLoop, if_pos hc, ih _ (by rw [List.length_set]; exact hi)]
    have h1 : (slots.set (i + 1) (slots.getD i none)).take 1 = slots.take 1 :=
      take_set_of_le slots _ _ _ (by omega)
    have h2 : (slots.set (i + 1) (slots.getD i none)).take i = slots.take i :=
      take_set_of_le slots _ _ _ (by omega)
    have h3 : (slots.set (i + 1) (slots.getD i none)).drop (i + 1)
        = slots.get ⟨i, hi⟩ :: slots.drop (i + 1 + 1) := by
      have hd : slots.drop (i + 1) = slots.get ⟨i + 1, hc⟩ :: slots.drop (i + 1 + 1) :=
        List.drop_eq_getElem_cons hc
      have hg : slots.getD i none = slots.get ⟨i, hi⟩ := by
        rw [List.getD_eq_getElem?_getD, List.getElem?_eq_getElem hi]
        rfl
      rw [List.drop_set, if_neg (by omega), hd, hg, Nat.sub_self, List.set_cons_zero]
    have h4 : slots.take (i + 1) = slots.take i ++ [slots.get ⟨i, hi⟩] := by
      rw [List.take_succ, List.getElem?_eq_getElem hi]
      rfl
    rw [h1, h2, h3, h4]
    simp only [List.append_assoc, List.singleton_append]

theorem pushFront_eq (slots : List (Option CStr)) (top : Nat) (cmd : CStr)
    (h : top < slots.length) :
    pushFront slots (top : Int) cmd
      = Run.done (some cmd :: (slots.take top ++ slots.drop (top + 1))) := by
  unfold pushFront
  rw [Int.toNat_ofNat, shiftLoop_eq top slots h]
  simp only []
  cases slots with
  | nil => simp at h
  | cons a r =>
    unfold writeSlot
    rw [if_pos (by simp; omega)]
    simp

theorem readSlot_of_lt (slots : List (Option CStr)) (i : Nat) (h : i < slots.length) :
    readSlot slots (i : Int) = Run.done (slots.getD i none) := by
  unfold readSlot
  rw [if_pos ⟨by omega, by omega⟩, Int.toNat_ofNat]

theorem CommandHistory.Holds.bounds {history : CommandHistory} {h : List CStr} (hh : history.Holds h) :
    0 ≤ history.currSize ∧ history.currSize ≤ history.maxSize := by
  obtain ⟨h1, h2, h3, _⟩ := hh
  omega

theorem CommandHistory.Holds.entries {history : CommandHistory} {h : List CStr} (hh : history.Holds h) :
    history.entries = h.map some := by
  obtain ⟨_, h2, _, h4⟩ := hh
  unfold CommandHistory.entries
  rw [h2, Int.toNat_ofNat, h4]

theorem holds_push_room (slots : List (Option CStr)) (h : List CStr) (c : CStr)
    (h3 : h.length < slots.length) (h4 : slots.take h.length = h.map some) :
    CommandHistory.Holds
      ⟨some c :: (slots.take h.length ++ slots.drop (h.length + 1)), (slots.length : Int),
        (h.length : Int) + 1⟩ (c :: h) := by
  have hl : (slots.take h.length).length = h.length := by
    rw [List.length_take]; omega
  refine ⟨?_, ?_, ?_, ?_⟩
  · simp only [List.length_cons, List.length_append, hl, List.length_drop]
    omega
  · simp only [List.length_cons]; omega
  · simp only [List.length_cons, List.length_append, hl, List.length_drop]
    omega
  · simp only [List.length_cons, List.take_succ_cons, List.map_cons]
    rw [List.take_append_of_le_length (by omega), List.take_of_length_le (by omega), h4]

theorem holds_push_full (slots : List (Option CStr)) (h : List CStr) (c : CStr)
    (hfull : h.length = slots.length) (hpos : 0 < slots.length)
    (h4 : slots.take h.length = h.map some) :
    CommandHistory.Holds
      ⟨some c :: (slots.take (slots.length - 1) ++ slots.drop (slots.length - 1 + 1)),
        (slots.length : Int), (slots.length : Int)⟩ ((c :: h).take slots.length) := by
  have hs : slots = h.map some := by
    rw [← h4, hfull, List.take_length]
  have hd : List.drop (slots.length - 1 + 1) slots = [] := by
    rw [List.drop_eq_nil_iff]; omega
  obtain ⟨k, hk⟩ : ∃ k, slots.length = k + 1 := ⟨slots.length - 1, by omega⟩
  have hl : (slots.take k).length = k := by
    rw [List.length_take]; omega
  rw [hd, List.append_nil, hk, Nat.add_sub_cancel, List.take_succ_cons]
  have hlh : (h.take k).length = k := by
    rw [List.length_take]; omega
  refine ⟨?_, ?_, ?_, ?_⟩
  · simp only [List.length_cons, hl]
  · simp only [List.length_cons, hlh]
  · simp only [List.length_cons, hl, hlh]; omega
  · simp only [List.length_cons, hlh, List.take_succ_cons, List.map_cons]
    rw [List.take_of_length_le (by omega), hs, List.map_take]

/-- On a history that holds the entries `h`, `addHistory` goes through: it
changes nothing when `c` is the first entry, and otherwise the history then
holds the first `maxSize` entries of `c` followed by `h`. -/
theorem addHistory_holds (history : CommandHistory) (h : List CStr) (c : CStr)
    (hh : history.Holds h) :
    ∃ history1, addHistory history (some c) = Run.done history1 ∧
      history1.maxSize = history.maxSize ∧
      history1.Holds (if h.head? = some c then h else (c :: h).take history.maxSize.toNat) ∧
      (h.head? = some c → history1 = history) := by
  obtain ⟨slots, maxSize, currSize⟩ := history
  obtain ⟨h1, h2, h3, h4⟩ := hh
  simp only at h1 h2 h3 h4
  subst h1 h2
  rw [Int.toNat_ofNat]
  unfold addHistory
  simp only []
  cases h with
  | nil =>
    have hnh : ¬ (([] : List CStr).head? = some c) := by simp
    have hcur : ¬ ((([] : List CStr).length : Int) > 0) := by simp
    rw [if_neg hcur, if_neg hnh]
    simp only []
    by_cases hz : slots.length = 0
    · have hz' : ((slots.length : Nat) : Int) = 0 := by omega
      have hz2 : ¬ (((([] : List CStr).length : Nat) : Int) = ((slots.length : Nat) : Int) ∧
          ((slots.length : Nat) : Int) ≠ 0) := fun hx => hx.2 hz'
      rw [if_neg hz2, if_pos hz']
      refine ⟨_, rfl, rfl, ?_, fun hx => absurd hx hnh⟩
      have ht : List.take slots.length [c] = [] := by rw [hz]; rfl
      rw [ht]
      exact ⟨rfl, rfl, h3, h4⟩
    · have hz' : ¬ (((slots.length : Nat) : Int) = 0) := by omega
      have hz2 : ¬ (((([] : List CStr).length : Nat) : Int) = ((slots.length : Nat) : Int) ∧
          ((slots.length : Nat) : Int) ≠ 0) := fun hx => hx.2 (by
            have := hx.1
            simp only [List.length_nil] at this
            omega)
      rw [if_neg hz2, if_neg hz']
      have he : (((([] : List CStr).length : Nat) : Int) + 1 - 1)
          = ((([] : List CStr).length : Nat) : Int) := by omega
      rw [he, pushFront_eq slots _ c (by simp only [List.length_nil]; omega)]
      refine ⟨_, rfl, rfl, ?_, fun hx => absurd hx hnh⟩
      have ht : List.take slots.length [c] = [c] :=
        List.take_of_length_le (by simp only [List.length_singleton]; omega)
      rw [ht]
      exact holds_push_room slots [] c (by simp only [List.length_nil]; omega) h4
  | cons a t =>
    have hpos : 0 < slots.length := by simp only [List.length_cons] at h3; omega
    have hfirst : slots.getD 0 none = some a := by
      have := congrArg (fun l => l.getD 0 none) h4
      simpa [List.getD_eq_getElem?_getD, List.getElem?_take] using this
    have hcur : ((List.length (a :: t) : Nat) : Int) > 0 := by
      simp only [List.length_cons]; omega
    rw [if_pos hcur]
    have hr := readSlot_of_lt slots 0 hpos
    simp only [Int.Nat.cast_ofNat_Int] at hr
    rw [hr, hfirst]
    simp only []
    by_cases hac : a = c
    · subst hac
      have hh' : (a :: t).head? = some a := rfl
      rw [if_pos hh']
      simp only [beq_self_eq_true]
      exact ⟨_, rfl, rfl, ⟨rfl, rfl, h3, h4⟩, fun _ => rfl⟩
    · have hb : (a == c) = false := by simpa using hac
      have hnh : ¬ ((a :: t).head? = some c) := by simpa using hac
      rw [if_neg hnh, hb]
      simp only []
      by_cases hfull : (a :: t).length = slots.length
      · have hfull' : (((a :: t).length : Nat) : Int) = ((slots.length : Nat) : Int) ∧
            ((slots.length : Nat) : Int) ≠ 0 := ⟨by omega, by omega⟩
        rw [if_pos hfull']
        have he : (((slots.length : Nat) : Int) - 1) = ((slots.length - 1 : Nat) : Int) := by
          omega
        rw [he, readSlot_of_lt slots _ (by omega)]
        simp only []
        rw [pushFront_eq slots _ c (by omega)]
        refine ⟨_, rfl, rfl, ?_, fun hx => absurd hx hnh⟩
        have e : ((List.length (a :: t) : Nat) : Int) = ((slots.length : Nat) : Int) := by omega
        rw [e]
        exact holds_push_full slots (a :: t) c hfull hpos h4
      · have hlt : (a :: t).length < slots.length := by omega
        have hfull' : ¬ ((((a :: t).length : Nat) : Int) = ((slots.length : Nat) : Int) ∧
            ((slots.length : Nat) : Int) ≠ 0) := fun hx => hfull (by omega)
        have hz' : ¬ (((slots.length : Nat) : Int) = 0) := by omega
        rw [if_neg hfull', if_neg hz']
        have he : ((((a :: t).length : Nat) : Int) + 1 - 1)
            = (((a :: t).length : Nat) : Int) := by omega
        rw [he, pushFront_eq slots _ c hlt]
        refine ⟨_, rfl, rfl, ?_, fun hx => absurd hx hnh⟩
        have ht : List.take slots.length (c :: a :: t) = c :: a :: t :=
          List.take_of_length_le (by simp only [List.length_cons] at hlt ⊢; omega)
        rw [ht]
        exact holds_push_room slots (a :: t) c hlt h4


/-! ## The claims -/

theorem maximalRuns_manyTokens (n : Nat) :
    maximalRuns ' ' (manyTokens n) = List.replicate n ['x'] := by
  induction n with
  | zero => simp [manyTokens, maximalRuns_nil]
  | succ n ih =>
    have h : manyTokens (n + 1) = 'x' :: ' ' :: manyTokens n := by
      simp [manyTokens, List.replicate_succ]
    rw [h, maximalRuns_eq]
    have h1 : ('x' :: ' ' :: manyTokens n).takeWhile (fun x => x != ' ') = ['x'] := by
      simp [List.takeWhile]
    have h2 : ('x' :: ' ' :: manyTokens n).dropWhile (fun x => x != ' ') = ' ' :: manyTokens n := by
      simp [List.dropWhile]
    rw [h1, h2]
    simp [ih, List.replicate_succ]

/-- C1: for every line, with `p` the number of `|` characters and `segs` the
non-empty maximal runs of other characters, the splitting part of
`executePipeCommands` stops exactly when `p` equals the length of `segs` and
hands on exactly `segs` otherwise.  A call that returns in the parent makes no
system call and forks no child in the first case, and in the second case forks
exactly the stages `segs`, in order.  The line `a|b|c` gives the stages `a`,
`b`, `c`; the lines `a||b`, `|a` and `a|` are rejected. -/
theorem C1_split_rule (w : World) (sh : Shell) (line : CStr)
    (hok : (executePipeCommands w sh line).isOk = true) :
    splitPipeline line =
        Run.done (if line.count '|' = (maximalRuns '|' line).length then none
          else some (maximalRuns '|' line)) ∧
    (if line.count '|' = (maximalRuns '|' line).length then
        (executePipeCommands w sh line).shell.trace = sh.trace ∧
        (executePipeCommands w sh line).shell.children = sh.children
      else
        ∃ new, (executePipeCommands w sh line).shell.trace = sh.trace ++ new ∧
          forkedStages new = maximalRuns '|' line) ∧
    splitPipeline "a|b|c".toList = Run.done (some ["a".toList, "b".toList, "c".toList]) ∧
    splitPipeline "a||b".toList = Run.done none ∧
    splitPipeline "|a".toList = Run.done none ∧
    splitPipeline "a|".toList = Run.done none := by
  refine ⟨splitPipeline_eq line, ?_, by decide, by decide, by decide, by decide⟩
  by_cases hc : line.count '|' = (maximalRuns '|' line).length
  · rw [if_pos hc]
    obtain ⟨h1, h2, _⟩ := executePipeCommands_rejected w sh line hc
    exact ⟨h1, h2⟩
  · rw [if_neg hc]
    obtain ⟨history, pipes, t, _, _, _, _, htr, _⟩ :=
      executePipeCommands_accepted w sh line hok hc
    refine ⟨pipeEvents 0 pipes ++ forkEvents 0 (maximalRuns '|' line)
        ++ closeEvents pipes ((maximalRuns '|' line).length - 1)
        ++ List.replicate (maximalRuns '|' line).length (Event.wait true), ?_, ?_⟩
    · rw [htr]; simp only [List.append_assoc]
    · simp only [forkedStages_append, forkedStages_pipeEvents, forkedStages_forkEvents,
        forkedStages_closeEvents, forkedStages_replicate_wait, List.nil_append, List.append_nil]

/-- The claim C1 at the line `a|b|c`, run by a fresh interpreter: the call
returns and the children forked are those of the stages `a`, `b`, `c`. -/
theorem C1_split_rule_witness :
    (executePipeCommands (World.plain []) Shell.fresh "a|b|c".toList).isOk = true ∧
    ∃ new, (executePipeCommands (World.plain []) Shell.fresh "a|b|c".toList).shell.trace
        = Shell.fresh.trace ++ new ∧
      forkedStages new = ["a".toList, "b".toList, "c".toList] := by
  have h := (C1_split_rule (World.plain []) Shell.fresh "a|b|c".toList (by decide)).2.1
  rw [if_neg (by decide)] at h
  refine ⟨by decide, ?_⟩
  obtain ⟨new, h1, h2⟩ := h
  refine ⟨new, h1, ?_⟩
  rw [h2]
  decide

/-- The counterexample to C2: the line `|a|` has a leading and a trailing `|`,
yet it passes the test on the pipe count, and a fresh interpreter forks a child
for the stage `a` and waits for it. -/
theorem C2_counterexample :
    "|a|".toList.head? = some '|' ∧ "|a|".toList.getLast? = some '|' ∧
    splitPipeline "|a|".toList = Run.done (some ["a".toList]) ∧
    (executePipeCommands (World.plain ["a".toList]) Shell.fresh "|a|".toList).shell.trace =
      [Event.fork 0 "a".toList, Event.wait true] := by
  decide

/-- C2, amended: for every line with exactly one empty stage (one leading
`|`, one trailing `|` or one pair of consecutive `|`, and no other),
`executePipeCommands` stops at the test on the pipe count: it makes no system
call, so it creates no pipe, forks no child, and does not exit. -/
theorem C2_one_empty_stage_rejected (w : World) (sh : Shell) (line : CStr)
    (h : emptyStages line = 1) :
    splitPipeline line = Run.done none ∧
    (executePipeCommands w sh line).shell.trace = sh.trace ∧
    (executePipeCommands w sh line).shell.children = sh.children ∧
    (executePipeCommands w sh line).shell.unreaped = sh.unreaped ∧
    (executePipeCommands w sh line).exitCode = none := by
  have hc := (count_eq_length_iff line).mpr h
  obtain ⟨h1, h2, h3, _, h5⟩ := executePipeCommands_rejected w sh line hc
  refine ⟨?_, h1, h2, h3, h5⟩
  rw [splitPipeline_eq, if_pos hc]

/-- The amended claim C2 at the lines `a||b`, `|a` and `a|`. -/
theorem C2_one_empty_stage_rejected_witness :
    emptyStages "a||b".toList = 1 ∧
    splitPipeline "a||b".toList = Run.done none ∧
    (executePipeCommands (World.plain []) Shell.fresh "a||b".toList).shell.trace = [] ∧
    splitPipeline "|a".toList = Run.done none ∧
    splitPipeline "a|".toList = Run.done none :=
  ⟨by decide,
   (C2_one_empty_stage_rejected (World.plain []) Shell.fresh "a||b".toList (by decide)).1,
   (C2_one_empty_stage_rejected (World.plain []) Shell.fresh "a||b".toList (by decide)).2.1,
   (C2_one_empty_stage_rejected (World.plain []) Shell.fresh "|a".toList (by decide)).1,
   (C2_one_empty_stage_rejected (World.plain []) Shell.fresh "a|".toList (by decide)).1⟩

/-- C3: for every line, every environment and every list of shell variables,
`expandVars` returns the single-space join, in order, of the images of the
space-delimited tokens of the line, where a token that starts with `$` and is
longer than one character becomes the environment value of the name after `$`,
else the shell-variable value of that name, else the empty string, and every
other token (a lone `$` too) is kept.  So `echo $HOME` with `HOME=/x` gives
`echo /x`, `echo $UNSET` gives `echo ` and `echo $` gives `echo $`; a value
substituted is not scanned again. -/
theorem C3_expandVars_spec (getenv : CStr → Option CStr) (shellVars : List ShellVar)
    (line : CStr) :
    expandVars getenv shellVars line =
      Run.done (joinSpaces ((maximalRuns ' ' line).map (specTokenImage getenv shellVars))) ∧
    specTokenImage getenv shellVars ['$'] = ['$'] ∧
    expandVars (fun n => if n = "HOME".toList then some "/x".toList else none) []
        "echo $HOME".toList = Run.done "echo /x".toList ∧
    expandVars (fun _ => none) [] "echo $UNSET".toList = Run.done "echo ".toList ∧
    expandVars (fun _ => none) [] "echo $".toList = Run.done "echo $".toList ∧
    expandVars (fun _ => none) [⟨"V".toList, "shell".toList⟩] "echo $V".toList
      = Run.done "echo shell".toList ∧
    expandVars (fun n => if n = "V".toList then some "env".toList else none)
        [⟨"V".toList, "shell".toList⟩] "echo $V".toList = Run.done "echo env".toList ∧
    expandVars (fun n => if n = "X".toList then some "$HOME".toList
        else if n = "HOME".toList then some "/x".toList else none) []
        "echo $X".toList = Run.done "echo $HOME".toList := by
  refine ⟨expandVars_eq_specExpand getenv shellVars line, rfl, ?_, ?_, ?_, ?_, ?_, ?_⟩ <;> decide

/-- C4, evaluated: `parseInput` returns the maximal runs of non-space
characters of every string that has fewer than 256 of them, and writes outside
its array of 256 slots for every other string; a line of 256 one-character
tokens is such a string. -/
theorem C4_parseInput_overflow :
    (∀ s : CStr, parseInput s =
      if (maximalRuns ' ' s).length < 256 then Run.done (maximalRuns ' ' s)
      else Run.outOfBounds) ∧
    (maximalRuns ' ' (manyTokens 256)).length = 256 ∧
    parseInput (manyTokens 256) = Run.outOfBounds := by
  refine ⟨fun s => parseInput_eq s, ?_, ?_⟩
  · rw [maximalRuns_manyTokens, List.length_replicate]
  · rw [parseInput_eq, maximalRuns_manyTokens, List.length_replicate]
    exact if_neg (by decide)

/-- C5, evaluated: in every pipeline, a child whose descriptors are wired and
whose `execvp` fails prints the message and returns from
`executePipeCommands` into its caller; it does not exit.  For the line
`nosuch|cat`, where only `cat` can be run, the child of stage 0 is back in the
interpreter's code with no exit status, while the child that
`executeExternalCommand` forks for `nosuch` exits with `EXIT_FAILURE`. -/
theorem C5_exec_failure_returns :
    (∀ (w : World) (commandArray : List CStr) (pipes : List (Nat × Nat)) (t tc : FdTable)
        (n i : Nat) (program : CStr) (rest : List CStr),
        wireChild pipes t n i = some tc →
        maximalRuns ' ' (commandArray.getD i []) = program :: rest →
        w.execOk (program :: rest) = false →
        pipeChild w commandArray pipes t n i
          = ChildEnd.returned execvpMessage (program :: rest) tc) ∧
    (executePipeCommands (World.plain ["cat".toList]) Shell.fresh
        "nosuch|cat".toList).shell.children.map ChildEnd.isReturned = [true, false] ∧
    (executePipeCommands (World.plain ["cat".toList]) Shell.fresh
        "nosuch|cat".toList).shell.children.map ChildEnd.exitCode = [none, none] ∧
    (executePipeCommands (World.plain ["cat".toList]) Shell.fresh
        "nosuch|cat".toList).shell.children.map ChildEnd.execArgs
      = [none, some ["cat".toList]] ∧
    (executeExternalCommand (World.plain ["cat".toList]) Shell.fresh ["nosuch".toList]
        (some "nosuch".toList)).shell.children.map ChildEnd.exitCode = [some EXIT_FAILURE] := by
  refine ⟨?_, by decide, by decide, by decide, by decide⟩
  intro w commandArray pipes t tc n i program rest hw hargs hexec
  rw [pipeChild_eq w commandArray pipes t tc n i hw, hargs]
  simp [hexec]

/-- The counterexample to C6: an accepted pipeline run by an interpreter that
was started with a standard descriptor closed.  With the standard input closed
(descriptors 1 and 2 open), the pipe of the line `a|b` is the descriptor pair
(0, 3); the child of stage 1 finds the read end already at descriptor 0 and
then closes it with `close(pipes[0][0])`, so it reaches `execvp` with its
standard input closed, not with the read end of pipe 0.  With the standard
output closed (descriptors 0 and 2 open), the pipes of the line `a|b|c` are the
pairs (1, 3) and (4, 5); the child of stage 1 makes descriptor 1 the write end
of pipe 1 and then closes it in its closing loop, as `pipes[0][0]`, so it
reaches `execvp` with its standard output closed, not with the write end of
pipe 1.  Both calls return in the parent. -/
theorem C6_counterexample :
    splitPipeline "a|b".toList = Run.done (some ["a".toList, "b".toList]) ∧
    (executePipeCommands (World.plain [])
      { Shell.fresh with openFds := fun fd => decide (fd = 1 ∨ fd = 2) }
      "a|b".toList).isOk = true ∧
    (executePipeCommands (World.plain [])
      { Shell.fresh with openFds := fun fd => decide (fd = 1 ∨ fd = 2) }
      "a|b".toList).shell.trace.filter Event.isPipe = [Event.pipe 0 0 3] ∧
    (executePipeCommands (World.plain [])
      { Shell.fresh with openFds := fun fd => decide (fd = 1 ∨ fd = 2) }
      "a|b".toList).shell.children.map (fun child => child.fds STDIN_FILENO)
      = [some (Desc.pipeRead 0), none] ∧
    splitPipeline "a|b|c".toList = Run.done (some ["a".toList, "b".toList, "c".toList]) ∧
    (executePipeCommands (World.plain [])
      { Shell.fresh with openFds := fun fd => decide (fd = 0 ∨ fd = 2) }
      "a|b|c".toList).isOk = true ∧
    (executePipeCommands (World.plain [])
      { Shell.fresh with openFds := fun fd => decide (fd = 0 ∨ fd = 2) }
      "a|b|c".toList).shell.trace.filter Event.isPipe = [Event.pipe 0 1 3, Event.pipe 1 4 5] ∧
    (executePipeCommands (World.plain [])
      { Shell.fresh with openFds := fun fd => decide (fd = 0 ∨ fd = 2) }
      "a|b|c".toList).shell.children.map (fun child => child.fds STDOUT_FILENO)
      = [some (Desc.pipeWrite 0), none, none] := by
  decide

/-- C6, amended: for every accepted pipeline of `n ≥ 2` stages run by an
interpreter whose standard input and standard output are open on entry, in a
call that returns in the parent: exactly `n - 1` pipes are created, all before
the first fork, and the child of every stage `i < n` reaches `execvp` with, as
standard input, the read end of pipe `i - 1` when `i > 0` and the inherited
standard input when `i = 0`, and, as standard output, the write end of pipe `i`
when `i < n - 1` and the inherited standard output when `i = n - 1`. -/
theorem C6_stage_wiring (w : World) (sh : Shell) (line : CStr) (stages : List CStr)
    (hok : (executePipeCommands w sh line).isOk = true)
    (hacc : splitPipeline line = Run.done (some stages))
    (hn : 2 ≤ stages.length)
    (h0 : sh.openFds STDIN_FILENO = true) (h1 : sh.openFds STDOUT_FILENO = true) :
    ∃ pipes t rest,
      pipes.length = stages.length - 1 ∧
      (executePipeCommands w sh line).shell.trace =
        sh.trace ++ pipeEvents 0 pipes ++ forkEvents 0 stages ++ rest ∧
      (∀ e, e ∈ rest → e.isPipe = false ∧ e.isFork = false) ∧
      (executePipeCommands w sh line).shell.children =
        sh.children ++ (List.range stages.length).map
          (pipeChild w stages pipes t stages.length) ∧
      ∀ i, i < stages.length →
        ∃ tc, wireChild pipes t stages.length i = some tc ∧
          (pipeChild w stages pipes t stages.length i).fds = tc ∧
          tc STDIN_FILENO =
            (if i = 0 then some (Desc.inherited STDIN_FILENO)
             else some (Desc.pipeRead (i - 1))) ∧
          tc STDOUT_FILENO =
            (if i = stages.length - 1 then some (Desc.inherited STDOUT_FILENO)
             else some (Desc.pipeWrite i)) := by
  obtain ⟨hc, hst⟩ := splitPipeline_some line stages hacc
  subst hst
  obtain ⟨history, pipes, t, _, hlen, inv, _, htr, hch, _, _, _⟩ :=
    executePipeCommands_accepted w sh line hok hc
  refine ⟨pipes, t, closeEvents pipes ((maximalRuns '|' line).length - 1)
      ++ List.replicate (maximalRuns '|' line).length (Event.wait true), hlen, ?_, ?_, hch, ?_⟩
  · rw [htr]; simp only [List.append_assoc]
  · intro e he
    rcases List.mem_append.mp he with hcl | hwt
    · have : ∀ m, e ∈ closeEvents pipes m → e.isPipe = false ∧ e.isFork = false := by
        intro m
        induction m with
        | zero => intro h; simp [closeEvents] at h
        | succ m ih =>
          intro h
          rw [closeEvents] at h
          rcases List.mem_append.mp h with h | h
          · exact ih h
          · simp only [List.mem_cons, List.mem_singleton, List.not_mem_nil, or_false] at h
            rcases h with h | h <;> subst h <;> exact ⟨rfl, rfl⟩
      exact this _ hcl
    · rw [List.eq_of_mem_replicate hwt]
      exact ⟨rfl, rfl⟩
  · intro i hi
    obtain ⟨tc, hw, hin, hout, _⟩ :=
      wireChild_spec (entryTable sh.openFds) t pipes _ i inv hlen hi
        (entryTable_ne_none _ _ h0) (entryTable_ne_none _ _ h1)
    refine ⟨tc, hw, pipeChild_fds w _ pipes t tc _ i hw, ?_, ?_⟩
    · rw [hin]; simp [entryTable, h0]
    · rw [hout]; simp [entryTable, h1]

/-- The amended claim C6 at the line `a|b|c`, run by a fresh interpreter: two
pipes, and the middle child reads pipe 0 and writes pipe 1. -/
theorem C6_stage_wiring_witness :
    (executePipeCommands (World.plain []) Shell.fresh "a|b|c".toList).isOk = true ∧
    splitPipeline "a|b|c".toList = Run.done (some ["a".toList, "b".toList, "c".toList]) ∧
    ∃ pipes t, pipes.length = 2 ∧
      ∃ tc, wireChild pipes t 3 1 = some tc ∧
        tc STDIN_FILENO = some (Desc.pipeRead 0) ∧ tc STDOUT_FILENO = some (Desc.pipeWrite 1) := by
  refine ⟨by decide, by decide, ?_⟩
  obtain ⟨pipes, t, _, hlen, _, _, _, hall⟩ :=
    C6_stage_wiring (World.plain []) Shell.fresh "a|b|c".toList
      ["a".toList, "b".toList, "c".toList] (by decide) (by decide) (by decide) (by decide)
      (by decide)
  obtain ⟨tc, hw, _, hin, hout⟩ := hall 1 (by decide)
  exact ⟨pipes, t, hlen, tc, hw, hin, hout⟩

/-- C7, evaluated: in every pipeline whose pipes are in order, the child of a
stage `i` that is not the last reaches `execvp` with the raw read end of its
own output pipe, `pipes[i][0]`, still open.  For the line `a|b` run by a fresh
interpreter, the pipe is the descriptor pair (3, 4) and the child of stage 0
still holds descriptor 3, the read end, when it calls `execvp`. -/
theorem C7_read_end_left_open :
    (∀ (t0 t : FdTable) (pipes : List (Nat × Nat)) (n i : Nat),
        PipesInv t0 pipes t → pipes.length = n - 1 → i < n - 1 →
        t0 STDIN_FILENO ≠ none → t0 STDOUT_FILENO ≠ none →
        ∃ tc, wireChild pipes t n i = some tc ∧
          tc (readEnd pipes i) = some (Desc.pipeRead i)) ∧
    (executePipeCommands (World.plain ["a".toList, "b".toList]) Shell.fresh
        "a|b".toList).shell.trace =
      [Event.pipe 0 3 4, Event.fork 0 "a".toList, Event.fork 1 "b".toList,
       Event.close 3, Event.close 4, Event.wait true, Event.wait true] ∧
    (executePipeCommands (World.plain ["a".toList, "b".toList]) Shell.fresh
        "a|b".toList).shell.children.map ChildEnd.execArgs
      = [some ["a".toList], some ["b".toList]] ∧
    (executePipeCommands (World.plain ["a".toList, "b".toList]) Shell.fresh
        "a|b".toList).shell.children.map (fun c => c.fds 3)
      = [some (Desc.pipeRead 0), none] ∧
    (executePipeCommands (World.plain ["a".toList, "b".toList]) Shell.fresh
        "a|b".toList).shell.children.map (fun c => c.fds 4) = [none, none] := by
  refine ⟨?_, by decide, by decide, by decide, by decide⟩
  intro t0 t pipes n i inv hlen hi h0 h1
  obtain ⟨tc, hw, _, _, _, _, hleak, _⟩ :=
    wireChild_spec t0 t pipes n i inv hlen (by omega) h0 h1
  exact ⟨tc, hw, hleak hi⟩

/-- C8: for every accepted pipeline of `n ≥ 1` stages, in a call that returns
in the parent, whatever `execvp` does in the children: the parent forks
exactly `n` children, one per stage, and then makes exactly `n` calls of
`wait`, each of which collects a child; no child forked by the call is left
uncollected. -/
theorem C8_all_children_waited (w : World) (sh : Shell) (line : CStr) (stages : List CStr)
    (hok : (executePipeCommands w sh line).isOk = true)
    (hacc : splitPipeline line = Run.done (some stages))
    (hn : 1 ≤ stages.length) :
    ∃ pipes,
      (executePipeCommands w sh line).shell.trace =
        sh.trace ++ pipeEvents 0 pipes ++ forkEvents 0 stages
          ++ closeEvents pipes (stages.length - 1)
          ++ List.replicate stages.length (Event.wait true) ∧
      (forkEvents 0 stages).length = stages.length ∧
      (executePipeCommands w sh line).shell.children.length
        = sh.children.length + stages.length ∧
      (executePipeCommands w sh line).shell.unreaped = sh.unreaped := by
  obtain ⟨hc, hst⟩ := splitPipeline_some line stages hacc
  subst hst
  obtain ⟨history, pipes, t, _, _, _, _, htr, hch, hun, _, _⟩ :=
    executePipeCommands_accepted w sh line hok hc
  refine ⟨pipes, htr, length_forkEvents _ 0, ?_, hun⟩
  rw [hch]
  simp

/-- The claim C8 at the line `a|nosuch|c`, where the middle stage cannot be
run: three forks, then three collected terminations. -/
theorem C8_all_children_waited_witness :
    (executePipeCommands (World.plain ["a".toList, "c".toList]) Shell.fresh
        "a|nosuch|c".toList).isOk = true ∧
    (executePipeCommands (World.plain ["a".toList, "c".toList]) Shell.fresh
        "a|nosuch|c".toList).shell.children.map ChildEnd.isReturned = [false, true, false] ∧
    ∃ pipes,
      (executePipeCommands (World.plain ["a".toList, "c".toList]) Shell.fresh
          "a|nosuch|c".toList).shell.trace =
        pipeEvents 0 pipes
          ++ [Event.fork 0 "a".toList, Event.fork 1 "nosuch".toList, Event.fork 2 "c".toList]
          ++ closeEvents pipes 2
          ++ [Event.wait true, Event.wait true, Event.wait true] := by
  refine ⟨by decide, by decide, ?_⟩
  obtain ⟨pipes, htr, _⟩ :=
    C8_all_children_waited (World.plain ["a".toList, "c".toList]) Shell.fresh
      "a|nosuch|c".toList ["a".toList, "nosuch".toList, "c".toList]
      (by decide) (by decide) (by decide)
  exact ⟨pipes, htr⟩

/-- C9: for every line, once `executePipeCommands` has returned in the
parent, the set of open descriptors of the parent is the one it had on entry
and every descriptor of a pipe created by the call is closed; the parent
closes both ends of each pipe, and only after the last fork. -/
theorem C9_no_descriptor_leak (w : World) (sh : Shell) (line : CStr)
    (hok : (executePipeCommands w sh line).isOk = true) :
    (∀ fd, (executePipeCommands w sh line).shell.openFds fd = sh.openFds fd) ∧
    ∃ pipes stages,
      (executePipeCommands w sh line).shell.trace =
        sh.trace ++ pipeEvents 0 pipes ++ forkEvents 0 stages
          ++ closeEvents pipes pipes.length
          ++ List.replicate stages.length (Event.wait true) ∧
      pipes.length = stages.length - 1 ∧
      ∀ j, j < pipes.length →
        (executePipeCommands w sh line).shell.openFds (readEnd pipes j) = false ∧
        (executePipeCommands w sh line).shell.openFds (writeEnd pipes j) = false := by
  by_cases hc : line.count '|' = (maximalRuns '|' line).length
  · obtain ⟨h1, _, _, h4, _⟩ := executePipeCommands_rejected w sh line hc
    refine ⟨fun fd => by rw [h4], [], [], ?_, rfl, ?_⟩
    · simp [h1, pipeEvents, forkEvents, closeEvents]
    · intro j hj; simp at hj
  · obtain ⟨history, pipes, t, _, hlen, inv, _, htr, _, _, hfds, _⟩ :=
      executePipeCommands_accepted w sh line hok hc
    refine ⟨hfds, pipes, maximalRuns '|' line, ?_, hlen, ?_⟩
    · rw [htr, hlen]
    · intro j hj
      rw [hfds, hfds]
      exact ⟨entryTable_eq_none _ _ (inv.fresh j hj).1, entryTable_eq_none _ _ (inv.fresh j hj).2⟩

/-- The claim C9 at the line `a|b|c`, run by a fresh interpreter: after the
call the descriptors 3 to 6, which held the two pipes, are closed. -/
theorem C9_no_descriptor_leak_witness :
    (executePipeCommands (World.plain []) Shell.fresh "a|b|c".toList).isOk = true ∧
    (∀ fd, (executePipeCommands (World.plain []) Shell.fresh "a|b|c".toList).shell.openFds fd
      = Shell.fresh.openFds fd) ∧
    (executePipeCommands (World.plain []) Shell.fresh "a|b|c".toList).shell.trace =
      [Event.pipe 0 3 4, Event.pipe 1 5 6,
       Event.fork 0 "a".toList, Event.fork 1 "b".toList, Event.fork 2 "c".toList,
       Event.close 3, Event.close 4, Event.close 5, Event.close 6,
       Event.wait true, Event.wait true, Event.wait true] :=
  ⟨by decide,
   (C9_no_descriptor_leak (World.plain []) Shell.fresh "a|b|c".toList (by decide)).1,
   by decide⟩

/-- The history after `executePipeCommands` is the one its history call
yields, whatever the pipeline code then does. -/
theorem executePipeCommands_history (w : World) (sh : Shell) (line : CStr)
    (history : CommandHistory)
    (hh : addHistory sh.history (some line) = Run.done history) :
    (executePipeCommands w sh line).shell.history = history := by
  unfold executePipeCommands
  rw [hh]
  simp only []
  cases splitPipeline line with
  | outOfBounds => rfl
  | outOfFuel => rfl
  | done stages =>
    cases stages with
    | none => rfl
    | some commandArray =>
      simp only []
      cases pipeParent w commandArray ({ sh with history := history }).toProc with
      | failed p => rfl
      | finished p => rfl

/-- The counterexample to C10, four non-empty lines that the interpreter
accepts.  The line `vars`, handled as a built-in, is not recorded: the history
of a fresh interpreter stays empty.  A line of one space has no token and is
not recorded either.  After `history set 0` the history has no capacity, and
the line `ls` is not recorded.  For the line `echo $HOME | cat`, with
`HOME=/x`, the text recorded is the expanded line `echo /x | cat`, not the line
typed. -/
theorem C10_counterexample :
    (processInput (World.plain []) Shell.fresh (ReadResult.line "vars\n".toList)).isOk = true ∧
    (processInput (World.plain []) Shell.fresh (ReadResult.line "vars\n".toList)).shell.history
      = initHistory ∧
    initHistory.entries = [] ∧
    (processInput (World.plain []) Shell.fresh (ReadResult.line " \n".toList)).isOk = true ∧
    (processInput (World.plain []) Shell.fresh (ReadResult.line " \n".toList)).shell.history
      = initHistory ∧
    (processInput (World.plain []) Shell.fresh
      (ReadResult.line "history set 0\n".toList)).shell.history = ⟨[], 0, 0⟩ ∧
    (processInput (World.plain ["ls".toList]) { Shell.fresh with history := ⟨[], 0, 0⟩ }
      (ReadResult.line "ls\n".toList)).isOk = true ∧
    (processInput (World.plain ["ls".toList]) { Shell.fresh with history := ⟨[], 0, 0⟩ }
      (ReadResult.line "ls\n".toList)).shell.history = ⟨[], 0, 0⟩ ∧
    (processInput (World.plain ["echo".toList, "cat".toList])
        { Shell.fresh with env := fun n => if n = "HOME".toList then some "/x".toList else none }
        (ReadResult.line "echo $HOME | cat\n".toList)).shell.history.entries
      = [some "echo /x | cat".toList] := by
  decide

/-- C10, amended: for every non-empty line handled by `processInput` in an
interpreter whose history is well formed and holds the entries `h`, the
history is updated by exactly one call of `addHistory` on the line typed
(without its newline, before expansion), whatever `pipe`, `fork` and `execvp`
do, in two cases: the expanded line has no `|`, has fewer than 256 tokens and
at least one, and its first token is not the name of a built-in; or the
expanded line has a `|` and is equal to the line typed.  The history then
holds the line typed as its most recent entry, followed by the entries `h`
and cut to the capacity, and it is unchanged when the line typed already was
the most recent entry; in the first case `processInput` returns. -/
theorem C10_line_recorded (w : World) (sh : Shell) (text expanded : CStr) (h : List CStr)
    (hne : text ≠ [])
    (hwf : sh.history.Holds h)
    (hexp : expandVars sh.env sh.shellVars (stripNewline text) = Run.done expanded)
    (hroute :
      ('|' ∉ expanded ∧ ∃ program rest,
          parseInput expanded = Run.done (program :: rest) ∧ program ∉ builtinNames) ∨
      ('|' ∈ expanded ∧ expanded = stripNewline text)) :
    ∃ history1,
      addHistory sh.history (some (stripNewline text)) = Run.done history1 ∧
      (processInput w sh (ReadResult.line text)).shell.history = history1 ∧
      history1.Holds
        (if h.head? = some (stripNewline text) then h
         else (stripNewline text :: h).take sh.history.maxSize.toNat) ∧
      (h.head? = some (stripNewline text) → history1 = sh.history) ∧
      ('|' ∉ expanded → (processInput w sh (ReadResult.line text)).isOk = true) := by
  obtain ⟨history1, hh, _, hholds, hsame⟩ :=
    addHistory_holds sh.history h (stripNewline text) hwf
  refine ⟨history1, hh, ?_, hholds, hsame, ?_⟩
  · rcases hroute with ⟨hpipe, program, rest, hargs, hext⟩ | ⟨hpipe, heq⟩
    · have hp : processInput w sh (ReadResult.line text) =
          executeExternalCommand w sh (program :: rest) (some (stripNewline text)) := by
        simp only [processInput, hne, if_false, hexp, hpipe, hargs]
        exact executeCommand_external w sh program rest _ hext
      rw [hp]
      exact (executeExternalCommand_history w sh (program :: rest) _ history1 hh).2.1
    · have hp : processInput w sh (ReadResult.line text) =
          executePipeCommands w sh expanded := by
        simp only [processInput, hne, if_false, hexp, hpipe, if_true]
      rw [hp, heq]
      exact executePipeCommands_history w sh _ history1 hh
  · intro hpipe
    rcases hroute with ⟨_, program, rest, hargs, hext⟩ | ⟨hin, _⟩
    · have hp : processInput w sh (ReadResult.line text) =
          executeExternalCommand w sh (program :: rest) (some (stripNewline text)) := by
        simp only [processInput, hne, if_false, hexp, hpipe, hargs]
        exact executeCommand_external w sh program rest _ hext
      rw [hp]
      exact (executeExternalCommand_history w sh (program :: rest) _ history1 hh).1
    · exact absurd hin hpipe

/-- The amended claim C10 in a fresh interpreter with `HOME=/x`, where no
program can be run: after the line `echo $HOME` the line typed is the only
entry, and so is the line `ls | wc` after it was typed. -/
theorem C10_line_recorded_witness :
    (processInput (World.plain [])
        { Shell.fresh with env := fun n => if n = "HOME".toList then some "/x".toList else none }
        (ReadResult.line "echo $HOME\n".toList)).shell.history.entries
      = [some "echo $HOME".toList] ∧
    (processInput (World.plain [])
        { Shell.fresh with env := fun n => if n = "HOME".toList then some "/x".toList else none }
        (ReadResult.line "ls | wc\n".toList)).shell.history.entries
      = [some "ls | wc".toList] := by
  obtain ⟨history1, _, a2, a3, _⟩ :=
    C10_line_recorded (World.plain [])
      { Shell.fresh with env := fun n => if n = "HOME".toList then some "/x".toList else none }
      "echo $HOME\n".toList "echo /x".toList [] (by decide)
      ⟨by decide, by decide, by decide, by decide⟩ (by decide)
      (Or.inl ⟨by decide, "echo".toList, ["/x".toList], by decide, by decide⟩)
  obtain ⟨history2, _, b2, b3, _⟩ :=
    C10_line_recorded (World.plain [])
      { Shell.fresh with env := fun n => if n = "HOME".toList then some "/x".toList else none }
      "ls | wc\n".toList "ls | wc".toList [] (by decide)
      ⟨by decide, by decide, by decide, by decide⟩ (by decide)
      (Or.inr ⟨by decide, by decide⟩)
  rw [a2, b2, a3.entries, b3.entries]
  exact ⟨by decide, by decide⟩

/-- C12: for every line that consists only of `|` characters, and of at least
one, `executePipeCommands` finds no stage and launches nothing: the parent
makes no system call (no `pipe`, no `fork`, no `wait`), forks no child and does
not exit.  The line passes the test on the pipe count; it is the loops over
zero stages that do nothing. -/
theorem C12_only_pipes_no_process (w : World) (sh : Shell) (line : CStr)
    (hne : line ≠ []) (hall : ∀ c ∈ line, c = '|') :
    splitPipeline line = Run.done (some []) ∧
    (executePipeCommands w sh line).shell.trace = sh.trace ∧
    (executePipeCommands w sh line).shell.children = sh.children ∧
    (executePipeCommands w sh line).shell.unreaped = sh.unreaped ∧
    (executePipeCommands w sh line).exitCode = none := by
  have hr := maximalRuns_all_delim '|' line hall
  have hc := count_all_delim '|' line hall
  have hpos : 0 < line.length := List.length_pos.mpr hne
  have hsplit : splitPipeline line = Run.done (some []) := by
    rw [splitPipeline_eq, hr, hc]
    rw [if_neg (by simp only [List.length_nil]; omega)]
  refine ⟨hsplit, ?_⟩
  cases hh : addHistory sh.history (some line) with
  | outOfBounds => simp [executePipeCommands, hh, Step.shell, Step.exitCode]
  | outOfFuel => simp [executePipeCommands, hh, Step.shell, Step.exitCode]
  | done history =>
    have he : executePipeCommands w sh line =
        Step.ok () (({ sh with history := history }).ofProc sh.toProc) := by
      unfold executePipeCommands
      rw [hh, hsplit]
      rfl
    rw [he]
    exact ⟨rfl, rfl, rfl, rfl⟩

/-- The claim C12 at the line `||`, run by a fresh interpreter. -/
theorem C12_only_pipes_no_process_witness :
    splitPipeline "||".toList = Run.done (some []) ∧
    (executePipeCommands (World.plain []) Shell.fresh "||".toList).shell.trace = [] :=
  ⟨(C12_only_pipes_no_process (World.plain []) Shell.fresh "||".toList (by decide)
      (by decide)).1,
   (C12_only_pipes_no_process (World.plain []) Shell.fresh "||".toList (by decide)
      (by decide)).2.1⟩

/-- C13, evaluated: in every pipeline, a child whose stage text has no token
calls `execvp` with `args[0]` being the terminating null, an invalid access.
The line `ls | | wc` passes the test on the pipe count with the three stages
`ls `, ` ` and ` wc`; the stage ` ` has no token, and its child does just that.
On the single-command path `executeCommand` returns at once for an empty
argument vector. -/
theorem C13_empty_argv_execed :
    (∀ (w : World) (commandArray : List CStr) (pipes : List (Nat × Nat)) (t tc : FdTable)
        (n i : Nat),
        wireChild pipes t n i = some tc →
        maximalRuns ' ' (commandArray.getD i []) = [] →
        pipeChild w commandArray pipes t n i = ChildEnd.faulted tc) ∧
    splitPipeline "ls | | wc".toList
      = Run.done (some ["ls ".toList, " ".toList, " wc".toList]) ∧
    stageArgs " ".toList = Run.done [] ∧
    (executePipeCommands (World.plain ["ls".toList, "wc".toList]) Shell.fresh
        "ls | | wc".toList).shell.children.map ChildEnd.isFaulted = [false, true, false] ∧
    (executePipeCommands (World.plain ["ls".toList, "wc".toList]) Shell.fresh
        "ls | | wc".toList).shell.children.map ChildEnd.execArgs
      = [some ["ls".toList], none, some ["wc".toList]] ∧
    (processInput (World.plain ["ls".toList, "wc".toList]) Shell.fresh
        (ReadResult.line "ls | | wc\n".toList)).shell.children.map ChildEnd.isFaulted
      = [false, true, false] ∧
    (executeCommand (World.plain []) Shell.fresh [] " ".toList).isOk = true ∧
    (executeCommand (World.plain []) Shell.fresh [] " ".toList).shell.trace = [] := by
  refine ⟨?_, by decide, by decide, by decide, by decide, by decide, by decide, by decide⟩
  intro w commandArray pipes t tc n i hw hargs
  rw [pipeChild_eq w commandArray pipes t tc n i hw, hargs]

/-- C14, evaluated: `parseInput` returns the tokens of every string that has
fewer than 256 of them, and run on the single-space join of those tokens it
returns the same tokens in the same order (`"  ls   -l "` gives `ls`, `-l`,
whose join `"ls -l"` gives `ls`, `-l` again); so does every string for which
`parseInput` returns tokens at all.  For a line of 256 one-character tokens
`parseInput` writes outside its array of 256 slots and returns no token
sequence that could be joined and tokenized again. -/
theorem C14_idempotent_below_capacity :
    (∀ s : CStr, (maximalRuns ' ' s).length < 256 →
      parseInput s = Run.done (maximalRuns ' ' s) ∧
      parseInput (joinSpaces (maximalRuns ' ' s)) = Run.done (maximalRuns ' ' s)) ∧
    (∀ (s : CStr) (tokens : List CStr), parseInput s = Run.done tokens →
      parseInput (joinSpaces tokens) = Run.done tokens) ∧
    parseInput "  ls   -l ".toList = Run.done ["ls".toList, "-l".toList] ∧
    joinSpaces ["ls".toList, "-l".toList] = "ls -l".toList ∧
    parseInput "ls -l".toList = Run.done ["ls".toList, "-l".toList] ∧
    (maximalRuns ' ' (manyTokens 256)).length = 256 ∧
    parseInput (manyTokens 256) = Run.outOfBounds := by
  have below : ∀ s : CStr, (maximalRuns ' ' s).length < 256 →
      parseInput s = Run.done (maximalRuns ' ' s) ∧
      parseInput (joinSpaces (maximalRuns ' ' s)) = Run.done (maximalRuns ' ' s) := by
    intro s h
    have h1 : (maximalRuns ' ' s).length < tokensCapacity := h
    refine ⟨?_, ?_⟩
    · rw [parseInput_eq, if_pos h1]
    · rw [parseInput_eq, maximalRuns_joinSpaces, if_pos h1]
  refine ⟨below, ?_, by decide, by decide, by decide, ?_, ?_⟩
  · intro s tokens h
    rw [parseInput_eq] at h
    by_cases hlt : (maximalRuns ' ' s).length < tokensCapacity
    · rw [if_pos hlt] at h
      simp only [Run.done.injEq] at h
      subst h
      exact (below s hlt).2
    · rw [if_neg hlt] at h
      simp at h
  · rw [maximalRuns_manyTokens, List.length_replicate]
  · rw [parseInput_eq, maximalRuns_manyTokens, List.length_replicate]
    exact if_neg (by decide)

/-- C18, evaluated: the tokenizer of a pipeline stage returns the maximal
runs of non-space characters of every string, and `parseInput` returns the
same tokens for every string with fewer than 256 of them; for a line of 256
one-character tokens the stage tokenizer returns the 256 tokens and
`parseInput` writes outside its array. -/
theorem C18_tokenizers_differ_at_capacity :
    (∀ s : CStr, stageArgs s = Run.done (maximalRuns ' ' s)) ∧
    (∀ s : CStr, strtokAll ' ' s = maximalRuns ' ' s) ∧
    (∀ s : CStr, parseInput s =
      if (maximalRuns ' ' s).length < 256 then stageArgs s else Run.outOfBounds) ∧
    stageArgs (manyTokens 256) = Run.done (List.replicate 256 ['x']) ∧
    parseInput (manyTokens 256) = Run.outOfBounds := by
  refine ⟨stageArgs_eq, strtokAll_eq_maximalRuns ' ', ?_, ?_, ?_⟩
  · intro s
    rw [stageArgs_eq]
    exact parseInput_eq s
  · rw [stageArgs_eq, maximalRuns_manyTokens]
  · rw [parseInput_eq, maximalRuns_manyTokens, List.length_replicate]
    exact if_neg (by decide)

/-- C20: for every line the `strtok` loop on `|` yields at most `pipeCount +
1` segments, so every write to `commandArray` is inside its `pipeCount + 1`
slots; for every stage text the `strtok` loop on the space yields at most
`numSpaces + 1` tokens, so every write to `args`, the terminating null at index
`argc` included, is inside its `numSpaces + 2` slots. -/
theorem C20_arrays_in_bounds (line stage : CStr) :
    (strtokAll '|' line).length ≤ line.count '|' + 1 ∧
    strtokFill '|' (line.count '|' + 1) (line.length + 1) line []
      = Run.done (strtokAll '|' line) ∧
    (strtokAll ' ' stage).length ≤ stage.count ' ' + 1 ∧
    strtokFill ' ' (stage.count ' ' + 2) (stage.length + 1) stage []
      = Run.done (strtokAll ' ' stage) ∧
    (strtokAll ' ' stage).length < stage.count ' ' + 2 ∧
    stageArgs stage = Run.done (strtokAll ' ' stage) := by
  have h1 := maximalRuns_length_le '|' _ line (Nat.le_refl _)
  have h2 := maximalRuns_length_le ' ' _ stage (Nat.le_refl _)
  simp only [strtokAll_eq_maximalRuns]
  refine ⟨h1, ?_, h2, ?_, by omega, stageArgs_eq stage⟩
  · rw [strtokFill_eq '|' _ _ line [] (Nat.lt_succ_self _) (Nat.zero_le _)]
    simp only [List.length_nil, Nat.zero_add, List.nil_append]
    rw [if_pos h1]
  · rw [strtokFill_eq ' ' _ _ stage [] (Nat.lt_succ_self _) (Nat.zero_le _)]
    simp only [List.length_nil, Nat.zero_add, List.nil_append]
    rw [if_pos (by omega)]
/-- C16: for every history with capacity `maxSize > 0` that holds the list
`h` of entries, most recent first, and every line `c`: `addHistory` goes
through and keeps the capacity; when `h` is not empty and its first entry is
`c`, the history is unchanged; otherwise the entries are then the first
`maxSize` entries of `c` followed by `h`, so `c` is the most recent entry and,
when the array was full, exactly the oldest entry is dropped.  Recording `echo
hi` in the initial history makes it the only entry, and recording it again
changes nothing. -/
theorem C16_addHistory_entries (history : CommandHistory) (h : List CStr) (c : CStr)
    (hcap : 0 < history.maxSize) (hh : history.Holds h) :
    (∃ history1, addHistory history (some c) = Run.done history1 ∧
      history1.maxSize = history.maxSize ∧
      (if h.head? = some c then history1 = history
       else
        history1.entries = ((c :: h).take history.maxSize.toNat).map some ∧
        history1.entries.head? = some (some c) ∧
        (c :: h).take history.maxSize.toNat =
          (if (h.length : Int) < history.maxSize then c :: h else c :: h.dropLast))) ∧
    addHistory initHistory (some "echo hi".toList)
      = Run.done ⟨[some "echo hi".toList, none, none, none, none], 5, 1⟩ ∧
    CommandHistory.entries ⟨[some "echo hi".toList, none, none, none, none], 5, 1⟩
      = [some "echo hi".toList] ∧
    addHistory ⟨[some "echo hi".toList, none, none, none, none], 5, 1⟩ (some "echo hi".toList)
      = Run.done ⟨[some "echo hi".toList, none, none, none, none], 5, 1⟩ := by
  refine ⟨?_, by decide, by decide, by decide⟩
  obtain ⟨history1, h1, h2, h3, h4⟩ := addHistory_holds history h c hh
  refine ⟨history1, h1, h2, ?_⟩
  by_cases hc : h.head? = some c
  · rw [if_pos hc]
    exact h4 hc
  · rw [if_neg hc] at h3
    rw [if_neg hc]
    have hb := hh.bounds
    obtain ⟨m, hm⟩ : ∃ m : Nat, history.maxSize = ((m + 1 : Nat) : Int) :=
      ⟨(history.maxSize - 1).toNat, by omega⟩
    have hlen : (h.length : Int) ≤ history.maxSize := by
      have := hh.2.1
      omega
    rw [hm, Int.toNat_ofNat] at h3 ⊢
    refine ⟨h3.entries, ?_, ?_⟩
    · rw [h3.entries]
      rfl
    · rw [List.take_succ_cons]
      by_cases hlt : (h.length : Int) < ((m + 1 : Nat) : Int)
      · rw [if_pos hlt, List.take_of_length_le (by omega)]
      · rw [if_neg hlt, List.dropLast_eq_take]
        have : h.length = m + 1 := by omega
        rw [this, Nat.add_sub_cancel]

/-- The claim C16 for a full history of two entries: the new line comes
first and the oldest entry is dropped. -/
theorem C16_addHistory_entries_witness :
    ∃ history1,
      addHistory ⟨[some "b".toList, some "a".toList], 2, 2⟩ (some "c".toList)
        = Run.done history1 ∧
      history1.entries = [some "c".toList, some "b".toList] := by
  obtain ⟨history1, h1, _, h3⟩ :=
    (C16_addHistory_entries ⟨[some "b".toList, some "a".toList], 2, 2⟩
      ["b".toList, "a".toList] "c".toList (by decide)
      ⟨by decide, by decide, by decide, by decide⟩).1
  rw [if_neg (by decide)] at h3
  exact ⟨history1, h1, h3.1⟩
theorem entryTable_ne_pipeWrite (openFds : Nat → Bool) (fd j : Nat) :
    entryTable openFds fd ≠ some (Desc.pipeWrite j) := by
  unfold entryTable
  split <;> simp

theorem find?_range_lowest (p : Nat → Bool) :
    ∀ (n r : Nat), (List.range n).find? p = some r → ∀ k, k < r → p k = false := by
  intro n
  induction n with
  | zero => intro r h; simp at h
  | succ n ih =>
    intro r h k hk
    rw [List.range_succ, List.find?_append] at h
    cases hf : (List.range n).find? p with
    | some r1 =>
      rw [hf] at h
      simp only [Option.or_some, Option.some.injEq] at h
      subst h
      exact ih r1 hf k hk
    | none =>
      rw [hf] at h
      simp only [Option.none_or] at h
      have hr : r = n := by
        by_cases hp : p n = true
        · simp [List.find?, hp] at h
          exact h.symm
        · simp [List.find?, hp] at h
      subst hr
      rw [List.find?_eq_none] at hf
      have := hf k (List.mem_range.mpr hk)
      simpa using this

/-- The call `pipe` returns the read end below the write end: the two are the
lowest closed descriptors, taken in that order. -/
theorem sysPipe_lt (nofile : Nat) (t t1 : FdTable) (j r w : Nat)
    (h : sysPipe nofile t j = some (t1, r, w)) : r < w := by
  obtain ⟨_, hw, hne, _⟩ := sysPipe_some nofile t t1 j r w h
  unfold sysPipe at h
  cases h1 : lowestFree nofile t with
  | none => rw [h1] at h; simp at h
  | some r1 =>
    rw [h1] at h
    simp only [] at h
    cases h2 : lowestFree nofile (Function.update t r1 (some (Desc.pipeRead j))) with
    | none => rw [h2] at h; simp at h
    | some w1 =>
      rw [h2] at h
      simp only [Option.some.injEq, Prod.mk.injEq] at h
      obtain ⟨_, hr, hw1⟩ := h
      subst hr hw1
      by_contra hlt
      have hlt2 : w1 < r1 := by omega
      unfold lowestFree at h1
      have := find?_range_lowest _ _ _ h1 w1 hlt2
      rw [hw] at this
      simp at this

/-- No write end of a pipe made by the pipe-creating loop is descriptor 0. -/
theorem pipeLoop_writeEnd_ne (nofile : Nat) :
    ∀ (todo : Nat) (p q : Proc), pipeLoop nofile todo p.pipes.length p = Loop.finished q →
      (∀ j, j < p.pipes.length → writeEnd p.pipes j ≠ STDIN_FILENO) →
      ∀ j, j < q.pipes.length → writeEnd q.pipes j ≠ STDIN_FILENO := by
  intro todo
  induction todo with
  | zero =>
    intro p q h hp
    simp only [pipeLoop, Loop.finished.injEq] at h
    subst h
    exact hp
  | succ todo ih =>
    intro p q h hp
    rw [pipeLoop] at h
    cases hs : sysPipe nofile p.fds p.pipes.length with
    | none => rw [hs] at h; simp at h
    | some x =>
      obtain ⟨t1, r, w⟩ := x
      rw [hs] at h
      simp only [] at h
      have hlt := sysPipe_lt nofile p.fds t1 p.pipes.length r w hs
      have hlen : p.pipes.length + 1 = (p.pipes ++ [(r, w)]).length := by simp
      rw [hlen] at h
      have step := ih
        { p with fds := t1, pipes := p.pipes ++ [(r, w)],
                 trace := p.trace ++ [Event.pipe p.pipes.length r w] } q h
      apply step
      intro j hj
      simp only [List.length_append, List.length_singleton] at hj
      by_cases hjl : j < p.pipes.length
      · simp only []
        rw [writeEnd_append_left _ _ _ hjl]
        exact hp j hjl
      · have hje : j = p.pipes.length := by omega
        subst hje
        simp only []
        rw [writeEnd_append_length]
        unfold STDIN_FILENO
        omega

/-- No write end of a pipe of a pipeline run is descriptor 0. -/
theorem pipeParent_writeEnd_ne (w : World) (commandArray : List CStr) (p0 q : Proc)
    (h : pipeParent w commandArray p0 = Loop.finished q) (hp : p0.pipes = []) :
    ∀ j, j < q.pipes.length → writeEnd q.pipes j ≠ STDIN_FILENO := by
  unfold pipeParent at h
  simp only [] at h
  cases h1 : pipeLoop w.nofile (commandArray.length - 1) 0 p0 with
  | failed p1 => rw [h1] at h; simp at h
  | finished p1 =>
    rw [h1] at h
    simp only [] at h
    cases h2 : forkLoop w commandArray commandArray.length commandArray.length 0 p1 with
    | failed p2 => rw [h2] at h; simp at h
    | finished p2 =>
      rw [h2] at h
      simp only [Loop.finished.injEq] at h
      have hz : (0 : Nat) = p0.pipes.length := by simp [hp]
      rw [hz] at h1
      have a := pipeLoop_writeEnd_ne w.nofile _ p0 p1 h1 (by rw [hp]; intro j hj; simp at hj)
      obtain ⟨_, b2, b3, _⟩ := forkLoop_finished w commandArray _ _ _ _ _ h2
      obtain ⟨c1, c2, _⟩ := closeLoop_eq commandArray.length p2
      have hw := waitFold_eq commandArray.length (closeLoop commandArray.length p2)
        (by rw [c2, b3]; omega)
      have hq : q = waitLoop commandArray.length (closeLoop commandArray.length p2) := h.symm
      unfold waitLoop at hq
      rw [hw] at hq
      subst hq
      simp only [c1, b2]
      exact a

/-- A call of `executePipeCommands` that passes the test on the pipe count
and returns in the parent, as far as the write ends of its pipes go: the
pipes are in order in the table `t` from which every child starts, no write
end is descriptor 0, and the parent ends with the descriptors it had on
entry. -/
theorem executePipeCommands_writeEnds (w : World) (sh : Shell) (line : CStr)
    (hok : (executePipeCommands w sh line).isOk = true)
    (hc : line.count '|' ≠ (maximalRuns '|' line).length) :
    ∃ pipes t,
      pipes.length = (maximalRuns '|' line).length - 1 ∧
      PipesInv (entryTable sh.openFds) pipes t ∧
      (∀ j, j < pipes.length → writeEnd pipes j ≠ STDIN_FILENO) ∧
      (executePipeCommands w sh line).shell.children =
        sh.children ++ (List.range (maximalRuns '|' line).length).map
          (pipeChild w (maximalRuns '|' line) pipes t (maximalRuns '|' line).length) ∧
      (∀ fd, (executePipeCommands w sh line).shell.openFds fd = sh.openFds fd) := by
  obtain ⟨history, hh, hcase⟩ := executePipeCommands_ok w sh line hok
  rcases hcase with ⟨heq, _⟩ | ⟨_, q, hq, he⟩
  · exact absurd heq hc
  · have hne := pipeParent_writeEnd_ne w (maximalRuns '|' line) sh.toProc q hq rfl
    obtain ⟨pipes, t, a1, a2, a3, _, a5, _, a7, _⟩ :=
      pipeParent_finished w (maximalRuns '|' line) sh.toProc q hq rfl
    rw [a3] at hne
    refine ⟨pipes, t, a1, a2, hne, ?_, ?_⟩
    · rw [he]
      simp only [Step.shell, Shell.ofProc, a5]
      rfl
    · intro fd
      rw [he]
      simp only [Step.shell, Shell.ofProc, a7 fd]
      exact entryTable_isSome sh.openFds fd

/-- The descriptor table with which the child for stage `i` reaches the
construction of its argument vector, whatever descriptors were open on
entry. -/
theorem wireChild_eq_general (t0 t : FdTable) (pipes : List (Nat × Nat)) (n i : Nat)
    (inv : PipesInv t0 pipes t) (hlen : pipes.length = n - 1) (hi : i < n)
    (hne0 : ∀ j, j < pipes.length → writeEnd pipes j ≠ STDIN_FILENO) :
    wireChild pipes t n i = some (fun fd =>
      if isOtherPipeFd pipes i (n - 1) fd = true then none
      else if i ≠ n - 1 ∧ fd = writeEnd pipes i then none
      else if i ≠ n - 1 ∧ fd = STDOUT_FILENO then some (Desc.pipeWrite i)
      else if i ≠ 0 ∧ fd = readEnd pipes (i - 1) then none
      else if i ≠ 0 ∧ fd = STDIN_FILENO then some (Desc.pipeRead (i - 1))
      else t fd) := by
  unfold wireChild
  have e1 : (if i ≠ 0 then
        match sysDup2 t (readEnd pipes (i - 1)) STDIN_FILENO with
        | none => none
        | some t => some (sysClose t (readEnd pipes (i - 1)))
      else some t) = some (fun fd =>
        if i ≠ 0 ∧ fd = readEnd pipes (i - 1) then none
        else if i ≠ 0 ∧ fd = STDIN_FILENO then some (Desc.pipeRead (i - 1))
        else t fd) := by
    by_cases hz : i = 0
    · simp [hz]
    · have hr := (inv.ends (i - 1) (by omega)).1
      simp only [ne_eq, hz, not_false_eq_true, if_true, sysDup2, hr, sysClose, true_and]
      congr 1
      funext fd
      simp only [Function.update_apply]
  simp only [e1]
  have e2 : (if i ≠ n - 1 then
        match sysDup2 (fun fd =>
            if i ≠ 0 ∧ fd = readEnd pipes (i - 1) then none
            else if i ≠ 0 ∧ fd = STDIN_FILENO then some (Desc.pipeRead (i - 1))
            else t fd) (writeEnd pipes i) STDOUT_FILENO with
        | none => none
        | some t => some (sysClose t (writeEnd pipes i))
      else some (fun fd =>
            if i ≠ 0 ∧ fd = readEnd pipes (i - 1) then none
            else if i ≠ 0 ∧ fd = STDIN_FILENO then some (Desc.pipeRead (i - 1))
            else t fd)) = some (fun fd =>
        if i ≠ n - 1 ∧ fd = writeEnd pipes i then none
        else if i ≠ n - 1 ∧ fd = STDOUT_FILENO then some (Desc.pipeWrite i)
        else if i ≠ 0 ∧ fd = readEnd pipes (i - 1) then none
        else if i ≠ 0 ∧ fd = STDIN_FILENO then some (Desc.pipeRead (i - 1))
        else t fd) := by
    by_cases hz : i = n - 1
    · simp [hz]
    · have hw := (inv.ends i (by omega)).2
      have hne : ¬ (i ≠ 0 ∧ writeEnd pipes i = readEnd pipes (i - 1)) := fun h =>
        inv.read_ne_write (i - 1) i (by omega) (by omega) h.2.symm
      have hstd : ¬ (i ≠ 0 ∧ writeEnd pipes i = STDIN_FILENO) := fun h =>
        hne0 i (by omega) h.2
      simp only [ne_eq, hz, not_false_eq_true, if_true, sysDup2, sysClose, true_and]
      rw [if_neg hne, if_neg hstd, hw]
      simp only []
      congr 1
      funext fd
      simp only [Function.update_apply]
  simp only [e2]
  congr 1
  funext fd
  rw [childCloseFold_eq]

/-- The write ends that the child for stage `i` holds when it calls `execvp`,
when the standard output was open on entry: every raw write end is closed, the
standard output is the write end of pipe `i` (the inherited standard output
for the last stage), and no other descriptor refers to a write end. -/
theorem wireChild_writeEnds (openFds : Nat → Bool) (t : FdTable)
    (pipes : List (Nat × Nat)) (n i : Nat)
    (inv : PipesInv (entryTable openFds) pipes t) (hlen : pipes.length = n - 1) (hi : i < n)
    (hne0 : ∀ j, j < pipes.length → writeEnd pipes j ≠ STDIN_FILENO)
    (h1 : openFds STDOUT_FILENO = true) :
    ∃ tc, wireChild pipes t n i = some tc ∧
      (∀ j, j < n - 1 → tc (writeEnd pipes j) = none) ∧
      (∀ fd j, tc fd = some (Desc.pipeWrite j) → fd = STDOUT_FILENO ∧ j = i ∧ i < n - 1) ∧
      tc STDOUT_FILENO =
        (if i = n - 1 then some (Desc.inherited STDOUT_FILENO) else some (Desc.pipeWrite i)) := by
  have s1 := inv.of_open STDOUT_FILENO (entryTable_ne_none _ _ h1)
  have hne01 : STDIN_FILENO ≠ STDOUT_FILENO := by decide
  refine ⟨_, wireChild_eq_general _ t pipes n i inv hlen hi hne0, ?_, ?_, ?_⟩
  · -- raw write ends
    intro j hj
    by_cases hji : j = i
    · subst hji
      by_cases a : isOtherPipeFd pipes j (n - 1) (writeEnd pipes j) = true
      · simp [a]
      · have : j ≠ n - 1 := by omega
        simp [a, this]
    · have a : isOtherPipeFd pipes i (n - 1) (writeEnd pipes j) = true := by
        rw [isOtherPipeFd_iff]
        exact ⟨j, hj, hji, Or.inr rfl⟩
      simp [a]
  · -- the descriptors that refer to a write end
    intro fd j hfd
    by_cases a : isOtherPipeFd pipes i (n - 1) fd = true
    · rw [if_pos a] at hfd; simp at hfd
    · rw [if_neg a] at hfd
      by_cases b : i ≠ n - 1 ∧ fd = writeEnd pipes i
      · rw [if_pos b] at hfd; simp at hfd
      · rw [if_neg b] at hfd
        by_cases c : i ≠ n - 1 ∧ fd = STDOUT_FILENO
        · rw [if_pos c] at hfd
          simp only [Option.some.injEq, Desc.pipeWrite.injEq] at hfd
          exact ⟨c.2, hfd.symm, by omega⟩
        · rw [if_neg c] at hfd
          by_cases d : i ≠ 0 ∧ fd = readEnd pipes (i - 1)
          · rw [if_pos d] at hfd; simp at hfd
          · rw [if_neg d] at hfd
            by_cases e : i ≠ 0 ∧ fd = STDIN_FILENO
            · rw [if_pos e] at hfd; simp at hfd
            · rw [if_neg e] at hfd
              exfalso
              by_cases hp : ∀ k, k < pipes.length → fd ≠ readEnd pipes k ∧ fd ≠ writeEnd pipes k
              · rw [inv.frame fd hp] at hfd
                exact entryTable_ne_pipeWrite _ _ _ hfd
              · push_neg at hp
                obtain ⟨k, hk, hkk⟩ := hp
                by_cases hr : fd = readEnd pipes k
                · rw [hr, (inv.ends k hk).1] at hfd
                  simp at hfd
                · have hwk : fd = writeEnd pipes k := by
                    by_contra hcon
                    exact hcon (hkk hr)
                  by_cases hki : k = i
                  · subst hki
                    exact b ⟨by omega, hwk⟩
                  · apply a
                    rw [isOtherPipeFd_iff]
                    exact ⟨k, by omega, hki, Or.inr hwk⟩
  · -- standard output
    have a : ¬ (isOtherPipeFd pipes i (n - 1) STDOUT_FILENO = true) := by
      rw [isOtherPipeFd_iff]
      rintro ⟨j, hj, _, h | h⟩
      · exact (s1.1 j (by omega)).1 h
      · exact (s1.1 j (by omega)).2 h
    have b : ¬ (i ≠ n - 1 ∧ STDOUT_FILENO = writeEnd pipes i) := fun h =>
      (s1.1 i (by omega)).2 h.2
    have d : ¬ (i ≠ 0 ∧ STDOUT_FILENO = readEnd pipes (i - 1)) := fun h =>
      (s1.1 (i - 1) (by omega)).1 h.2
    have e : ¬ (i ≠ 0 ∧ STDOUT_FILENO = STDIN_FILENO) := fun h => hne01 h.2.symm
    simp only [if_neg a, if_neg b]
    by_cases hz : i = n - 1
    · simp only [hz, ne_eq, not_true_eq_false, false_and, if_false, if_true]
      rw [← hz, if_neg d, if_neg e, s1.2]
      simp [entryTable, h1]
    · simp [hz]

/-- C17, amended: for every accepted pipeline of `n ≥ 2` stages run by an
interpreter whose standard output is open on entry, in a call that returns in
the parent: the child of every stage `i` reaches `execvp` with the raw write
end of every pipe closed, and the only descriptor through which it holds a
write end is its standard output, which is the write end of pipe `i`, for
`i < n - 1`; after the parent's closing loop the write end of every pipe is
closed in the parent.  So the write side of pipe `i` is held by the child of
stage `i` only. -/
theorem C17_write_ends_held_by_writer (w : World) (sh : Shell) (line : CStr)
    (stages : List CStr)
    (hok : (executePipeCommands w sh line).isOk = true)
    (hacc : splitPipeline line = Run.done (some stages))
    (hn : 2 ≤ stages.length)
    (h1 : sh.openFds STDOUT_FILENO = true) :
    ∃ pipes t,
      pipes.length = stages.length - 1 ∧
      (executePipeCommands w sh line).shell.children =
        sh.children ++ (List.range stages.length).map
          (pipeChild w stages pipes t stages.length) ∧
      (∀ i, i < stages.length →
        ∃ tc, wireChild pipes t stages.length i = some tc ∧
          (pipeChild w stages pipes t stages.length i).fds = tc ∧
          (∀ j, j < stages.length - 1 → tc (writeEnd pipes j) = none) ∧
          (∀ fd j, tc fd = some (Desc.pipeWrite j) →
            fd = STDOUT_FILENO ∧ j = i ∧ i < stages.length - 1) ∧
          (if i = stages.length - 1 then tc STDOUT_FILENO = some (Desc.inherited STDOUT_FILENO)
           else tc STDOUT_FILENO = some (Desc.pipeWrite i))) ∧
      (∀ j, j < stages.length - 1 →
        (executePipeCommands w sh line).shell.openFds (writeEnd pipes j) = false) := by
  obtain ⟨hc, hst⟩ := splitPipeline_some line stages hacc
  subst hst
  obtain ⟨pipes, t, hlen, inv, hne0, hch, hfds⟩ := executePipeCommands_writeEnds w sh line hok hc
  refine ⟨pipes, t, hlen, hch, ?_, ?_⟩
  · intro i hi
    obtain ⟨tc, hw, hwr, honly, hout⟩ :=
      wireChild_writeEnds sh.openFds t pipes _ i inv hlen hi hne0 h1
    refine ⟨tc, hw, pipeChild_fds w _ pipes t tc _ i hw, hwr, honly, ?_⟩
    rw [hout]
    by_cases hz : i = (maximalRuns '|' line).length - 1
    · rw [if_pos hz, if_pos hz]
    · rw [if_neg hz, if_neg hz]
  · intro j hj
    rw [hfds]
    exact entryTable_eq_none _ _ (inv.fresh j (by omega)).2

/-- The amended claim C17 at the line `a|b|c`, run by an interpreter whose
standard input is closed and whose standard output is open: the middle child
holds no raw write end, and its standard output is the write end of
pipe 1. -/
theorem C17_write_ends_held_by_writer_witness :
    (executePipeCommands (World.plain [])
      { Shell.fresh with openFds := fun fd => decide (fd = 1 ∨ fd = 2) }
      "a|b|c".toList).isOk = true ∧
    ∃ pipes t tc, pipes.length = 2 ∧ wireChild pipes t 3 1 = some tc ∧
      tc (writeEnd pipes 0) = none ∧ tc (writeEnd pipes 1) = none ∧
      tc STDOUT_FILENO = some (Desc.pipeWrite 1) := by
  refine ⟨by decide, ?_⟩
  obtain ⟨pipes, t, hlen, _, hall, _⟩ :=
    C17_write_ends_held_by_writer (World.plain [])
      { Shell.fresh with openFds := fun fd => decide (fd = 1 ∨ fd = 2) } "a|b|c".toList
      ["a".toList, "b".toList, "c".toList] (by decide) (by decide) (by decide) (by decide)
  obtain ⟨tc, hw, _, hwr, _, hout⟩ := hall 1 (by decide)
  rw [if_neg (by decide)] at hout
  exact ⟨pipes, t, tc, hlen, hw, hwr 0 (by decide), hwr 1 (by decide), hout⟩

/-- The counterexample to C17: the line `a|b|c` run by an interpreter whose
standard output is closed on entry (descriptors 0 and 2 are open).  The line
is accepted and the call returns in the parent; the pipes are the descriptor
pairs (1, 3) and (4, 5); the child of stage 1 makes its standard output the
write end of pipe 1 and then closes descriptor 1 in its closing loop, as
`pipes[0][0]`, so it reaches `execvp` with its standard output closed, and no
descriptor of any child refers to the write end of pipe 1. -/
theorem C17_counterexample :
    splitPipeline "a|b|c".toList = Run.done (some ["a".toList, "b".toList, "c".toList]) ∧
    (executePipeCommands (World.plain [])
      { Shell.fresh with openFds := fun fd => decide (fd = 0 ∨ fd = 2) }
      "a|b|c".toList).isOk = true ∧
    (executePipeCommands (World.plain [])
      { Shell.fresh with openFds := fun fd => decide (fd = 0 ∨ fd = 2) }
      "a|b|c".toList).shell.trace.filter Event.isPipe = [Event.pipe 0 1 3, Event.pipe 1 4 5] ∧
    (executePipeCommands (World.plain [])
      { Shell.fresh with openFds := fun fd => decide (fd = 0 ∨ fd = 2) }
      "a|b|c".toList).shell.children.map (fun child => child.fds STDOUT_FILENO)
      = [some (Desc.pipeWrite 0), none, none] ∧
    (executePipeCommands (World.plain [])
      { Shell.fresh with openFds := fun fd => decide (fd = 0 ∨ fd = 2) }
      "a|b|c".toList).shell.children.map
        (fun child => (List.range 8).filter (fun fd => child.fds fd == some (Desc.pipeWrite 1)))
      = [[], [], []] := by
  decide

theorem NoPipeNoFork.filter {events : List Event} (h : NoPipeNoFork events) :
    events.filter Event.isPipe = [] ∧ events.filter Event.isFork = [] := by
  constructor
  · rw [List.filter_eq_nil_iff]
    intro e he
    simp [(h e he).1]
  · rw [List.filter_eq_nil_iff]
    intro e he
    simp [(h e he).2]

theorem NoPipeNoFork.nil : NoPipeNoFork [] := by
  intro e he
  simp at he

theorem printHistoryLoop_events (commands : List (Option CStr)) :
    ∀ (todo i : Nat) (events : List Event),
      printHistoryLoop commands todo i = Run.done events → NoPipeNoFork events := by
  intro todo
  induction todo with
  | zero =>
    intro i events h
    simp only [printHistoryLoop, Run.done.injEq] at h
    subst h
    exact NoPipeNoFork.nil
  | succ todo ih =>
    intro i events h
    rw [printHistoryLoop] at h
    cases hr : readSlot commands (i : Int) with
    | outOfBounds => rw [hr] at h; simp at h
    | outOfFuel => rw [hr] at h; simp at h
    | done v =>
      rw [hr] at h
      simp only [] at h
      cases hp : printHistoryLoop commands todo (i + 1) with
      | outOfBounds => rw [hp] at h; simp at h
      | outOfFuel => rw [hp] at h; simp at h
      | done rest =>
        rw [hp] at h
        simp only [Run.done.injEq] at h
        subst h
        intro e he
        rcases List.mem_cons.mp he with he | he
        · subst he; exact ⟨rfl, rfl⟩
        · exact ih _ _ hp e he

/-- The single fork of `executeExternalCommand`: its events hold no `pipe`
call and at most one successful `fork`. -/
theorem executeExternalCommand_trace (w : World) (sh : Shell) (args : List CStr)
    (line : Option CStr) :
    ∃ new, (executeExternalCommand w sh args line).shell.trace = sh.trace ++ new ∧
      new.filter Event.isPipe = [] ∧ (new.filter Event.isFork).length ≤ 1 := by
  unfold executeExternalCommand
  by_cases hf : w.forkOk 0 = true
  · rw [if_pos hf]
    cases addHistory sh.history line with
    | done history =>
      exact ⟨[Event.forkCommand args, Event.waitpid true], by simp [Step.shell], rfl,
        by simp [List.filter, Event.isFork]⟩
    | outOfBounds => exact ⟨[Event.forkCommand args], by simp [Step.shell], rfl, by simp [List.filter, Event.isFork]⟩
    | outOfFuel => exact ⟨[Event.forkCommand args], by simp [Step.shell], rfl, by simp [List.filter, Event.isFork]⟩
  · rw [if_neg hf]
    cases addHistory sh.history line with
    | done history =>
      exact ⟨[Event.forkFailed 0, Event.perror "fork".toList], by simp [Step.shell], rfl,
        by simp [List.filter, Event.isFork]⟩
    | outOfBounds => exact ⟨[Event.forkFailed 0], by simp [Step.shell], rfl, by simp [List.filter, Event.isFork]⟩
    | outOfFuel => exact ⟨[Event.forkFailed 0], by simp [Step.shell], rfl, by simp [List.filter, Event.isFork]⟩

theorem trace_unchanged_noPipeNoFork {α : Type} (r : Step α) (sh : Shell)
    (h : r.shell.trace = sh.trace) :
    ∃ new, r.shell.trace = sh.trace ++ new ∧ NoPipeNoFork new :=
  ⟨[], by simp [h], NoPipeNoFork.nil⟩

theorem builtin_cd_trace (w : World) (sh : Shell) (args : List CStr) :
    ∃ new, (builtin_cd w sh args).shell.trace = sh.trace ++ new ∧ NoPipeNoFork new := by
  unfold builtin_cd
  split
  · rename_i path _
    by_cases hc : w.chdirOk path = true
    · rw [if_pos hc]
      refine ⟨[Event.chdir path true], rfl, ?_⟩
      intro e he
      simp only [List.mem_singleton] at he
      subst he
      exact ⟨rfl, rfl⟩
    · rw [if_neg hc]
      refine ⟨[Event.chdir path false], rfl, ?_⟩
      intro e he
      simp only [List.mem_singleton] at he
      subst he
      exact ⟨rfl, rfl⟩
  · exact trace_unchanged_noPipeNoFork _ sh rfl

theorem builtin_export_trace (sh : Shell) (args : List CStr) :
    ∃ new, (builtin_export sh args).shell.trace = sh.trace ++ new ∧ NoPipeNoFork new := by
  apply trace_unchanged_noPipeNoFork
  unfold builtin_export
  split
  · rfl
  · split
    · rfl
    · split <;> rfl

theorem builtin_local_trace (sh : Shell) (args : List CStr) :
    ∃ new, (builtin_local sh args).shell.trace = sh.trace ++ new ∧ NoPipeNoFork new := by
  apply trace_unchanged_noPipeNoFork
  unfold builtin_local
  split
  · rfl
  · split
    · rfl
    · split <;> rfl

theorem builtin_vars_trace (sh : Shell) :
    ∃ new, (builtin_vars sh).shell.trace = sh.trace ++ new ∧ NoPipeNoFork new := by
  refine ⟨_, rfl, ?_⟩
  intro e he
  obtain ⟨v, _, hv⟩ := List.mem_map.mp he
  subst hv
  exact ⟨rfl, rfl⟩

theorem printHistory_trace (sh : Shell) :
    ∃ new, (printHistory sh).shell.trace = sh.trace ++ new ∧ NoPipeNoFork new := by
  unfold printHistory
  cases h : printHistoryLoop sh.history.commands sh.history.currSize.toNat 0 with
  | done events => exact ⟨events, rfl, printHistoryLoop_events _ _ _ _ h⟩
  | outOfBounds => exact trace_unchanged_noPipeNoFork _ sh rfl
  | outOfFuel => exact trace_unchanged_noPipeNoFork _ sh rfl

theorem of_noPipeNoFork {α : Type} (r : Step α) (sh : Shell) (c : Prop)
    (h : ∃ new, r.shell.trace = sh.trace ++ new ∧ NoPipeNoFork new) :
    ∃ new, r.shell.trace = sh.trace ++ new ∧
      new.filter Event.isPipe = [] ∧ (new.filter Event.isFork).length ≤ 1 ∧
      (c → new.filter Event.isFork = []) := by
  obtain ⟨new, h1, h2⟩ := h
  refine ⟨new, h1, h2.filter.1, ?_, fun _ => h2.filter.2⟩
  rw [h2.filter.2]
  exact Nat.zero_le _

/-- The built-in `history` forks at most once, and not at all unless it is a
re-execution. -/
theorem builtin_history_trace (w : World) (sh : Shell) (args : List CStr) :
    ∃ new, (builtin_history w sh args).shell.trace = sh.trace ++ new ∧
      new.filter Event.isPipe = [] ∧ (new.filter Event.isFork).length ≤ 1 ∧
      ((args.drop 1).head? = none ∨ (args.drop 1).head? = some "set".toList →
        new.filter Event.isFork = []) := by
  unfold builtin_history
  cases hd : args.drop 1 with
  | nil =>
    simp only []
    exact of_noPipeNoFork _ sh _ (printHistory_trace sh)
  | cons arg1 rest =>
    simp only []
    by_cases hset : arg1 = "set".toList
    · rw [if_pos hset]
      apply of_noPipeNoFork
      apply trace_unchanged_noPipeNoFork
      cases rest with
      | nil => rfl
      | cons arg2 more =>
        simp only []
        cases resizeHistory sh.history (atoi arg2) <;> rfl
    · rw [if_neg hset]
      have hcond : ¬ ((arg1 :: rest).head? = none ∨ (arg1 :: rest).head? = some "set".toList) := by
        intro hx
        rcases hx with hx | hx
        · simp at hx
        · exact hset (Option.some.inj hx)
      by_cases hbig : atoi arg1 > sh.history.maxSize
      · rw [if_pos hbig]
        exact of_noPipeNoFork _ sh _ (trace_unchanged_noPipeNoFork _ sh rfl)
      · rw [if_neg hbig]
        cases hr : readSlot sh.history.commands (atoi arg1 - 1) with
        | outOfBounds => exact of_noPipeNoFork _ sh _ (trace_unchanged_noPipeNoFork _ sh rfl)
        | outOfFuel => exact of_noPipeNoFork _ sh _ (trace_unchanged_noPipeNoFork _ sh rfl)
        | done v =>
          cases v with
          | none => exact of_noPipeNoFork _ sh _ (trace_unchanged_noPipeNoFork _ sh rfl)
          | some command =>
            simp only []
            split
            · rename_i historyArgs commands _ _
              obtain ⟨new, h1, h2, h3⟩ :=
                executeExternalCommand_trace w
                  { sh with history := { sh.history with commands := commands } }
                  historyArgs none
              exact ⟨new, h1, h2, h3, fun hx => absurd hx hcond⟩
            · exact of_noPipeNoFork _ sh _ (trace_unchanged_noPipeNoFork _ sh rfl)

theorem isEmptyOrPlainBuiltin_history (rest : List CStr)
    (h : isEmptyOrPlainBuiltin ("history".toList :: rest) = true) :
    (("history".toList :: rest).drop 1).head? = none ∨
      (("history".toList :: rest).drop 1).head? = some "set".toList := by
  cases rest with
  | nil => left; rfl
  | cons arg1 more =>
    right
    by_cases hset : arg1 = "set".toList
    · rw [hset]; rfl
    · exfalso
      have hb : (arg1 != "set".toList) = true := by simpa using hset
      have hr : isHistoryReexecution ("history".toList :: arg1 :: more) = true := by
        unfold isHistoryReexecution
        simp only [hb, Bool.and_true]
        rfl
      unfold isEmptyOrPlainBuiltin at h
      rw [hr] at h
      simp at h

/-- What `executeCommand` does to the trace: no `pipe` call, at most one
successful `fork`, and none for an empty command or a built-in other than a
history re-execution. -/
theorem executeCommand_trace (w : World) (sh : Shell) (args : List CStr) (line : CStr) :
    ∃ new, (executeCommand w sh args line).shell.trace = sh.trace ++ new ∧
      new.filter Event.isPipe = [] ∧ (new.filter Event.isFork).length ≤ 1 ∧
      (isEmptyOrPlainBuiltin args = true → new.filter Event.isFork = []) := by
  cases args with
  | nil => exact of_noPipeNoFork _ sh _ (trace_unchanged_noPipeNoFork _ sh rfl)
  | cons program rest =>
    unfold executeCommand
    simp only []
    by_cases h1 : program = "cd".toList
    · rw [if_pos h1]; exact of_noPipeNoFork _ sh _ (builtin_cd_trace w sh _)
    rw [if_neg h1]
    by_cases h2 : program = "exit".toList
    · rw [if_pos h2]; exact of_noPipeNoFork _ sh _ (trace_unchanged_noPipeNoFork _ sh rfl)
    rw [if_neg h2]
    by_cases h3 : program = "export".toList
    · rw [if_pos h3]; exact of_noPipeNoFork _ sh _ (builtin_export_trace sh _)
    rw [if_neg h3]
    by_cases h4 : program = "local".toList
    · rw [if_pos h4]; exact of_noPipeNoFork _ sh _ (builtin_local_trace sh _)
    rw [if_neg h4]
    by_cases h5 : program = "vars".toList
    · rw [if_pos h5]; exact of_noPipeNoFork _ sh _ (builtin_vars_trace sh)
    rw [if_neg h5]
    by_cases h6 : program = "history".toList
    · rw [if_pos h6]
      subst h6
      obtain ⟨new, a1, a2, a3, a4⟩ := builtin_history_trace w sh ("history".toList :: rest)
      exact ⟨new, a1, a2, a3, fun hx => a4 (isEmptyOrPlainBuiltin_history rest hx)⟩
    rw [if_neg h6]
    obtain ⟨new, a1, a2, a3⟩ := executeExternalCommand_trace w sh (program :: rest) (some line)
    refine ⟨new, a1, a2, a3, ?_⟩
    intro hx
    exfalso
    simp only [isEmptyOrPlainBuiltin, builtinNames, Bool.and_eq_true] at hx
    have := hx.1
    simp only [List.contains_iff_exists_mem_beq, List.mem_cons, List.mem_singleton,
      List.not_mem_nil, or_false, beq_iff_eq, exists_eq_or_imp, exists_eq_left] at this
    rcases this with h | h | h | h | h | h
    · exact h1 h
    · exact h2 h
    · exact h3 h
    · exact h4 h
    · exact h5 h
    · exact h6 h

/-- C11: for every input line whose expanded form has no `|`, `processInput`
makes no `pipe` call and at most one successful `fork`, and no `fork` at all
when the line has no token or is a built-in other than a history
re-execution. -/
theorem C11_no_pipe_one_fork (w : World) (sh : Shell) (text expanded : CStr)
    (hexp : expandVars sh.env sh.shellVars (stripNewline text) = Run.done expanded)
    (hpipe : '|' ∉ expanded) :
    ∃ new, (processInput w sh (ReadResult.line text)).shell.trace = sh.trace ++ new ∧
      new.filter Event.isPipe = [] ∧ (new.filter Event.isFork).length ≤ 1 ∧
      (isEmptyOrPlainBuiltin (maximalRuns ' ' expanded) = true →
        new.filter Event.isFork = []) := by
  unfold processInput
  simp only []
  by_cases hne : text = []
  · rw [if_pos hne]
    exact of_noPipeNoFork _ sh _ (trace_unchanged_noPipeNoFork _ sh rfl)
  · rw [if_neg hne, hexp]
    simp only []
    rw [if_neg hpipe, parseInput_eq]
    by_cases hcap : (maximalRuns ' ' expanded).length < tokensCapacity
    · rw [if_pos hcap]
      exact executeCommand_trace w sh _ _
    · rw [if_neg hcap]
      exact of_noPipeNoFork _ sh _ (trace_unchanged_noPipeNoFork _ sh rfl)

/-- The claim C11 at the lines `ls -l` (one fork) and `vars` (no fork), run
by a fresh interpreter. -/
theorem C11_no_pipe_one_fork_witness :
    (processInput (World.plain ["ls".toList]) Shell.fresh
      (ReadResult.line "ls -l\n".toList)).shell.trace
      = [Event.forkCommand ["ls".toList, "-l".toList], Event.waitpid true] ∧
    ∃ new, (processInput (World.plain []) Shell.fresh
        (ReadResult.line "vars\n".toList)).shell.trace = Shell.fresh.trace ++ new ∧
      new.filter Event.isFork = [] := by
  refine ⟨by decide, ?_⟩
  obtain ⟨new, h1, _, _, h4⟩ :=
    C11_no_pipe_one_fork (World.plain []) Shell.fresh "vars\n".toList "vars".toList
      (by decide) (by decide)
  exact ⟨new, h1, h4 (by decide)⟩
/-- The counterexample to C15: started without arguments (interactive mode)
on a standard input that is at its end, the interpreter prints its prompt and
terminates with exit status 0. -/
theorem C15_counterexample :
    (main (World.plain []) (fun _ => none) [] Shell.fresh []).exitCode = some 0 ∧
    (main (World.plain []) (fun _ => none) [] Shell.fresh []).shell.trace
      = [Event.stdout "vnsh> ".toList] ∧
    (main (World.plain ["ls".toList]) (fun _ => none) [ReadResult.line "ls\n".toList]
      Shell.fresh []).exitCode = some 0 := by
  decide

/-- C15, amended: the interpreter terminates with `exit(-1)`, a non-zero
status, when it is started with more than one command-line argument and when
the batch file cannot be opened; it terminates with status 0 when the end of
the input is reached, in batch mode and in interactive mode alike, and when a
line whose first token is `exit` is read; an exit of `processInput` is the exit
of the interpreter. -/
theorem C15_exit_status :
    (∀ (w : World) (openFile : CStr → Option (List ReadResult)) (stdin : List ReadResult)
        (sh : Shell) (args : List CStr),
        1 < args.length → main w openFile stdin sh args = Step.exit (-1) sh) ∧
    (∀ (w : World) (openFile : CStr → Option (List ReadResult)) (stdin : List ReadResult)
        (sh : Shell) (path : CStr),
        openFile path = none → main w openFile stdin sh [path] = Step.exit (-1) sh) ∧
    (∀ (w : World) (isInteractiveMode : Bool) (sh : Shell),
        (mainLoop w isInteractiveMode [] sh).exitCode = some 0) ∧
    (∀ (w : World) (sh : Shell) (text expanded : CStr) (rest : List CStr),
        text ≠ [] →
        expandVars sh.env sh.shellVars (stripNewline text) = Run.done expanded →
        '|' ∉ expanded →
        parseInput expanded = Run.done ("exit".toList :: rest) →
        processInput w sh (ReadResult.line text) = Step.exit 0 sh) ∧
    (∀ (w : World) (isInteractiveMode : Bool) (sh sh1 : Shell) (r : ReadResult)
        (rest : List ReadResult) (code : Int),
        processInput w (displayPrompt isInteractiveMode sh) r = Step.exit code sh1 →
        mainLoop w isInteractiveMode (r :: rest) sh = Step.exit code sh1) ∧
    (main (World.plain []) (fun _ => none) [] Shell.fresh
        ["a".toList, "b".toList]).exitCode = some (-1) ∧
    (main (World.plain []) (fun _ => none) [] Shell.fresh ["nofile".toList]).exitCode
      = some (-1) ∧
    (main (World.plain ["echo".toList])
        (fun p => if p = "batch".toList then some [ReadResult.line "echo hi\n".toList] else none)
        [] Shell.fresh ["batch".toList]).exitCode = some 0 ∧
    (main (World.plain []) (fun _ => none)
        [ReadResult.line "exit\n".toList, ReadResult.line "ls\n".toList]
        Shell.fresh []).exitCode = some 0 ∧
    (main (World.plain []) (fun _ => none) [] Shell.fresh []).exitCode = some 0 := by
  refine ⟨?_, ?_, ?_, ?_, ?_, by decide, by decide, by decide, by decide, by decide⟩
  · intro w openFile stdin sh args h
    unfold main
    rw [if_pos (by omega)]
    rfl
  · intro w openFile stdin sh path h
    unfold main
    rw [if_neg (by simp)]
    simp only [h]
    rfl
  · intro w isInteractiveMode sh
    rfl
  · intro w sh text expanded rest hne hexp hpipe hargs
    simp only [processInput, hne, if_false, hexp, hpipe, hargs]
    rfl
  · intro w isInteractiveMode sh sh1 r rest code h
    rw [mainLoop, h]
theorem writeSlot_of_lt (slots : List (Option CStr)) (i : Nat) (v : Option CStr)
    (h : i < slots.length) : writeSlot slots (i : Int) v = Run.done (slots.set i v) := by
  unfold writeSlot
  rw [if_pos ⟨by omega, by omega⟩, Int.toNat_ofNat]

/-- The copy loop of `resizeHistory` copies the slots `i .. i + todo - 1`. -/
theorem copyLoop_eq (commands : List (Option CStr)) :
    ∀ (todo i : Nat) (slots : List (Option CStr)),
      i + todo ≤ commands.length → i + todo ≤ slots.length →
      copyLoop commands todo i slots =
        Run.done (slots.take i ++ (commands.drop i).take todo ++ slots.drop (i + todo)) := by
  intro todo
  induction todo with
  | zero =>
    intro i slots _ _
    rw [copyLoop]
    simp
  | succ todo ih =>
    intro i slots h1 h2
    have hi1 : i < commands.length := by omega
    have hi2 : i < slots.length := by omega
    rw [copyLoop, readSlot_of_lt commands i hi1]
    simp only []
    rw [writeSlot_of_lt slots i _ hi2]
    simp only []
    rw [ih (i + 1) _ (by omega) (by rw [List.length_set]; omega)]
    have hg : commands.getD i none = commands.get ⟨i, hi1⟩ := by
      rw [List.getD_eq_getElem?_getD, List.getElem?_eq_getElem hi1]
      rfl
    have e1 : (slots.set i (commands.getD i none)).take (i + 1)
        = slots.take i ++ [commands.get ⟨i, hi1⟩] := by
      rw [List.take_succ, take_set_of_le slots i i _ (Nat.le_refl _),
        List.getElem?_set_self hi2, hg]
      rfl
    have e2 : (slots.set i (commands.getD i none)).drop (i + 1 + todo)
        = slots.drop (i + (todo + 1)) := by
      rw [List.drop_set_of_lt _ _ (by omega)]
      congr 1
      omega
    have e3 : (commands.drop i).take (todo + 1)
        = commands.get ⟨i, hi1⟩ :: (commands.drop (i + 1)).take todo := by
      rw [List.drop_eq_getElem_cons hi1, List.take_succ_cons]
      rfl
    rw [e1, e2, e3]
    simp only [List.append_assoc, List.singleton_append]

theorem initHistory_holds : initHistory.Holds [] :=
  ⟨by decide, by decide, by decide, by decide⟩

/-- On a history that holds the entries `h`, `resizeHistory` with a size that
is not negative goes through, and the history then has that capacity and holds
the first entries of `h`, as many as fit. -/
theorem resizeHistory_holds (history : CommandHistory) (h : List CStr) (n : Nat)
    (hh : history.Holds h) :
    ∃ history1, resizeHistory history (n : Int) = Run.done history1 ∧
      history1.maxSize = (n : Int) ∧ history1.Holds (h.take n) := by
  cases n with
  | zero =>
    refine ⟨⟨[], 0, 0⟩, ?_, rfl, ?_⟩
    · unfold resizeHistory
      simp only [Int.Nat.cast_ofNat_Int, if_true]
      rfl
    · rw [List.take_zero]
      exact ⟨rfl, rfl, Nat.le_refl _, rfl⟩
  | succ m =>
    obtain ⟨slots, maxSize, currSize⟩ := history
    obtain ⟨h1, h2, h3, h4⟩ := hh
    simp only at h1 h2 h3 h4
    subst h1 h2
    unfold resizeHistory
    have hnz : ¬ (((m + 1 : Nat) : Int) = 0) := by omega
    simp only [if_neg hnz, Int.toNat_ofNat]
    by_cases hlt : h.length < m + 1
    · have hc : ((h.length : Nat) : Int) < ((m + 1 : Nat) : Int) := by omega
      rw [if_pos hc, Int.toNat_ofNat,
        copyLoop_eq slots h.length 0 _ (by omega) (by rw [List.length_replicate]; omega)]
      refine ⟨_, rfl, rfl, ?_⟩
      have ht : h.take (m + 1) = h := List.take_of_length_le (by omega)
      rw [ht]
      simp only [List.take_zero, List.nil_append, List.drop_zero, Nat.zero_add]
      refine ⟨?_, rfl, ?_, ?_⟩
      · simp only [List.length_append, List.length_take, List.length_drop,
          List.length_replicate]
        omega
      · simp only [List.length_append, List.length_take, List.length_drop,
          List.length_replicate]
        omega
      · rw [List.take_append_of_le_length (by rw [List.length_take]; omega),
          List.take_of_length_le (by rw [List.length_take]; omega), h4]
    · have hc : ¬ (((h.length : Nat) : Int) < ((m + 1 : Nat) : Int)) := by omega
      rw [if_neg hc, Int.toNat_ofNat,
        copyLoop_eq slots (m + 1) 0 _ (by omega) (by rw [List.length_replicate]; omega)]
      refine ⟨_, rfl, rfl, ?_⟩
      have hl : (h.take (m + 1)).length = m + 1 := by
        rw [List.length_take]; omega
      have hd : List.drop (0 + (m + 1)) (List.replicate (m + 1) (none : Option CStr)) = [] := by
        rw [List.drop_eq_nil_iff, List.length_replicate]; omega
      rw [hd]
      simp only [List.take_zero, List.nil_append, List.drop_zero, List.append_nil]
      have hts : (List.take (m + 1) slots).length = m + 1 := by
        rw [List.length_take]; omega
      refine ⟨?_, ?_, ?_, ?_⟩
      · simp only [hts]
      · simp only [hl]
      · simp only [hl, hts]; exact Nat.le_refl _
      · have key : List.map some (List.take (m + 1) h) = List.take (m + 1) slots := by
          rw [List.map_take, ← h4, List.take_take]
          congr 1
          omega
        rw [hl, key]
        show List.take (m + 1) (List.take (m + 1) slots) = List.take (m + 1) slots
        rw [List.take_take, Nat.min_self]

/-- Starting from a history that holds some entries, a sequence of operations
whose resize sizes are not negative goes through and ends in a history that
holds some entries. -/
theorem runHistoryOps_holds :
    ∀ (ops : List HistoryOp) (history : CommandHistory) (h : List CStr),
      history.Holds h → sizesNonNegative ops = true →
      ∃ history1 h1, runHistoryOps ops history = Run.done history1 ∧ history1.Holds h1 := by
  intro ops
  induction ops with
  | nil =>
    intro history h hh _
    exact ⟨history, h, rfl, hh⟩
  | cons op ops ih =>
    intro history h hh hs
    simp only [sizesNonNegative, List.all_cons, Bool.and_eq_true] at hs
    obtain ⟨hs1, hs2⟩ := hs
    cases op with
    | add line =>
      obtain ⟨history1, a1, _, a3, _⟩ := addHistory_holds history h line hh
      rw [runHistoryOps, a1]
      exact ih history1 _ a3 hs2
    | resize newSize =>
      simp only [decide_eq_true_eq] at hs1
      obtain ⟨n, hn⟩ : ∃ n : Nat, newSize = (n : Int) := ⟨newSize.toNat, by omega⟩
      subst hn
      obtain ⟨history1, a1, _, a3⟩ := resizeHistory_holds history h n hh
      rw [runHistoryOps, a1]
      exact ih history1 _ a3 hs2

/-- C19, evaluated: starting from the initial history, every sequence of
`addHistory` and `resizeHistory` calls whose sizes are not negative goes
through and keeps `0 ≤ currSize ≤ maxSize`, and a resize to `n ≥ 0` keeps the
first `min(currSize, n)` entries in their order; but the resize to `-1` that
`history set -1` makes leaves `maxSize = -1` and `currSize = -1` with no array,
and the next `addHistory` reads outside the array. -/
theorem C19_negative_resize_breaks_invariant :
    (∀ ops : List HistoryOp, sizesNonNegative ops = true →
      ∃ history h, runHistoryOps ops initHistory = Run.done history ∧ history.Holds h ∧
        0 ≤ history.currSize ∧ history.currSize ≤ history.maxSize) ∧
    (∀ (history : CommandHistory) (h : List CStr) (n : Nat), history.Holds h →
      ∃ history1, resizeHistory history (n : Int) = Run.done history1 ∧
        history1.maxSize = (n : Int) ∧ history1.currSize = ((min h.length n : Nat) : Int) ∧
        history1.entries = (h.take n).map some) ∧
    runHistoryOps [HistoryOp.resize (-1)] initHistory = Run.done ⟨[], -1, -1⟩ ∧
    runHistoryOps [HistoryOp.add "a".toList, HistoryOp.resize (-1)] initHistory
      = Run.done ⟨[], -1, -1⟩ ∧
    runHistoryOps [HistoryOp.resize (-1), HistoryOp.add "ls".toList] initHistory
      = Run.outOfBounds ∧
    atoi "-1".toList = -1 ∧
    (processInput (World.plain []) Shell.fresh
      (ReadResult.line "history set -1\n".toList)).shell.history = ⟨[], -1, -1⟩ := by
  refine ⟨?_, ?_, by decide, by decide, by decide, by decide, by decide⟩
  · intro ops hs
    obtain ⟨history, h, a1, a2⟩ := runHistoryOps_holds ops initHistory [] initHistory_holds hs
    exact ⟨history, h, a1, a2, a2.bounds.1, a2.bounds.2⟩
  · intro history h n hh
    obtain ⟨history1, a1, a2, a3⟩ := resizeHistory_holds history h n hh
    refine ⟨history1, a1, a2, ?_, a3.entries⟩
    rw [a3.2.1, List.length_take]
    congr 1
    exact Nat.min_comm _ _

end Vnsh
